import Mathlib

/-!
# InputSplitBase: splitting a concatenation of files among workers

A shallow embedding of `src/io/input_split_base.cc` (namespace `dmlc::io`).

Modelling conventions.

* `size_t` and `unsigned` values are natural numbers. Where the source adds or
  multiplies values that the caller chooses freely (the step and the raw range
  of lines 24-28 of `Init`, the truncation of lines 105-107 of `Read`), the
  result is taken modulo `2^64` (`size_t`), and `rank + 1` modulo `2^32`
  (`unsigned`). The offset table, the cursor and the buffer sizes are sums of
  sizes of files and buffers that exist, and stay natural numbers.
* `CHECK` / `LOG(FATAL)` abort the call: `Err.fatal`. Behaviour the C++ standard
  leaves undefined (division by zero, an index outside a vector, a read
  through a null stream pointer) is `Err.undefined`. Loops get a fuel
  argument computed by the caller; running out of it is `Err.fuel`.
* The filesystem and the two record hooks are collaborators outside the
  source file; they are parameters (`FileSystem`, `Hooks`). A stream opened
  on a path yields the bytes `FileSystem.bytes path`; its `Read` returns short
  only at the end of those bytes.
* A pointer into a chunk buffer is an offset from the start of the buffer;
  `none` is `NULL`.
-/

set_option autoImplicit false

namespace dmlc

/-! ## Data model -/

/-- Outcome of a call that does not return normally. -/
inductive Err where
  | fatal (msg : String)
  | undefined (what : String)
  | fuel
  deriving DecidableEq

deriving instance DecidableEq for Except

/-- File kinds reported by the filesystem (`kFile`, `kDirectory`). -/
inductive FileType where
  | kFile
  | kDirectory
  deriving DecidableEq

/-- Metadata of one path, as `FileSystem::GetPathInfo` reports it. -/
structure FileInfo where
  path : String
  size : Nat
  type : FileType
  deriving DecidableEq

/-- An open read stream: the bytes behind it and the current position. -/
structure Stream where
  data : List UInt8
  pos : Nat
  deriving DecidableEq

/-- The filesystem collaborator. `bytes p` is what a stream opened on `p` yields. -/
structure FileSystem where
  GetPathInfo : String → FileInfo
  ListDirectory : String → List FileInfo
  bytes : String → List UInt8

/-- The two record hooks a format-specific subclass supplies.
`SeekRecordBegin` gets a positioned stream and returns the forward distance to
the next record start together with the stream as it leaves it;
`FindLastRecordBegin` gets the bytes `[begin, end)` and returns the offset of
the returned pointer from `begin`. -/
structure Hooks where
  SeekRecordBegin : Stream → Nat × Stream
  FindLastRecordBegin : List UInt8 → Nat

/-- `Chunk`: the span `[begin, end_)` of valid bytes, the element count of the
`size_t` vector `data`, and `mem`, the bytes at the front of that vector as far
as `ReadChunk` has written them. -/
structure Chunk where
  begin : Option Nat
  end_ : Option Nat
  dataSize : Nat
  mem : List UInt8
  deriving DecidableEq

/-- `Blob`: a pointer into a chunk buffer and a length. -/
structure Blob where
  dptr : Option Nat
  size : Nat
  deriving DecidableEq

/-- The fields of `InputSplitBase`. -/
structure InputSplitBase where
  files_ : List FileInfo
  file_offset_ : List Nat
  offset_begin_ : Nat
  offset_end_ : Nat
  offset_curr_ : Nat
  file_ptr_ : Nat
  file_ptr_end_ : Nat
  fs_ : Option Stream
  overflow_ : List UInt8
  tmp_chunk_ : Chunk
  deriving DecidableEq

/-- `sizeof(size_t)` on the 64-bit targets of the library. -/
def sizeofSizeT : Nat := 8

/-! ## Streams -/

/-- `FileSystem::OpenForRead`: a stream at position 0 over the file's bytes. -/
def FileSystem.OpenForRead (filesys : FileSystem) (path : String) : Stream :=
  { data := filesys.bytes path, pos := 0 }

/-- `Stream::Seek`. -/
def Stream.Seek (st : Stream) (p : Nat) : Stream :=
  { st with pos := p }

/-- `Stream::Read(buf, n)`: the bytes delivered and the advanced stream. -/
def Stream.Read (st : Stream) (n : Nat) : List UInt8 × Stream :=
  let got := (st.data.drop st.pos).take n
  (got, { st with pos := st.pos + got.length })

/-! ## The file index -/

/-- All tokens `std::strtok` yields for one delimiter: the maximal non-empty
runs of other characters. `cur` is the token being read, reversed. -/
def strtokAux (dlm : Char) : List Char → List Char → List String
  | [], cur => if cur = [] then [] else [String.mk cur.reverse]
  | c :: cs, cur =>
    if c = dlm then
      if cur = [] then strtokAux dlm cs [] else String.mk cur.reverse :: strtokAux dlm cs []
    else strtokAux dlm cs (c :: cur)

/-- What one path of the list contributes to `files_` (lines 85-99). -/
def pathFiles (filesys : FileSystem) (p : String) : List FileInfo :=
  let info := filesys.GetPathInfo p
  if info.type = FileType.kDirectory then
    (filesys.ListDirectory info.path).filter
      (fun f => decide (f.size ≠ 0) && decide (f.type = FileType.kFile))
  else if info.size ≠ 0 then [info] else []

/-- `InputSplitBase::InitInputFileInfo`. -/
def InputSplitBase.InitInputFileInfo (filesys : FileSystem) (this : InputSplitBase)
    (uri : String) : InputSplitBase :=
  { this with
    files_ := this.files_ ++ ((strtokAux ';' uri.data []).map (pathFiles filesys)).flatten }

/-- The table lines 16-19 of `Init` build: running sums of the sizes, from `acc`. -/
def fileOffsetsFrom (acc : Nat) : List FileInfo → List Nat
  | [] => [acc]
  | f :: fs => acc :: fileOffsetsFrom (acc + f.size) fs

/-- The table `file_offset_` for a file list. -/
def fileOffsets (files : List FileInfo) : List Nat :=
  fileOffsetsFrom 0 files

/-- `std::upper_bound(l.begin(), l.end(), x) - l.begin()` on a sorted `l`:
the index of the first element greater than `x`. -/
def upper_bound : List Nat → Nat → Nat
  | [], _ => 0
  | a :: l, x => if x < a then 0 else upper_bound l x + 1

/-! ## Init and BeforeFirst -/

/-- The value a `size_t` holds after a sum or product: arithmetic on unsigned
64-bit integers wraps modulo `2^64`. -/
def size_t (n : Nat) : Nat :=
  n % 2 ^ 64

/-- Line 24 and line 26 of `Init`: the step between raw range starts. The
sums and the product are `size_t` arithmetic (`nsplit` is converted to
`size_t`); from `nsplit ≥ 1` and `align_bytes ≥ 1` on, which line 24 and
line 26 need for their divisions, the subtractions of 1 do not go below 0. -/
def nstepOf (ntotal nsplit align_bytes : Nat) : Nat :=
  let nstep := size_t (ntotal + nsplit - 1) / nsplit
  size_t (size_t (nstep + align_bytes - 1) / align_bytes * align_bytes)

/-- Line 27: the raw `offset_begin_`. The product is `size_t` arithmetic. -/
def rawBegin (ntotal nsplit align_bytes rank : Nat) : Nat :=
  min (size_t (nstepOf ntotal nsplit align_bytes * rank)) ntotal

/-- Line 28: the raw `offset_end_`. `rank + 1` is `unsigned` arithmetic and
wraps modulo `2^32`; the product is `size_t` arithmetic. -/
def rawEnd (ntotal nsplit align_bytes rank : Nat) : Nat :=
  min (size_t (nstepOf ntotal nsplit align_bytes * ((rank + 1) % 2 ^ 32))) ntotal

/-- `InputSplitBase::BeforeFirst`. -/
def InputSplitBase.BeforeFirst (filesys : FileSystem) (s : InputSplitBase) :
    Except Err InputSplitBase :=
  if s.offset_begin_ ≥ s.offset_end_ then .ok s
  else
    let fp := upper_bound s.file_offset_ s.offset_begin_ - 1
    let reopened : Except Err InputSplitBase :=
      if s.file_ptr_ ≠ fp then
        match s.files_[fp]? with
        | some f => .ok { s with file_ptr_ := fp, fs_ := some (filesys.OpenForRead f.path) }
        | none => .error (.undefined "files_ index")
      else .ok s
    match reopened with
    | .error e => .error e
    | .ok s1 =>
      match s1.fs_, s1.file_offset_[s1.file_ptr_]? with
      | some st, some off =>
        .ok { s1 with
              fs_ := some (st.Seek (s1.offset_begin_ - off))
              offset_curr_ := s1.offset_begin_
              tmp_chunk_ := { s1.tmp_chunk_ with begin := none, end_ := none }
              overflow_ := [] }
      | none, _ => .error (.undefined "null stream")
      | _, none => .error (.undefined "file_offset_ index")

/-- Lines 16-29 of `Init`: the offset table, the alignment check and the raw range. -/
def InputSplitBase.InitRaw (s : InputSplitBase) (rank nsplit align_bytes : Nat) :
    Except Err InputSplitBase :=
  if s.files_ ≠ [] ∧ align_bytes = 0 then .error (.undefined "division by zero")
  else if ¬ (∀ f ∈ s.files_, f.size % align_bytes = 0) then
    .error (.fatal "file do not align")
  else if nsplit = 0 ∨ align_bytes = 0 then .error (.undefined "division by zero")
  else
    let offs := fileOffsets s.files_
    let ntotal := offs.getLastD 0
    .ok { s with
          file_offset_ := offs
          offset_begin_ := rawBegin ntotal nsplit align_bytes rank
          offset_end_ := rawEnd ntotal nsplit align_bytes rank
          offset_curr_ := rawBegin ntotal nsplit align_bytes rank }

/-- Lines 38-45 of `Init`: move `offset_end_` to a record start. -/
def InputSplitBase.realignEnd (filesys : FileSystem) (hk : Hooks) (s : InputSplitBase) :
    Except Err InputSplitBase :=
  match s.file_offset_[s.file_ptr_end_]? with
  | none => .error (.undefined "file_offset_ index")
  | some off =>
    if s.offset_end_ ≠ off then
      if ¬ (s.offset_end_ > off) then
        .error (.fatal "Check failed: offset_end_ > file_offset_[file_ptr_end_]")
      else if ¬ (s.file_ptr_end_ < s.files_.length) then
        .error (.fatal "Check failed: file_ptr_end_ < files_.size()")
      else
        match s.files_[s.file_ptr_end_]? with
        | none => .error (.undefined "files_ index")
        | some f =>
          let st := (filesys.OpenForRead f.path).Seek (s.offset_end_ - off)
          .ok { s with offset_end_ := s.offset_end_ + (hk.SeekRecordBegin st).1 }
    else .ok s

/-- Lines 46-50 of `Init`: open the first file of the range and move
`offset_begin_` to a record start. -/
def InputSplitBase.realignBegin (filesys : FileSystem) (hk : Hooks) (s : InputSplitBase) :
    Except Err InputSplitBase :=
  match s.files_[s.file_ptr_]?, s.file_offset_[s.file_ptr_]? with
  | some f, some off =>
    let st := filesys.OpenForRead f.path
    if s.offset_begin_ ≠ off then
      let r := hk.SeekRecordBegin (st.Seek (s.offset_begin_ - off))
      .ok { s with fs_ := some r.2, offset_begin_ := s.offset_begin_ + r.1 }
    else .ok { s with fs_ := some st }
  | none, _ => .error (.undefined "files_ index")
  | _, none => .error (.undefined "file_offset_ index")

/-- `InputSplitBase::Init`, on the object `this` as the constructor left it. -/
def InputSplitBase.Init (filesys : FileSystem) (hk : Hooks) (this : InputSplitBase)
    (uri : String) (rank nsplit align_bytes : Nat) : Except Err InputSplitBase :=
  match (this.InitInputFileInfo filesys uri).InitRaw rank nsplit align_bytes with
  | .error e => .error e
  | .ok s =>
    if s.offset_begin_ = s.offset_end_ then .ok s
    else
      let s1 := { s with
                  file_ptr_ := upper_bound s.file_offset_ s.offset_begin_ - 1
                  file_ptr_end_ := upper_bound s.file_offset_ s.offset_end_ - 1 }
      match s1.realignEnd filesys hk with
      | .error e => .error e
      | .ok s2 =>
        match s2.realignBegin filesys hk with
        | .error e => .error e
        | .ok s3 => s3.BeforeFirst filesys

/-! ## Read -/

/-- The `while (true)` loop of `Read` (lines 111-123). `nleft` is the number of
bytes still wanted and `buf` the bytes placed so far; the result carries the
final `nleft`. Every pass but the last moves `file_ptr_` forward. -/
def InputSplitBase.ReadLoop (filesys : FileSystem) :
    Nat → InputSplitBase → Nat → List UInt8 → Except Err (Nat × List UInt8 × InputSplitBase)
  | 0, _, _, _ => .error .fuel
  | fuel + 1, s, nleft, buf =>
    match s.fs_ with
    | none => .error (.undefined "null stream")
    | some st =>
      let r := st.Read nleft
      let nleft1 := nleft - r.1.length
      let s1 := { s with fs_ := some r.2, offset_curr_ := s.offset_curr_ + r.1.length }
      if nleft1 = 0 then .ok (nleft1, buf ++ r.1, s1)
      else
        match s1.file_offset_[s1.file_ptr_ + 1]? with
        | none => .error (.undefined "file_offset_ index")
        | some off =>
          if s1.offset_curr_ ≠ off then .error (.fatal "FILE size not calculated correctly")
          else if s1.file_ptr_ + 1 ≥ s1.files_.length then .ok (nleft1, buf ++ r.1, s1)
          else
            match s1.files_[s1.file_ptr_ + 1]? with
            | none => .error (.undefined "files_ index")
            | some f =>
              InputSplitBase.ReadLoop filesys fuel
                { s1 with file_ptr_ := s1.file_ptr_ + 1, fs_ := some (filesys.OpenForRead f.path) }
                nleft1 (buf ++ r.1)

/-- The request after the truncation at lines 105-107. The sum
`offset_curr_ + size` and the difference `offset_end_ - offset_curr_` are
`size_t` arithmetic and wrap modulo `2^64`. -/
def InputSplitBase.readSize (s : InputSplitBase) (size : Nat) : Nat :=
  if size_t (s.offset_curr_ + size) > s.offset_end_ then
    size_t (s.offset_end_ + 2 ^ 64 - s.offset_curr_)
  else size

/-- `InputSplitBase::Read(ptr, size)`: the returned count, the bytes placed at
`ptr`, and the split afterwards. -/
def InputSplitBase.Read (filesys : FileSystem) (s : InputSplitBase) (size : Nat) :
    Except Err (Nat × List UInt8 × InputSplitBase) :=
  let size1 := s.readSize size
  if size1 = 0 then .ok (0, [], s)
  else
    match InputSplitBase.ReadLoop filesys (s.files_.length + 1) s size1 [] with
    | .error e => .error e
    | .ok (nleft, buf, s1) => .ok (size1 - nleft, buf, s1)

/-! ## ReadChunk, Load and ExtractNextChunk -/

/-- What `ReadChunk` hands back: its return value, the final `*size`, and the
buffer `buf` afterwards. -/
structure ChunkResult where
  ret : Bool
  size : Nat
  buf : List UInt8
  deriving DecidableEq

/-- Overwrite the front of `mem` with `w` (a `memcpy` to the buffer start). -/
def writeFront (w mem : List UInt8) : List UInt8 :=
  w ++ mem.drop w.length

/-- `InputSplitBase::ReadChunk(buf, size)` with `*size = max_size` on entry and
`mem` the buffer contents on entry. -/
def InputSplitBase.ReadChunk (filesys : FileSystem) (hk : Hooks) (s : InputSplitBase)
    (mem : List UInt8) (max_size : Nat) : Except Err (ChunkResult × InputSplitBase) :=
  if max_size ≤ s.overflow_.length then .ok ({ ret := true, size := 0, buf := mem }, s)
  else
    let front := s.overflow_
    let olen := s.overflow_.length
    match InputSplitBase.Read filesys { s with overflow_ := [] } (max_size - olen) with
    | .error e => .error e
    | .ok (n, got, s1) =>
      let nread := n + olen
      let mem1 := writeFront (front ++ got) mem
      if nread = 0 then .ok ({ ret := false, size := max_size, buf := mem1 }, s1)
      else if nread ≠ max_size then .ok ({ ret := true, size := nread, buf := mem1 }, s1)
      else
        let bend := hk.FindLastRecordBegin (mem1.take max_size)
        .ok ({ ret := true, size := bend, buf := mem1 },
             { s1 with overflow_ := (mem1.drop bend).take (max_size - bend) })

/-- The `while (true)` loop of `Chunk::Load` (lines 161-174). The guard word
`data.back()` lies behind the capacity handed to `ReadChunk` and is not part
of `mem`. -/
def Chunk.LoadLoop (filesys : FileSystem) (hk : Hooks) :
    Nat → Chunk → InputSplitBase → Except Err (Bool × Chunk × InputSplitBase)
  | 0, _, _ => .error .fuel
  | fuel + 1, c, split =>
    let size := (c.dataSize - 1) * sizeofSizeT
    match split.ReadChunk filesys hk c.mem size with
    | .error e => .error e
    | .ok (r, split1) =>
      if r.ret = false then .ok (false, { c with mem := r.buf }, split1)
      else if r.size = 0 then
        Chunk.LoadLoop filesys hk fuel { c with mem := r.buf, dataSize := c.dataSize * 2 } split1
      else .ok (true, { c with mem := r.buf, begin := some 0, end_ := some r.size }, split1)

/-- Passes of the loop of `Load` that are always enough: each pass that does
not leave the loop doubles `data.size()`. -/
def loadFuel (split : InputSplitBase) : Nat :=
  split.overflow_.length + (split.offset_end_ - split.offset_curr_) + 2

/-- `InputSplitBase::Chunk::Load(split, buffer_size)`. -/
def Chunk.Load (filesys : FileSystem) (hk : Hooks) (c : Chunk) (split : InputSplitBase)
    (buffer_size : Nat) : Except Err (Bool × Chunk × InputSplitBase) :=
  let c1 := if buffer_size + 1 > c.dataSize then { c with dataSize := buffer_size + 1 } else c
  Chunk.LoadLoop filesys hk (loadFuel split) c1 split

/-- `InputSplitBase::ExtractNextChunk(out_chunk, chunk)`: the return value, the
blob and the chunk afterwards. -/
def ExtractNextChunk (out_chunk : Blob) (chunk : Chunk) : Bool × Blob × Chunk :=
  if chunk.begin = chunk.end_ then (false, out_chunk, chunk)
  else
    (true,
     { dptr := chunk.begin, size := chunk.end_.getD 0 - chunk.begin.getD 0 },
     { chunk with begin := chunk.end_ })

/-! ## Consuming a split -/

/-- The bytes a blob points at in a chunk buffer. -/
def blobBytes (mem : List UInt8) (b : Blob) : List UInt8 :=
  (mem.drop (b.dptr.getD 0)).take b.size

/-- Consume a split: `Load` on the split's own chunk `tmp_chunk_`, then
`ExtractNextChunk`, until `Load` returns false. The result lists the bytes of
the blobs in the order they were handed out. -/
def consume (filesys : FileSystem) (hk : Hooks) (buffer_size : Nat) :
    Nat → InputSplitBase → Except Err (List (List UInt8) × InputSplitBase)
  | 0, _ => .error .fuel
  | fuel + 1, s =>
    match s.tmp_chunk_.Load filesys hk s buffer_size with
    | .error e => .error e
    | .ok (false, c, s1) => .ok ([], { s1 with tmp_chunk_ := c })
    | .ok (true, c, s1) =>
      let r := ExtractNextChunk { dptr := none, size := 0 } c
      match consume filesys hk buffer_size fuel { s1 with tmp_chunk_ := r.2.2 } with
      | .error e => .error e
      | .ok (blobs, s2) => .ok (blobBytes c.mem r.2.1 :: blobs, s2)

/-- Calls of `Load` that are always enough to exhaust a split: every successful
`Load` hands out at least one of the bytes still to be delivered. -/
def consumeFuel (s : InputSplitBase) : Nat :=
  s.overflow_.length + (s.offset_end_ - s.offset_curr_) + 1

/-- Consume a split to exhaustion. -/
def consumeAll (filesys : FileSystem) (hk : Hooks) (buffer_size : Nat) (s : InputSplitBase) :
    Except Err (List (List UInt8) × InputSplitBase) :=
  consume filesys hk buffer_size (consumeFuel s) s

/-! ## Example collaborators

A filesystem holding one regular file `"a"`, and the hooks of a splitter for
records that end in a line break. They serve as concrete inputs. -/

/-- The object before `Init`: empty containers and no open stream. -/
def blank : InputSplitBase :=
  { files_ := [], file_offset_ := [], offset_begin_ := 0, offset_end_ := 0, offset_curr_ := 0,
    file_ptr_ := 0, file_ptr_end_ := 0, fs_ := none, overflow_ := [],
    tmp_chunk_ := { begin := none, end_ := none, dataSize := 0, mem := [] } }

/-- A filesystem with the single regular file `"a"` of the given content. -/
def oneFile (content : List UInt8) : FileSystem :=
  { GetPathInfo := fun p =>
      { path := p, size := if p = "a" then content.length else 0, type := FileType.kFile }
    ListDirectory := fun _ => []
    bytes := fun p => if p = "a" then content else [] }

/-- Line feed or carriage return. -/
def isEol (c : UInt8) : Bool := c == 10 || c == 13

/-- A `SeekRecordBegin` for line records: read up to and including the first
line break, then the line breaks that follow and one more byte. -/
def lineSeek (st : Stream) : Nat × Stream :=
  let rest := st.data.drop st.pos
  let a := rest.takeWhile (fun c => !isEol c)
  match rest.drop a.length with
  | [] => (a.length, { st with pos := st.pos + a.length })
  | _ :: rest2 =>
    let b := rest2.takeWhile isEol
    match rest2.drop b.length with
    | [] => (a.length + 1 + b.length, { st with pos := st.pos + a.length + 1 + b.length })
    | _ :: _ =>
      (a.length + 1 + b.length, { st with pos := st.pos + a.length + 1 + b.length + 1 })

/-- A `FindLastRecordBegin` for line records: the position behind the last line
break at an index from 1 on, or the start of the range. -/
def lineFindLast (buf : List UInt8) : Nat :=
  match buf with
  | [] => 0
  | _ :: tl =>
    let k := (tl.reverse.takeWhile (fun c => !isEol c)).length
    if k = tl.length then 0 else buf.length - k

/-- The hooks of the line splitter. -/
def lineHooks : Hooks :=
  { SeekRecordBegin := lineSeek, FindLastRecordBegin := lineFindLast }

/-- The bytes of the indexed files, concatenated in index order. -/
def concatBytes (filesys : FileSystem) (files : List FileInfo) : List UInt8 :=
  (files.map (fun f => filesys.bytes f.path)).flatten

/-- The file `"a"` with the 8 bytes `abcde\ngh`: a line of 6 bytes and an
unfinished line of 2 bytes. -/
def fsLine : FileSystem := oneFile [97, 98, 99, 100, 101, 10, 103, 104]

/-- The split `Init` returns for rank 1 of 4 over `fsLine`: the raw range
`[2, 4)` holds no record start, both ends move to 6, the cursor stays at 2 and
the stream stays where the hook left it. -/
def staleSplit : InputSplitBase :=
  { files_ := [{ path := "a", size := 8, type := .kFile }], file_offset_ := [0, 8],
    offset_begin_ := 6, offset_end_ := 6, offset_curr_ := 2, file_ptr_ := 0, file_ptr_end_ := 0,
    fs_ := some { data := [97, 98, 99, 100, 101, 10, 103, 104], pos := 7 }, overflow_ := [],
    tmp_chunk_ := blank.tmp_chunk_ }

/-- The split `Init` returns for rank 3 of 4 over `fsLine`: the raw range
`[6, 8)`, whose begin moves to the end of the file. -/
def staleSplitLast : InputSplitBase :=
  { files_ := [{ path := "a", size := 8, type := .kFile }], file_offset_ := [0, 8],
    offset_begin_ := 8, offset_end_ := 8, offset_curr_ := 6, file_ptr_ := 0, file_ptr_end_ := 1,
    fs_ := some { data := [97, 98, 99, 100, 101, 10, 103, 104], pos := 8 }, overflow_ := [],
    tmp_chunk_ := blank.tmp_chunk_ }

/-- A `SeekRecordBegin` that depends on the in-file position only: distance 6
at position 2, distance 0 elsewhere. -/
def jumpHooks : Hooks :=
  { SeekRecordBegin := fun st => (if st.pos = 2 then 6 else 0, st)
    FindLastRecordBegin := lineFindLast }

/-- A `SeekRecordBegin` that depends on the in-file position only and whose
target never goes back: from every position it points at position 12. -/
def overshootHooks : Hooks :=
  { SeekRecordBegin := fun st => (12 - st.pos, st)
    FindLastRecordBegin := lineFindLast }

/-- How far a scanner of 4-byte words goes: it reads word after word up to a
word `1 1 1 1` or the end of the stream and counts 4 bytes for every other
word it read, a short last word included. -/
def wordSkip : Nat → List UInt8 → Nat
  | 0, _ => 0
  | fuel + 1, rest =>
    if rest = [] then 0
    else if rest.take 4 = [1, 1, 1, 1] then 0
    else 4 + wordSkip fuel (rest.drop 4)

/-- A `SeekRecordBegin` for records that start with the word `1 1 1 1` on a
grid of 4 bytes. -/
def wordHooks : Hooks :=
  { SeekRecordBegin := fun st =>
      (wordSkip st.data.length (st.data.drop st.pos),
       { st with pos := st.pos + wordSkip st.data.length (st.data.drop st.pos) })
    FindLastRecordBegin := lineFindLast }

/-- The file `"a"` with four words of 4 bytes; the second is `1 1 1 1`. -/
def fsWords : FileSystem := oneFile [0, 0, 0, 0, 1, 1, 1, 1, 2, 2, 2, 2, 3, 3, 3, 3]

/-- A filesystem whose regular file `"a"` is reported with `2^62` bytes. The
runs below read no byte of it. -/
def hugeFs : FileSystem :=
  { GetPathInfo := fun p =>
      { path := p, size := if p = "a" then 2 ^ 62 else 0, type := FileType.kFile }
    ListDirectory := fun _ => []
    bytes := fun _ => [] }

/-- One record of 40 bytes: 39 letters and a line feed. -/
def record40 : List UInt8 := List.replicate 39 97 ++ [10]

/-- Three lines of 4 bytes and one line of 20 bytes. -/
def fourLines : List UInt8 :=
  [97, 97, 97, 10, 98, 98, 98, 10, 99, 99, 99, 10] ++ List.replicate 19 100 ++ [10]

/-- The split of the only worker over one file, or `blank` if `Init` fails. -/
def soleSplit (content : List UInt8) : InputSplitBase :=
  match InputSplitBase.Init (oneFile content) lineHooks blank "a" 0 1 1 with
  | .ok s => s
  | .error _ => blank

/-- The blob lengths of a full pass and the final `data.size()` of the chunk. -/
def passShape (r : Except Err (List (List UInt8) × InputSplitBase)) : Option (List Nat × Nat) :=
  r.toOption.map (fun x => (x.1.map List.length, x.2.tmp_chunk_.dataSize))

/-- A full pass, `BeforeFirst`, and a second full pass; the result is that of
the second pass. -/
def secondPass (filesys : FileSystem) (hk : Hooks) (buffer_size : Nat) (s : InputSplitBase) :
    Except Err (List (List UInt8) × InputSplitBase) :=
  match consumeAll filesys hk buffer_size s with
  | .error e => .error e
  | .ok (_, s1) =>
    match s1.BeforeFirst filesys with
    | .error e => .error e
    | .ok s2 => consumeAll filesys hk buffer_size s2

/-- The raw range `InitRaw` leaves for a file list of the given sizes. -/
def rawRangeOf (sizes : List Nat) (rank nsplit align_bytes : Nat) : Option (Nat × Nat) :=
  match ({ blank with files_ := sizes.map (fun n => { path := "f", size := n, type := .kFile }) }
      : InputSplitBase).InitRaw rank nsplit align_bytes with
  | .ok s => some (s.offset_begin_, s.offset_end_)
  | .error _ => none

/-! ## Predicates on split states -/

/-- What `Read` and its loop never change. -/
def SameFrame (s s' : InputSplitBase) : Prop :=
  s'.files_ = s.files_ ∧ s'.file_offset_ = s.file_offset_ ∧
  s'.offset_begin_ = s.offset_begin_ ∧ s'.offset_end_ = s.offset_end_ ∧
  s'.file_ptr_end_ = s.file_ptr_end_ ∧ s'.overflow_ = s.overflow_ ∧
  s'.tmp_chunk_ = s.tmp_chunk_

/-- The split states that calls of the class can produce: what `Init` returns
on any object, and what `Read`, `BeforeFirst` and `ReadChunk` return from
there. (`Load` changes the split through `ReadChunk` only.) -/
inductive Reachable (filesys : FileSystem) (hk : Hooks) : InputSplitBase → Prop where
  | init (this : InputSplitBase) (uri : String) (rank nsplit align_bytes : Nat)
      (s : InputSplitBase) :
      InputSplitBase.Init filesys hk this uri rank nsplit align_bytes = .ok s →
      Reachable filesys hk s
  | read (s : InputSplitBase) (size n : Nat) (buf : List UInt8) (s' : InputSplitBase) :
      Reachable filesys hk s → InputSplitBase.Read filesys s size = .ok (n, buf, s') →
      Reachable filesys hk s'
  | beforeFirst (s s' : InputSplitBase) :
      Reachable filesys hk s → s.BeforeFirst filesys = .ok s' → Reachable filesys hk s'
  | readChunk (s : InputSplitBase) (mem : List UInt8) (max_size : Nat) (r : ChunkResult)
      (s' : InputSplitBase) :
      Reachable filesys hk s → s.ReadChunk filesys hk mem max_size = .ok (r, s') →
      Reachable filesys hk s'

/-- Where lines 38-50 of `Init` move a raw offset `x`: an offset that is not
the start of its slot in the table goes forward by what `SeekRecordBegin`
returns on that file, sought to the in-file position. -/
def realigned (filesys : FileSystem) (hk : Hooks) (files : List FileInfo) (x : Nat) : Nat :=
  match (fileOffsets files)[upper_bound (fileOffsets files) x - 1]?,
        files[upper_bound (fileOffsets files) x - 1]? with
  | some off, some f =>
    if x ≠ off then x + (hk.SeekRecordBegin ((filesys.OpenForRead f.path).Seek (x - off))).1
    else x
  | _, _ => x

/-- At the positions `Init` can hand to the hook, the multiples of
`align_bytes` strictly inside an indexed file, the hook never points behind
the end of the file. -/
def SeekStaysInFile (filesys : FileSystem) (hk : Hooks) (files : List FileInfo)
    (align_bytes : Nat) : Prop :=
  ∀ f ∈ files, ∀ p, p < f.size → 0 < p → align_bytes ∣ p →
    p + (hk.SeekRecordBegin ((filesys.OpenForRead f.path).Seek p)).1 ≤ f.size

/-- At the positions `Init` can hand to the hook, the multiples of
`align_bytes` strictly inside an indexed file, the position the hook points at
does not go back when the start position goes forward. -/
def SeekMonotone (filesys : FileSystem) (hk : Hooks) (files : List FileInfo)
    (align_bytes : Nat) : Prop :=
  ∀ f ∈ files, ∀ q, q < f.size → align_bytes ∣ q → ∀ p, p ≤ q → 0 < p → align_bytes ∣ p →
    p + (hk.SeekRecordBegin ((filesys.OpenForRead f.path).Seek p)).1 ≤
      q + (hk.SeekRecordBegin ((filesys.OpenForRead f.path).Seek q)).1

/-- None of the sums and products of lines 24-28 of `Init` leaves `size_t`,
for the ranks below `nsplit`: `ntotal + nsplit - 1`, the step before rounding
plus `align_bytes - 1`, and the step times `nsplit`. -/
def StepFits (ntotal nsplit align_bytes : Nat) : Prop :=
  ntotal + nsplit - 1 < 2 ^ 64 ∧
  (ntotal + nsplit - 1) / nsplit + align_bytes - 1 < 2 ^ 64 ∧
  ((ntotal + nsplit - 1) / nsplit + align_bytes - 1) / align_bytes * align_bytes * nsplit <
    2 ^ 64

instance (ntotal nsplit align_bytes : Nat) : Decidable (StepFits ntotal nsplit align_bytes) := by
  unfold StepFits
  infer_instance

/-- The `offset_begin_` that `Init` leaves for a rank (0 if `Init` fails). -/
def finalBegin (filesys : FileSystem) (hk : Hooks) (this : InputSplitBase) (uri : String)
    (nsplit align_bytes rank : Nat) : Nat :=
  match InputSplitBase.Init filesys hk this uri rank nsplit align_bytes with
  | .ok s => s.offset_begin_
  | .error _ => 0

/-- The `offset_end_` that `Init` leaves for a rank (0 if `Init` fails). -/
def finalEnd (filesys : FileSystem) (hk : Hooks) (this : InputSplitBase) (uri : String)
    (nsplit align_bytes rank : Nat) : Nat :=
  match InputSplitBase.Init filesys hk this uri rank nsplit align_bytes with
  | .ok s => s.offset_end_
  | .error _ => 0

/-- The filesystem agrees with the index: every indexed file holds as many
bytes as its recorded size. -/
def Consistent (filesys : FileSystem) (files : List FileInfo) : Prop :=
  ∀ f ∈ files, (filesys.bytes f.path).length = f.size

/-- The open stream is the one of the file at `file_ptr_`, and its position is
the cursor. -/
def Synced (filesys : FileSystem) (s : InputSplitBase) : Prop :=
  ∃ f off, s.files_[s.file_ptr_]? = some f ∧ s.file_offset_[s.file_ptr_]? = some off ∧
    off ≤ s.offset_curr_ ∧ s.offset_curr_ ≤ off + f.size ∧
    s.fs_ = some { data := filesys.bytes f.path, pos := s.offset_curr_ - off }

/-- A split in working order: the table is the one of the file list, the
filesystem agrees with it, the cursor is inside the range and the range inside
the data, the overflow buffer holds no more bytes than were read, and unless
the range is empty the stream is positioned at the cursor. -/
def Ready (filesys : FileSystem) (s : InputSplitBase) : Prop :=
  s.file_offset_ = fileOffsets s.files_ ∧ Consistent filesys s.files_ ∧
  s.offset_begin_ ≤ s.offset_curr_ ∧ s.offset_curr_ ≤ s.offset_end_ ∧
  s.offset_end_ ≤ (fileOffsets s.files_).getLastD 0 ∧
  s.overflow_.length ≤ s.offset_curr_ - s.offset_begin_ ∧
  (s.offset_begin_ < s.offset_end_ → Synced filesys s)

/-- The bytes a split still has to hand out: the overflow buffer, then the
bytes of the concatenation from the cursor to the end of the range. -/
def pending (filesys : FileSystem) (s : InputSplitBase) : List UInt8 :=
  s.overflow_ ++
    ((concatBytes filesys s.files_).drop s.offset_curr_).take (s.offset_end_ - s.offset_curr_)

/-- The sum of line 105 of `Read` does not leave `size_t` in any call that
`Load` makes on this split from `data.size() = d` on: `offset_end_` plus the
first capacity, and plus the largest capacity the doubling can reach (twice
the length of the range and one more word), stay below `2^64`. -/
def LoadFits (s : InputSplitBase) (d : Nat) : Prop :=
  s.offset_end_ + (d - 1) * sizeofSizeT < 2 ^ 64 ∧
  s.offset_end_ + 2 * (s.offset_end_ - s.offset_begin_) + sizeofSizeT < 2 ^ 64

instance (s : InputSplitBase) (d : Nat) : Decidable (LoadFits s d) := by
  unfold LoadFits
  infer_instance

/-- `FindLastRecordBegin` returns a position inside the range it is given. -/
def HookInRange (hk : Hooks) : Prop :=
  ∀ b : List UInt8, hk.FindLastRecordBegin b ≤ b.length

/-- What the calls that read from a split leave alone. -/
def SameRange (s s' : InputSplitBase) : Prop :=
  s'.files_ = s.files_ ∧ s'.file_offset_ = s.file_offset_ ∧
  s'.offset_begin_ = s.offset_begin_ ∧ s'.offset_end_ = s.offset_end_ ∧
  s'.file_ptr_end_ = s.file_ptr_end_

/-- Replace the chunk a split carries. -/
def setChunk (x : Chunk) (s : InputSplitBase) : InputSplitBase :=
  { s with tmp_chunk_ := x }

/-- Carry a result of `Read` or its loop over to a split with another chunk. -/
def liftRead (x : Chunk) :
    Except Err (Nat × List UInt8 × InputSplitBase) → Except Err (Nat × List UInt8 × InputSplitBase)
  | .ok (n, b, s) => .ok (n, b, setChunk x s)
  | .error e => .error e

/-- Lines 147-152 of `ReadChunk` on the assembled buffer `mem1`: the size it
reports and the overflow buffer it leaves. -/
def cutAtRecord (hk : Hooks) (mem1 : List UInt8) (max_size : Nat) : Nat × List UInt8 :=
  (hk.FindLastRecordBegin (mem1.take max_size),
   (mem1.drop (hk.FindLastRecordBegin (mem1.take max_size))).take
     (max_size - hk.FindLastRecordBegin (mem1.take max_size)))

/-- The split `BeforeFirst` returns when the range is not empty, the file
of `offset_begin_` being `f` and starting at `off`. -/
def rewound (filesys : FileSystem) (s : InputSplitBase) (f : FileInfo) (off : Nat) :
    InputSplitBase :=
  { s with
    file_ptr_ := upper_bound (fileOffsets s.files_) s.offset_begin_ - 1
    fs_ := some { data := filesys.bytes f.path, pos := s.offset_begin_ - off }
    offset_curr_ := s.offset_begin_
    tmp_chunk_ := { s.tmp_chunk_ with begin := none, end_ := none }
    overflow_ := [] }

/-- What a call of `Load` returned: the chunk (the chunk of `blank` on an error). -/
def loadedChunk (r : Except Err (Bool × Chunk × InputSplitBase)) : Chunk :=
  match r with
  | .ok x => x.2.1
  | .error _ => blank.tmp_chunk_

/-- What a call of `Load` returned: the split (`blank` on an error). -/
def loadedSplit (r : Except Err (Bool × Chunk × InputSplitBase)) : InputSplitBase :=
  match r with
  | .ok x => x.2.2
  | .error _ => blank

/-- The outcome of `Load(1)` on a fresh chunk over the 40-byte record. -/
def load1 : Except Err (Bool × Chunk × InputSplitBase) :=
  blank.tmp_chunk_.Load (oneFile record40) lineHooks (soleSplit record40) 1

/-- The split `Init` returns for rank 0 of 4 over `fsLine`: the range `[0, 6)`. -/
def firstSplit : InputSplitBase :=
  { files_ := [{ path := "a", size := 8, type := .kFile }], file_offset_ := [0, 8],
    offset_begin_ := 0, offset_end_ := 6, offset_curr_ := 0, file_ptr_ := 0, file_ptr_end_ := 0,
    fs_ := some { data := [97, 98, 99, 100, 101, 10, 103, 104], pos := 0 }, overflow_ := [],
    tmp_chunk_ := blank.tmp_chunk_ }

/-- `SeekRecordBegin` only reads: the stream it leaves is over the same bytes. -/
def SeekKeepsData (hk : Hooks) : Prop :=
  ∀ st : Stream, (hk.SeekRecordBegin st).2.data = st.data

/-- The split `firstSplit` after `n` bytes were read: cursor and stream are at `n`. -/
def firstSplitAt (n : Nat) : InputSplitBase :=
  { firstSplit with
    offset_curr_ := n
    fs_ := some { data := [97, 98, 99, 100, 101, 10, 103, 104], pos := n } }

/-- The stream reads the loop of `Read` makes (lines 111-123), in order: for
each pass the split right after line 114, with the stream advanced and
`offset_curr_` updated, and the bytes `nleft` still wanted after the read. -/
def InputSplitBase.readPasses (filesys : FileSystem) :
    Nat → InputSplitBase → Nat → List (InputSplitBase × Nat)
  | 0, _, _ => []
  | fuel + 1, s, nleft =>
    match s.fs_ with
    | none => []
    | some st =>
      let r := st.Read nleft
      let nleft1 := nleft - r.1.length
      let s1 := { s with fs_ := some r.2, offset_curr_ := s.offset_curr_ + r.1.length }
      (s1, nleft1) ::
        (if nleft1 = 0 then []
         else
          match s1.file_offset_[s1.file_ptr_ + 1]? with
          | none => []
          | some off =>
            if s1.offset_curr_ ≠ off then []
            else if s1.file_ptr_ + 1 ≥ s1.files_.length then []
            else
              match s1.files_[s1.file_ptr_ + 1]? with
              | none => []
              | some f =>
                InputSplitBase.readPasses filesys fuel
                  { s1 with file_ptr_ := s1.file_ptr_ + 1,
                            fs_ := some (filesys.OpenForRead f.path) }
                  nleft1)

/-- The stream reads a call `Read(ptr, size)` makes: none if the truncated
request is empty (line 108), else those of the loop. -/
def InputSplitBase.readTrace (filesys : FileSystem) (s : InputSplitBase) (size : Nat) :
    List (InputSplitBase × Nat) :=
  if s.readSize size = 0 then []
  else InputSplitBase.readPasses filesys (s.files_.length + 1) s (s.readSize size)

/-- A stream read left the request unfinished while the updated cursor is not
the end offset of the current file. -/
def OffBoundary (p : InputSplitBase × Nat) : Prop :=
  0 < p.2 ∧ ∃ off, p.1.file_offset_[p.1.file_ptr_ + 1]? = some off ∧ p.1.offset_curr_ ≠ off

/-- The split `Init` returns for the only worker over `fsLine`: the range
`[0, 8)`, after `n` bytes were read and with the given overflow bytes. -/
def wholeSplitAt (n : Nat) (overflow : List UInt8) : InputSplitBase :=
  { files_ := [{ path := "a", size := 8, type := .kFile }], file_offset_ := [0, 8],
    offset_begin_ := 0, offset_end_ := 8, offset_curr_ := n, file_ptr_ := 0, file_ptr_end_ := 1,
    fs_ := some { data := [97, 98, 99, 100, 101, 10, 103, 104], pos := n },
    overflow_ := overflow, tmp_chunk_ := blank.tmp_chunk_ }

/-- The characters of a uri that lists the given paths, separated by `;`. -/
def joinChars : List String → List Char
  | [] => []
  | [p] => p.data
  | p :: q :: ps => p.data ++ ';' :: joinChars (q :: ps)

/-- The uri that lists the given paths, separated by `;`. -/
def joinPaths (paths : List String) : String :=
  String.mk (joinChars paths)

/-- The file list as the specification words it: for each path in order, if
it is a directory its listed children that are regular files of non-zero size,
in listing order, otherwise the path itself when its size is non-zero. -/
def listedFiles (filesys : FileSystem) : List String → List FileInfo
  | [] => []
  | p :: ps =>
    (match (filesys.GetPathInfo p).type with
     | .kDirectory =>
       (filesys.ListDirectory (filesys.GetPathInfo p).path).filter
         (fun f => decide (f.type = FileType.kFile ∧ 0 < f.size))
     | .kFile => if 0 < (filesys.GetPathInfo p).size then [filesys.GetPathInfo p] else [])
    ++ listedFiles filesys ps

/-- A filesystem with a directory `"d"` of four entries (two regular files
with data, an empty file, a subdirectory), a regular file `"a"` of 4 bytes,
and empty regular files everywhere else. -/
def dirFs : FileSystem :=
  { GetPathInfo := fun p =>
      if p = "d" then { path := "d", size := 0, type := .kDirectory }
      else if p = "a" then { path := "a", size := 4, type := .kFile }
      else { path := p, size := 0, type := .kFile }
    ListDirectory := fun p =>
      if p = "d" then
        [{ path := "d/x", size := 3, type := .kFile }, { path := "d/y", size := 0, type := .kFile },
         { path := "d/z", size := 5, type := .kDirectory },
         { path := "d/w", size := 2, type := .kFile }]
      else []
    bytes := fun _ => [] }

/-- The valid bytes of a loaded chunk: those between `begin` and `end`. -/
def Chunk.span (c : Chunk) : List UInt8 :=
  (c.mem.drop (c.begin.getD 0)).take (c.end_.getD 0 - c.begin.getD 0)

/-- Calls of `Load` on one chunk, call number `i` with buffer size `sizes i`,
until `Load` returns false. The result lists the valid spans of the
successful calls in order. -/
def loadSpans (filesys : FileSystem) (hk : Hooks) (sizes : Nat → Nat) :
    Nat → Nat → Chunk → InputSplitBase → Except Err (List (List UInt8) × Chunk × InputSplitBase)
  | 0, _, _, _ => .error .fuel
  | fuel + 1, i, c, s =>
    match c.Load filesys hk s (sizes i) with
    | .error e => .error e
    | .ok (false, c1, s1) => .ok ([], c1, s1)
    | .ok (true, c1, s1) =>
      match loadSpans filesys hk sizes fuel (i + 1) c1 s1 with
      | .error e => .error e
      | .ok (spans, c2, s2) => .ok (c1.span :: spans, c2, s2)

/-- The spans of a run of `loadSpans`, if it came to an end. -/
def spansOf (r : Except Err (List (List UInt8) × Chunk × InputSplitBase)) :
    Option (List (List UInt8)) :=
  r.toOption.map (fun x => x.1)

/-- The file `"a"` with the 16 bytes `abcde\nghijklmnop`: a line of 6 bytes
and an unfinished line of 10 bytes. -/
def fsTail : FileSystem :=
  oneFile [97, 98, 99, 100, 101, 10, 103, 104, 105, 106, 107, 108, 109, 110, 111, 112]

/-- The split `Init` returns for rank 1 of 8 over `fsTail`: the raw range
`[2, 4)` holds no record start, both ends move to 6, the cursor stays at 2 and
the stream stays at 7, where the hook left it. -/
def staleTail : InputSplitBase :=
  { files_ := [{ path := "a", size := 16, type := .kFile }], file_offset_ := [0, 16],
    offset_begin_ := 6, offset_end_ := 6, offset_curr_ := 2, file_ptr_ := 0, file_ptr_end_ := 0,
    fs_ := some { data := [97, 98, 99, 100, 101, 10, 103, 104, 105, 106, 107, 108, 109, 110,
                           111, 112],
                  pos := 7 },
    overflow_ := [], tmp_chunk_ := blank.tmp_chunk_ }

/-! # Lemmas and theorems -/

/-! ## Arithmetic of the raw ranges -/

lemma ceil_le_iff (n k m : Nat) (hk : 0 < k) : (n + k - 1) / k ≤ m ↔ n ≤ m * k := by
  rw [← Nat.lt_succ_iff, Nat.div_lt_iff_lt_mul hk, Nat.succ_mul]
  omega

lemma size_t_of_lt (n : Nat) (h : n < 2 ^ 64) : size_t n = n :=
  Nat.mod_eq_of_lt h

lemma size_t_lt (n : Nat) : size_t n < 2 ^ 64 :=
  Nat.mod_lt _ (by decide)

/-- When neither sum of lines 24 and 26 leaves `size_t`, the step is the
ceiling of `ntotal / nsplit`, rounded up to a multiple of `align_bytes`. -/
lemma nstepOf_eq (n k a : Nat) (h1 : n + k - 1 < 2 ^ 64)
    (h2 : (n + k - 1) / k + a - 1 < 2 ^ 64) :
    nstepOf n k a = ((n + k - 1) / k + a - 1) / a * a := by
  unfold nstepOf
  simp only
  rw [size_t_of_lt _ h1, size_t_of_lt _ h2]
  exact size_t_of_lt _ (lt_of_le_of_lt (Nat.div_mul_le_self _ _) h2)

lemma nstepOf_dvd (n k a : Nat) : a ∣ nstepOf n k a := by
  unfold nstepOf
  simp only
  rw [size_t_of_lt _ (lt_of_le_of_lt (Nat.div_mul_le_self _ _) (size_t_lt _))]
  exact Dvd.intro_left _ rfl

lemma nstepOf_ge_ceil (n k a : Nat) (ha : 0 < a) (h1 : n + k - 1 < 2 ^ 64)
    (h2 : (n + k - 1) / k + a - 1 < 2 ^ 64) : (n + k - 1) / k ≤ nstepOf n k a := by
  rw [nstepOf_eq n k a h1 h2]
  exact (ceil_le_iff _ a _ ha).mp (le_refl _)

lemma nstepOf_covers (n k a : Nat) (hk : 0 < k) (ha : 0 < a) (h1 : n + k - 1 < 2 ^ 64)
    (h2 : (n + k - 1) / k + a - 1 < 2 ^ 64) : n ≤ nstepOf n k a * k :=
  (ceil_le_iff n k _ hk).mp (nstepOf_ge_ceil n k a ha h1 h2)

lemma nstepOf_least (n k a m : Nat) (hk : 0 < k) (ha : 0 < a) (h1 : n + k - 1 < 2 ^ 64)
    (h2 : (n + k - 1) / k + a - 1 < 2 ^ 64) (hm : a ∣ m) (hn : n ≤ m * k) :
    nstepOf n k a ≤ m := by
  obtain ⟨t, rfl⟩ := hm
  have h3 : (n + k - 1) / k ≤ t * a := by
    rw [ceil_le_iff n k _ hk, Nat.mul_comm t a]; exact hn
  have h4 : ((n + k - 1) / k + a - 1) / a ≤ t := (ceil_le_iff _ a t ha).mpr h3
  calc nstepOf n k a = ((n + k - 1) / k + a - 1) / a * a := nstepOf_eq n k a h1 h2
    _ ≤ t * a := Nat.mul_le_mul_right a h4
    _ = a * t := Nat.mul_comm t a

lemma StepFits.prod {n k a : Nat} (h : StepFits n k a) : nstepOf n k a * k < 2 ^ 64 := by
  rw [nstepOf_eq n k a h.1 h.2.1]
  exact h.2.2

lemma rawBegin_eq (n k a r : Nat) (hfit : StepFits n k a) (hr : r ≤ k) :
    rawBegin n k a r = min (nstepOf n k a * r) n := by
  unfold rawBegin
  rw [size_t_of_lt _ (lt_of_le_of_lt (Nat.mul_le_mul_left _ hr) hfit.prod)]

lemma rawEnd_eq (n k a r : Nat) (hfit : StepFits n k a) (hr : r < k) (h32 : k < 2 ^ 32) :
    rawEnd n k a r = min (nstepOf n k a * (r + 1)) n := by
  unfold rawEnd
  rw [Nat.mod_eq_of_lt (by omega),
    size_t_of_lt _ (lt_of_le_of_lt (Nat.mul_le_mul_left _ (by omega : r + 1 ≤ k)) hfit.prod)]

lemma rawEnd_eq_rawBegin_succ (n k a r : Nat) (hfit : StepFits n k a) (hr : r < k)
    (h32 : k < 2 ^ 32) : rawEnd n k a r = rawBegin n k a (r + 1) := by
  rw [rawEnd_eq n k a r hfit hr h32, rawBegin_eq n k a (r + 1) hfit (by omega)]

lemma rawBegin_le_rawEnd (n k a r : Nat) (hfit : StepFits n k a) (hr : r < k)
    (h32 : k < 2 ^ 32) : rawBegin n k a r ≤ rawEnd n k a r := by
  rw [rawEnd_eq n k a r hfit hr h32, rawBegin_eq n k a r hfit (by omega)]
  have : nstepOf n k a * r ≤ nstepOf n k a * (r + 1) := Nat.mul_le_mul_left _ (Nat.le_succ r)
  omega

lemma rawBegin_zero (n k a : Nat) : rawBegin n k a 0 = 0 := by
  simp [rawBegin, size_t]

lemma rawBegin_le_total (n k a r : Nat) : rawBegin n k a r ≤ n := Nat.min_le_right _ _

lemma rawEnd_le_total (n k a r : Nat) : rawEnd n k a r ≤ n := Nat.min_le_right _ _

lemma rawEnd_last (n k a : Nat) (hk : 0 < k) (ha : 0 < a) (h32 : k < 2 ^ 32)
    (hfit : StepFits n k a) : rawEnd n k a (k - 1) = n := by
  rw [rawEnd_eq n k a (k - 1) hfit (by omega) h32]
  have h : k - 1 + 1 = k := by omega
  rw [h]
  exact Nat.min_eq_right (nstepOf_covers n k a hk ha hfit.1 hfit.2.1)

lemma rawBegin_dvd (n k a r : Nat) (hfit : StepFits n k a) (hr : r ≤ k) (hn : a ∣ n) :
    a ∣ rawBegin n k a r := by
  rw [rawBegin_eq n k a r hfit hr]
  rcases Nat.le_total (nstepOf n k a * r) n with h | h
  · rw [Nat.min_eq_left h]
    exact Dvd.dvd.mul_right (nstepOf_dvd n k a) r
  · rw [Nat.min_eq_right h]
    exact hn

lemma raw_empty_at_total (n k a r : Nat) (hk : 0 < k) (ha : 0 < a) (h32 : k < 2 ^ 32)
    (hfit : StepFits n k a) (hr : r < k)
    (h : rawBegin n k a r = rawEnd n k a r) : rawBegin n k a r = n ∧ rawEnd n k a r = n := by
  have hc := nstepOf_covers n k a hk ha hfit.1 hfit.2.1
  rw [rawEnd_eq n k a r hfit hr h32, rawBegin_eq n k a r hfit (by omega)] at *
  rw [Nat.mul_succ] at *
  rcases Nat.eq_zero_or_pos (nstepOf n k a) with h0 | hpos
  · rw [h0] at hc ⊢
    simp at hc
    subst hc
    simp
  · omega

/-- A chain `B 0 ≤ B 1 ≤ ... ≤ B k` cuts `[B 0, B k)` into the pieces
`[B r, B (r+1))`: every point lies in exactly one of them. -/
lemma chain_cover (B : Nat → Nat) (x : Nat) :
    ∀ k, (∀ r, r < k → B r ≤ B (r + 1)) → B 0 ≤ x → x < B k →
      ∃! r, r < k ∧ B r ≤ x ∧ x < B (r + 1) := by
  intro k hmono h0 hk
  have mono : ∀ j, j ≤ k → ∀ i, i ≤ j → B i ≤ B j := by
    intro j
    induction j with
    | zero => intro _ i hi; have : i = 0 := by omega
              subst this; exact le_refl _
    | succ j ih =>
      intro hj i hi
      rcases Nat.lt_or_ge i (j + 1) with h | h
      · exact le_trans (ih (by omega) i (by omega)) (hmono j (by omega))
      · have : i = j + 1 := by omega
        subst this; exact le_refl _
  have ex : ∀ j, j ≤ k → x < B j → ∃ r, r < j ∧ B r ≤ x ∧ x < B (r + 1) := by
    intro j
    induction j with
    | zero => intro _ h; omega
    | succ j ih =>
      intro hj h
      rcases Nat.lt_or_ge x (B j) with h1 | h1
      · obtain ⟨r, hr, h2, h3⟩ := ih (by omega) h1
        exact ⟨r, by omega, h2, h3⟩
      · exact ⟨j, by omega, h1, h⟩
  obtain ⟨r, hr, h1, h2⟩ := ex k (le_refl _) hk
  refine ⟨r, ⟨hr, h1, h2⟩, ?_⟩
  rintro r' ⟨hr', h1', h2'⟩
  rcases Nat.lt_trichotomy r' r with h | h | h
  · have := mono r (by omega) (r' + 1) (by omega); omega
  · exact h
  · have := mono r' (by omega) (r + 1) (by omega); omega

/-- If one of the sums of lines 24 and 26 leaves `size_t`, the step of `Init`
is 0, below the ceiling of `total / worker_count`. -/
lemma nstepOf_wrapped (ntotal nsplit align_bytes : Nat) (hn : 1 ≤ nsplit)
    (ha : 1 ≤ align_bytes) (ht : ntotal < 2 ^ 64) (hk : nsplit < 2 ^ 32)
    (ha64 : align_bytes < 2 ^ 64)
    (hw : ¬ (ntotal + nsplit - 1 < 2 ^ 64 ∧
      (ntotal + nsplit - 1) / nsplit + align_bytes - 1 < 2 ^ 64)) :
    nstepOf ntotal nsplit align_bytes = 0 ∧ 0 < (ntotal + nsplit - 1) / nsplit := by
  unfold nstepOf size_t
  simp only
  by_cases h1 : ntotal + nsplit - 1 < 2 ^ 64
  · have h2 : 2 ^ 64 ≤ (ntotal + nsplit - 1) / nsplit + align_bytes - 1 := by
      by_contra hc
      exact hw ⟨h1, by omega⟩
    rw [Nat.mod_eq_of_lt h1]
    have hc : (ntotal + nsplit - 1) / nsplit ≤ ntotal + nsplit - 1 := Nat.div_le_self _ _
    generalize (ntotal + nsplit - 1) / nsplit = c at *
    have h3 : (c + align_bytes - 1) % 2 ^ 64 = c + align_bytes - 1 - 2 ^ 64 := by
      rw [Nat.mod_eq_sub_mod h2, Nat.mod_eq_of_lt (by omega)]
    rw [h3, Nat.div_eq_of_lt (by omega)]
    exact ⟨by simp, by omega⟩
  · have h3 : (ntotal + nsplit - 1) % 2 ^ 64 = ntotal + nsplit - 1 - 2 ^ 64 := by
      rw [Nat.mod_eq_sub_mod (by omega), Nat.mod_eq_of_lt (by omega)]
    rw [h3, Nat.div_eq_of_lt (by omega : ntotal + nsplit - 1 - 2 ^ 64 < nsplit)]
    have e1 : (0 + align_bytes - 1) % 2 ^ 64 / align_bytes = 0 := by
      rw [Nat.zero_add, Nat.mod_eq_of_lt (by omega), Nat.div_eq_of_lt (by omega)]
    rw [e1]
    refine ⟨by simp, ?_⟩
    exact Nat.div_pos (by omega) (by omega)

lemma wrapped_min_lt (A B N n : Nat) (h1 : B = A + N) (h2 : N ≤ A) (h3 : A < 2 ^ 64)
    (h4 : 2 ^ 64 ≤ B) (h5 : N ≤ n) : min (size_t B) n < min (size_t A) n := by
  have e2 : size_t B = B - 2 ^ 64 := by
    unfold size_t
    rw [Nat.mod_eq_sub_mod h4, Nat.mod_eq_of_lt (by omega)]
  rw [e2, size_t_of_lt _ h3]
  omega

/-- When the step is right but its product with the worker count leaves
`size_t`, over a positive total that `align_bytes` divides, the raw range of
some rank below the worker count is inverted. -/
lemma raw_wrap_inverts (ntotal nsplit align_bytes : Nat) (hn : 1 ≤ nsplit)
    (h32 : nsplit < 2 ^ 32) (ha : 1 ≤ align_bytes)
    (h1 : ntotal + nsplit - 1 < 2 ^ 64)
    (h2 : (ntotal + nsplit - 1) / nsplit + align_bytes - 1 < 2 ^ 64)
    (hdvd : align_bytes ∣ ntotal)
    (hw : 2 ^ 64 ≤ nstepOf ntotal nsplit align_bytes * nsplit) :
    ∃ r, r < nsplit ∧
      rawEnd ntotal nsplit align_bytes r < rawBegin ntotal nsplit align_bytes r := by
  have hN : nstepOf ntotal nsplit align_bytes ≤ ntotal :=
    nstepOf_least ntotal nsplit align_bytes ntotal hn ha h1 h2 hdvd
      (Nat.le_mul_of_pos_right _ hn)
  have hex : ∃ r, 2 ^ 64 ≤ nstepOf ntotal nsplit align_bytes * r := ⟨nsplit, hw⟩
  obtain ⟨r, hr, hle, hmin⟩ : ∃ r, 2 ^ 64 ≤ nstepOf ntotal nsplit align_bytes * r ∧ r ≤ nsplit ∧
      ∀ m, m < r → nstepOf ntotal nsplit align_bytes * m < 2 ^ 64 := by
    classical
    exact ⟨Nat.find hex, Nat.find_spec hex, Nat.find_min' hex hw,
      fun m hm => Nat.lt_of_not_le (Nat.find_min hex hm)⟩
  unfold rawBegin rawEnd
  generalize nstepOf ntotal nsplit align_bytes = N at *
  have hr2 : 2 ≤ r := by
    rcases Nat.lt_or_ge r 2 with h | h
    · have : r = 0 ∨ r = 1 := by omega
      rcases this with rfl | rfl
      · rw [Nat.mul_zero] at hr
        omega
      · omega
    · exact h
  have hP := hmin (r - 1) (by omega)
  have hsplit : N * r = N * (r - 1) + N := by
    conv_lhs => rw [show r = r - 1 + 1 by omega, Nat.mul_succ]
  have hPge : N ≤ N * (r - 1) := Nat.le_mul_of_pos_right _ (by omega)
  refine ⟨r - 1, by omega, ?_⟩
  have e1 : (r - 1 + 1) % 2 ^ 32 = r := by
    rw [Nat.sub_add_cancel (by omega), Nat.mod_eq_of_lt (by omega)]
  rw [e1]
  exact wrapped_min_lt _ _ N ntotal hsplit hPge hP hr hN

/-- The bounds of `StepFits` are needed: over a total below `2^64` that
`align_bytes` divides, if one of the sums and products of lines 24-28 leaves
`size_t`, then the last rank does not end at the total or the raw range of
some rank is inverted. -/
lemma StepFits_needed (ntotal nsplit align_bytes : Nat) (hn : 1 ≤ nsplit)
    (h32 : nsplit < 2 ^ 32) (ha : 1 ≤ align_bytes) (ha64 : align_bytes < 2 ^ 64)
    (ht : ntotal < 2 ^ 64) (hdvd : align_bytes ∣ ntotal)
    (hw : ¬ StepFits ntotal nsplit align_bytes) :
    rawEnd ntotal nsplit align_bytes (nsplit - 1) ≠ ntotal ∨
    ∃ r, r < nsplit ∧
      rawEnd ntotal nsplit align_bytes r < rawBegin ntotal nsplit align_bytes r := by
  by_cases h12 : ntotal + nsplit - 1 < 2 ^ 64 ∧
      (ntotal + nsplit - 1) / nsplit + align_bytes - 1 < 2 ^ 64
  · right
    apply raw_wrap_inverts ntotal nsplit align_bytes hn h32 ha h12.1 h12.2 hdvd
    rw [nstepOf_eq ntotal nsplit align_bytes h12.1 h12.2]
    by_contra hc
    exact hw ⟨h12.1, h12.2, by omega⟩
  · left
    obtain ⟨h0, hpos⟩ := nstepOf_wrapped ntotal nsplit align_bytes hn ha ht h32 ha64 h12
    have hnpos : 0 < ntotal := by
      rcases Nat.eq_zero_or_pos ntotal with h | h
      · rw [h, Nat.zero_add, Nat.div_eq_of_lt (by omega)] at hpos
        omega
      · exact h
    unfold rawEnd
    rw [h0, Nat.zero_mul]
    unfold size_t
    simp only [Nat.zero_mod, Nat.zero_le, Nat.min_eq_left]
    omega

/-! ## Claims C2 and C3: the raw ranges -/

/-- One file of `2^62` bytes, `align_bytes = 2^62` and 8 workers: the step is
`2^62`, and the products `nstep * rank` of lines 27-28 wrap. Rank 0 gets
`[0, 2^62)`, rank 3 gets begin `2^62` and end 0, and rank 4 gets `[0, 2^62)`
again, so the raw ranges do not tile. -/
theorem C2_wrapped_product_breaks_tiling :
    nstepOf (2 ^ 62) 8 (2 ^ 62) = 2 ^ 62 ∧
    rawBegin (2 ^ 62) 8 (2 ^ 62) 0 = 0 ∧ rawEnd (2 ^ 62) 8 (2 ^ 62) 0 = 2 ^ 62 ∧
    rawBegin (2 ^ 62) 8 (2 ^ 62) 3 = 2 ^ 62 ∧ rawEnd (2 ^ 62) 8 (2 ^ 62) 3 = 0 ∧
    rawBegin (2 ^ 62) 8 (2 ^ 62) 4 = 0 ∧ rawEnd (2 ^ 62) 8 (2 ^ 62) 4 = 2 ^ 62 := by
  decide

/-- C2 (amended): for every total size, worker count from 1 to `2^32 - 1` and
alignment of at least 1 for which no sum or product of lines 24-28 leaves
`size_t`, the raw ranges that lines 27-28 of `Init` compute for the ranks
below the worker count are `[min(nstep*r, total), min(nstep*(r+1), total))`,
and they are contiguous and cover `[0, total)`: rank 0 begins at 0, each range
ends where the next begins, no range is inverted, the last rank ends at
`total`, a rank whose `nstep * rank` reaches `total` gets an empty range, and
every offset below `total` lies in the range of exactly one rank. -/
theorem C2_raw_ranges_tile (ntotal nsplit align_bytes : Nat)
    (hn : 1 ≤ nsplit) (h32 : nsplit < 2 ^ 32) (ha : 1 ≤ align_bytes)
    (hfit : StepFits ntotal nsplit align_bytes) :
    (∀ r, r < nsplit →
      rawBegin ntotal nsplit align_bytes r = min (nstepOf ntotal nsplit align_bytes * r) ntotal ∧
      rawEnd ntotal nsplit align_bytes r =
        min (nstepOf ntotal nsplit align_bytes * (r + 1)) ntotal) ∧
    rawBegin ntotal nsplit align_bytes 0 = 0 ∧
    (∀ r, r + 1 < nsplit →
      rawEnd ntotal nsplit align_bytes r = rawBegin ntotal nsplit align_bytes (r + 1)) ∧
    (∀ r, r < nsplit →
      rawBegin ntotal nsplit align_bytes r ≤ rawEnd ntotal nsplit align_bytes r) ∧
    rawEnd ntotal nsplit align_bytes (nsplit - 1) = ntotal ∧
    (∀ r, r < nsplit → ntotal ≤ nstepOf ntotal nsplit align_bytes * r →
      rawBegin ntotal nsplit align_bytes r = ntotal ∧
      rawEnd ntotal nsplit align_bytes r = ntotal) ∧
    (∀ x, x < ntotal → ∃! r, r < nsplit ∧
      rawBegin ntotal nsplit align_bytes r ≤ x ∧ x < rawEnd ntotal nsplit align_bytes r) := by
  have hB := fun r (hr : r < nsplit) => rawBegin_eq ntotal nsplit align_bytes r hfit (by omega)
  have hE := fun r (hr : r < nsplit) => rawEnd_eq ntotal nsplit align_bytes r hfit hr h32
  refine ⟨fun r hr => ⟨hB r hr, hE r hr⟩, rawBegin_zero _ _ _,
    fun r hr => rawEnd_eq_rawBegin_succ _ _ _ r hfit (by omega) h32,
    fun r hr => rawBegin_le_rawEnd _ _ _ r hfit hr h32,
    rawEnd_last _ _ _ hn ha h32 hfit, ?_, ?_⟩
  · intro r hr hge
    have h2 : nstepOf ntotal nsplit align_bytes * r ≤ nstepOf ntotal nsplit align_bytes * (r + 1) :=
      Nat.mul_le_mul_left _ (Nat.le_succ r)
    rw [hB r hr, hE r hr]
    omega
  · intro x hx
    have hcov := nstepOf_covers ntotal nsplit align_bytes hn ha hfit.1 hfit.2.1
    obtain ⟨r, ⟨hr, h1, h2⟩, huniq⟩ :=
      chain_cover (fun r => min (nstepOf ntotal nsplit align_bytes * r) ntotal) x nsplit
        (fun r _ => by
          have : nstepOf ntotal nsplit align_bytes * r ≤
              nstepOf ntotal nsplit align_bytes * (r + 1) :=
            Nat.mul_le_mul_left _ (Nat.le_succ r)
          simp only
          omega)
        (by simp) (by simp only; omega)
    simp only at h1 h2 huniq
    refine ⟨r, ⟨hr, by rw [hB r hr]; exact h1, by rw [hE r hr]; exact h2⟩, ?_⟩
    rintro r' ⟨hr', h1', h2'⟩
    rw [hB r' hr'] at h1'
    rw [hE r' hr'] at h2'
    exact huniq r' ⟨hr', h1', h2'⟩

/-- A concrete instance of C2: 10 bytes, 4 workers, alignment 2. -/
theorem C2_raw_ranges_tile_witness :
    (∀ r, r < 4 → rawBegin 10 4 2 r = min (nstepOf 10 4 2 * r) 10 ∧
      rawEnd 10 4 2 r = min (nstepOf 10 4 2 * (r + 1)) 10) ∧
    rawBegin 10 4 2 0 = 0 ∧
    (∀ r, r + 1 < 4 → rawEnd 10 4 2 r = rawBegin 10 4 2 (r + 1)) ∧
    (∀ r, r < 4 → rawBegin 10 4 2 r ≤ rawEnd 10 4 2 r) ∧
    rawEnd 10 4 2 (4 - 1) = 10 ∧
    (∀ r, r < 4 → 10 ≤ nstepOf 10 4 2 * r → rawBegin 10 4 2 r = 10 ∧ rawEnd 10 4 2 r = 10) ∧
    (∀ x, x < 10 → ∃! r, r < 4 ∧ rawBegin 10 4 2 r ≤ x ∧ x < rawEnd 10 4 2 r) :=
  C2_raw_ranges_tile 10 4 2 (by decide) (by decide) (by decide) (by decide)

/-- Two files of `3 * 2^61` bytes, `align_bytes = 3 * 2^61` and one worker:
the ceiling of line 24 is the total `3 * 2^62`, the sum
`nstep + align_bytes - 1` of line 26 wraps, and the step comes out as 0, which
is below the ceiling; the only rank gets the raw range `[0, 0)`. -/
theorem C3_wrapped_sum_gives_zero_step :
    (3 * 2 ^ 62 + 1 - 1) / 1 = 3 * 2 ^ 62 ∧ 3 * 2 ^ 62 < 2 ^ 64 ∧
    nstepOf (3 * 2 ^ 62) 1 (3 * 2 ^ 61) = 0 ∧
    rawRangeOf [3 * 2 ^ 61, 3 * 2 ^ 61] 0 1 (3 * 2 ^ 61) = some (0, 0) := by
  decide

/-- C3 (amended): when `total + worker_count - 1` and the ceiling of
`total / worker_count` plus `align_bytes - 1` stay below `2^64`, the step of
`Init` is the least multiple of `align_bytes` that is at least
`ceil(total / worker_count)`, that is, the least multiple `m` with
`total ≤ m * worker_count`. One file of 1000 bytes with alignment 8 and 4
workers gives step 256 and the raw ranges `[0,256)`, `[256,512)`, `[512,768)`,
`[768,1000)`; three files of 400 bytes with alignment 4 and 3 workers give
`[0,400)`, `[400,800)`, `[800,1200)`. -/
theorem C3_step_is_least_aligned_ceiling :
    (∀ ntotal nsplit align_bytes, 1 ≤ nsplit → 1 ≤ align_bytes →
      ntotal + nsplit - 1 < 2 ^ 64 →
      (ntotal + nsplit - 1) / nsplit + align_bytes - 1 < 2 ^ 64 →
      align_bytes ∣ nstepOf ntotal nsplit align_bytes ∧
      (ntotal + nsplit - 1) / nsplit ≤ nstepOf ntotal nsplit align_bytes ∧
      ntotal ≤ nstepOf ntotal nsplit align_bytes * nsplit ∧
      (∀ m, align_bytes ∣ m → ntotal ≤ m * nsplit → nstepOf ntotal nsplit align_bytes ≤ m) ∧
      (∀ c, (ntotal + nsplit - 1) / nsplit ≤ c ↔ ntotal ≤ c * nsplit)) ∧
    nstepOf 1000 4 8 = 256 ∧
    (List.range 4).map (fun r => rawRangeOf [1000] r 4 8) =
      [some (0, 256), some (256, 512), some (512, 768), some (768, 1000)] ∧
    (List.range 3).map (fun r => rawRangeOf [400, 400, 400] r 3 4) =
      [some (0, 400), some (400, 800), some (800, 1200)] := by
  refine ⟨?_, by decide, by decide, by decide⟩
  intro n k a hk ha h1 h2
  exact ⟨nstepOf_dvd n k a, nstepOf_ge_ceil n k a ha h1 h2, nstepOf_covers n k a hk ha h1 h2,
    fun m hm hn => nstepOf_least n k a m hk ha h1 h2 hm hn, fun c => ceil_le_iff n k c hk⟩

/-- A concrete instance of the general part of C3: 1000 bytes, 4 workers, alignment 8. -/
theorem C3_step_is_least_aligned_ceiling_witness :
    8 ∣ nstepOf 1000 4 8 ∧ (1000 + 4 - 1) / 4 ≤ nstepOf 1000 4 8 ∧
    1000 ≤ nstepOf 1000 4 8 * 4 ∧
    (∀ m, 8 ∣ m → 1000 ≤ m * 4 → nstepOf 1000 4 8 ≤ m) ∧
    (∀ c, (1000 + 4 - 1) / 4 ≤ c ↔ 1000 ≤ c * 4) :=
  C3_step_is_least_aligned_ceiling.1 1000 4 8 (by decide) (by decide) (by decide) (by decide)

/-! ## Read: bounds on the count and the cursor -/

lemma Stream.Read_length_le (st : Stream) (n : Nat) : (st.Read n).1.length ≤ n := by
  simp [Stream.Read, List.length_take]

lemma SameFrame.refl (s : InputSplitBase) : SameFrame s s :=
  ⟨rfl, rfl, rfl, rfl, rfl, rfl, rfl⟩

lemma SameFrame.trans {a b c : InputSplitBase} (h1 : SameFrame a b) (h2 : SameFrame b c) :
    SameFrame a c := by
  obtain ⟨a1, a2, a3, a4, a5, a6, a7⟩ := h1
  obtain ⟨b1, b2, b3, b4, b5, b6, b7⟩ := h2
  exact ⟨b1.trans a1, b2.trans a2, b3.trans a3, b4.trans a4, b5.trans a5, b6.trans a6,
    b7.trans a7⟩

lemma ReadLoop_bounds (filesys : FileSystem) :
    ∀ (fuel : Nat) (s : InputSplitBase) (nleft : Nat) (buf : List UInt8)
      (nl : Nat) (b : List UInt8) (s' : InputSplitBase),
      InputSplitBase.ReadLoop filesys fuel s nleft buf = .ok (nl, b, s') →
      nl ≤ nleft ∧ s'.offset_curr_ + nl = s.offset_curr_ + nleft ∧
      b.length + nl = buf.length + nleft ∧ SameFrame s s' ∧ s.file_ptr_ ≤ s'.file_ptr_ := by
  intro fuel
  induction fuel with
  | zero => intro s nleft buf nl b s' h; simp [InputSplitBase.ReadLoop] at h
  | succ fuel ih =>
    intro s nleft buf nl b s' h
    unfold InputSplitBase.ReadLoop at h
    split at h
    · simp at h
    · rename_i st hst
      have hlen := Stream.Read_length_le st nleft
      simp only at h
      split at h
      · rename_i hz
        simp only [Except.ok.injEq, Prod.mk.injEq] at h
        obtain ⟨h1, h2, h3⟩ := h
        subst h1 h2 h3
        refine ⟨by omega, ?_, ?_, SameFrame.refl _, le_refl _⟩
        · simp; omega
        · simp; omega
      · split at h
        · simp at h
        · split at h
          · simp at h
          · split at h
            · simp only [Except.ok.injEq, Prod.mk.injEq] at h
              obtain ⟨h1, h2, h3⟩ := h
              subst h1 h2 h3
              refine ⟨by omega, ?_, ?_, SameFrame.refl _, le_refl _⟩
              · simp; omega
              · simp; omega
            · split at h
              · simp at h
              · obtain ⟨i1, i2, i3, i4, i5⟩ := ih _ _ _ _ _ _ h
                simp only [List.length_append] at i3
                simp only at i2 i5
                refine ⟨by omega, by omega, by omega, ?_, by omega⟩
                exact i4

lemma ReadLoop_fuel (filesys : FileSystem) :
    ∀ (fuel : Nat) (s : InputSplitBase) (nleft : Nat) (buf : List UInt8),
      s.files_.length - s.file_ptr_ < fuel →
      InputSplitBase.ReadLoop filesys fuel s nleft buf ≠ .error .fuel := by
  intro fuel
  induction fuel with
  | zero => intro s nleft buf h; omega
  | succ fuel ih =>
    intro s nleft buf hf
    unfold InputSplitBase.ReadLoop
    split
    · simp
    · simp only
      split
      · simp
      · split
        · simp
        · split
          · simp
          · split
            · simp
            · rename_i hlt
              split
              · simp
              · apply ih
                simp only at hlt ⊢
                omega

/-- Without wrap in the sum of line 105, the truncation leaves the smaller of
the request and the rest of the range. -/
lemma readSize_eq (s : InputSplitBase) (size : Nat) (hc : s.offset_curr_ ≤ s.offset_end_)
    (hsum : s.offset_curr_ + size < 2 ^ 64) :
    s.readSize size = min size (s.offset_end_ - s.offset_curr_) := by
  unfold InputSplitBase.readSize
  rw [size_t_of_lt _ hsum]
  split
  · have h1 : s.offset_end_ + 2 ^ 64 - s.offset_curr_ =
        2 ^ 64 + (s.offset_end_ - s.offset_curr_) := by omega
    unfold size_t
    rw [h1, Nat.add_mod_left, Nat.mod_eq_of_lt (by omega)]
    omega
  · omega

/-- When the sum of line 105 wraps, the request is left as it is. -/
lemma readSize_wrapped (s : InputSplitBase) (size : Nat) (hc : s.offset_curr_ ≤ s.offset_end_)
    (he : s.offset_end_ < 2 ^ 64) (hs : size < 2 ^ 64)
    (hsum : 2 ^ 64 ≤ s.offset_curr_ + size) :
    s.readSize size = size := by
  unfold InputSplitBase.readSize size_t
  have h1 : (s.offset_curr_ + size) % 2 ^ 64 = s.offset_curr_ + size - 2 ^ 64 := by
    rw [Nat.mod_eq_sub_mod hsum, Nat.mod_eq_of_lt (by omega)]
  rw [h1, if_neg (by omega)]

/-- With the cursor not behind `offset_end_`, the truncation never makes the
request larger. -/
lemma readSize_le (s : InputSplitBase) (size : Nat) (hc : s.offset_curr_ ≤ s.offset_end_) :
    s.readSize size ≤ size := by
  unfold InputSplitBase.readSize
  split
  · rename_i h
    have h0 : size_t (s.offset_curr_ + size) ≤ s.offset_curr_ + size := Nat.mod_le _ _
    have h1 : s.offset_end_ + 2 ^ 64 - s.offset_curr_ =
        2 ^ 64 + (s.offset_end_ - s.offset_curr_) := by omega
    have h2 : size_t (s.offset_end_ + 2 ^ 64 - s.offset_curr_) ≤
        s.offset_end_ - s.offset_curr_ := by
      unfold size_t
      rw [h1, Nat.add_mod_left]
      exact Nat.mod_le _ _
    omega
  · exact le_refl _

lemma Read_bounds (filesys : FileSystem) (s : InputSplitBase) (size n : Nat) (b : List UInt8)
    (s' : InputSplitBase) (h : InputSplitBase.Read filesys s size = .ok (n, b, s')) :
    (s.offset_curr_ ≤ s.offset_end_ → n ≤ size) ∧
    (s.offset_curr_ ≤ s.offset_end_ → s.offset_curr_ + size < 2 ^ 64 →
      n ≤ s.offset_end_ - s.offset_curr_) ∧
    s'.offset_curr_ = s.offset_curr_ + n ∧
    b.length = n ∧ SameFrame s s' ∧ s.file_ptr_ ≤ s'.file_ptr_ := by
  have hn : n ≤ s.readSize size ∧ s'.offset_curr_ = s.offset_curr_ + n ∧
      b.length = n ∧ SameFrame s s' ∧ s.file_ptr_ ≤ s'.file_ptr_ := by
    unfold InputSplitBase.Read at h
    simp only at h
    split at h
    · simp only [Except.ok.injEq, Prod.mk.injEq] at h
      obtain ⟨h1, h2, h3⟩ := h
      subst h1 h2 h3
      exact ⟨by omega, rfl, rfl, SameFrame.refl _, le_refl _⟩
    · split at h
      · simp at h
      · rename_i nl buf s1 hloop
        simp only [Except.ok.injEq, Prod.mk.injEq] at h
        obtain ⟨h1, h2, h3⟩ := h
        subst h1 h2 h3
        obtain ⟨i1, i2, i3, i4, i5⟩ := ReadLoop_bounds filesys _ _ _ _ _ _ _ hloop
        simp only [List.length_nil] at i3
        exact ⟨by omega, by omega, by omega, i4, i5⟩
  obtain ⟨h1, h2, h3, h4, h5⟩ := hn
  refine ⟨fun hc => ?_, fun hc hsum => ?_, h2, h3, h4, h5⟩
  · have := readSize_le s size hc
    omega
  · have := readSize_eq s size hc hsum
    omega

lemma Read_ne_fuel (filesys : FileSystem) (s : InputSplitBase) (size : Nat) :
    InputSplitBase.Read filesys s size ≠ .error .fuel := by
  unfold InputSplitBase.Read
  simp only
  split
  · simp
  · have := ReadLoop_fuel filesys (s.files_.length + 1) s (s.readSize size) [] (by omega)
    split
    · rename_i e he
      intro h
      simp only [Except.error.injEq] at h
      subst h
      exact this he
    · simp

/-! ## The stages of Init -/

lemma InitRaw_ok (s s' : InputSplitBase) (rank nsplit align_bytes : Nat)
    (h : s.InitRaw rank nsplit align_bytes = .ok s') :
    0 < nsplit ∧ 0 < align_bytes ∧ (∀ f ∈ s.files_, f.size % align_bytes = 0) ∧
    s' = { s with
           file_offset_ := fileOffsets s.files_
           offset_begin_ := rawBegin ((fileOffsets s.files_).getLastD 0) nsplit align_bytes rank
           offset_end_ := rawEnd ((fileOffsets s.files_).getLastD 0) nsplit align_bytes rank
           offset_curr_ := rawBegin ((fileOffsets s.files_).getLastD 0) nsplit align_bytes rank } := by
  unfold InputSplitBase.InitRaw at h
  split at h
  · simp at h
  · split at h
    · simp at h
    · split at h
      · simp at h
      · rename_i h1 h2 h3
        simp only [Except.ok.injEq] at h
        refine ⟨by omega, by omega, ?_, h.symm⟩
        simpa using h2

lemma InitRaw_eq_ok (s : InputSplitBase) (rank nsplit align_bytes : Nat)
    (hn : 0 < nsplit) (ha : 0 < align_bytes) (hdiv : ∀ f ∈ s.files_, f.size % align_bytes = 0) :
    s.InitRaw rank nsplit align_bytes = .ok { s with
           file_offset_ := fileOffsets s.files_
           offset_begin_ := rawBegin ((fileOffsets s.files_).getLastD 0) nsplit align_bytes rank
           offset_end_ := rawEnd ((fileOffsets s.files_).getLastD 0) nsplit align_bytes rank
           offset_curr_ := rawBegin ((fileOffsets s.files_).getLastD 0) nsplit align_bytes rank } := by
  unfold InputSplitBase.InitRaw
  rw [if_neg (by omega), if_neg (by simpa using hdiv), if_neg (by omega)]

lemma realignEnd_ok (filesys : FileSystem) (hk : Hooks) (s s' : InputSplitBase)
    (h : s.realignEnd filesys hk = .ok s') :
    ∃ d, s' = { s with offset_end_ := s.offset_end_ + d } := by
  unfold InputSplitBase.realignEnd at h
  split at h
  · simp at h
  · split at h
    · split at h
      · simp at h
      · split at h
        · simp at h
        · split at h
          · simp at h
          · simp only [Except.ok.injEq] at h
            exact ⟨_, h.symm⟩
    · simp only [Except.ok.injEq] at h
      subst h
      exact ⟨0, rfl⟩

lemma realignBegin_ok (filesys : FileSystem) (hk : Hooks) (s s' : InputSplitBase)
    (h : s.realignBegin filesys hk = .ok s') :
    ∃ d st, s' = { s with fs_ := some st, offset_begin_ := s.offset_begin_ + d } := by
  unfold InputSplitBase.realignBegin at h
  split at h
  · simp only at h
    split at h
    · simp only [Except.ok.injEq] at h
      exact ⟨_, _, h.symm⟩
    · simp only [Except.ok.injEq] at h
      exact ⟨0, _, h.symm⟩
  · simp at h
  · simp at h

lemma BeforeFirst_ok (filesys : FileSystem) (s s' : InputSplitBase)
    (h : s.BeforeFirst filesys = .ok s') :
    (s.offset_end_ ≤ s.offset_begin_ ∧ s' = s) ∨
    (s.offset_begin_ < s.offset_end_ ∧ s'.offset_curr_ = s.offset_begin_ ∧
      s'.offset_begin_ = s.offset_begin_ ∧ s'.offset_end_ = s.offset_end_ ∧
      s'.overflow_ = [] ∧ s'.files_ = s.files_ ∧ s'.file_offset_ = s.file_offset_) := by
  unfold InputSplitBase.BeforeFirst at h
  split at h
  · rename_i hge
    simp only [Except.ok.injEq] at h
    exact Or.inl ⟨hge, h.symm⟩
  · rename_i hlt
    right
    simp only at h
    split at h
    · simp at h
    · rename_i s1 hre
      have hs1 : s1.offset_begin_ = s.offset_begin_ ∧ s1.offset_end_ = s.offset_end_ ∧
          s1.files_ = s.files_ ∧ s1.file_offset_ = s.file_offset_ := by
        split at hre
        · split at hre
          · simp only [Except.ok.injEq] at hre
            subst hre
            exact ⟨rfl, rfl, rfl, rfl⟩
          · simp at hre
        · simp only [Except.ok.injEq] at hre
          subst hre
          exact ⟨rfl, rfl, rfl, rfl⟩
      obtain ⟨e1, e2, e3, e4⟩ := hs1
      split at h
      · simp only [Except.ok.injEq] at h
        subst h
        exact ⟨by omega, e1, e1, e2, rfl, e3, e4⟩
      · simp at h
      · simp at h

/-- The way `Init` is put together from its stages. -/
lemma Init_ok (filesys : FileSystem) (hk : Hooks) (this sF : InputSplitBase) (uri : String)
    (rank nsplit align_bytes : Nat)
    (h : InputSplitBase.Init filesys hk this uri rank nsplit align_bytes = .ok sF) :
    ∃ s, (this.InitInputFileInfo filesys uri).InitRaw rank nsplit align_bytes = .ok s ∧
      ((s.offset_begin_ = s.offset_end_ ∧ sF = s) ∨
       (s.offset_begin_ ≠ s.offset_end_ ∧ ∃ s2 s3,
          InputSplitBase.realignEnd filesys hk
            { s with
              file_ptr_ := upper_bound s.file_offset_ s.offset_begin_ - 1
              file_ptr_end_ := upper_bound s.file_offset_ s.offset_end_ - 1 } = .ok s2 ∧
          s2.realignBegin filesys hk = .ok s3 ∧ s3.BeforeFirst filesys = .ok sF)) := by
  unfold InputSplitBase.Init at h
  split at h
  · simp at h
  · rename_i s hraw
    refine ⟨s, hraw, ?_⟩
    split at h
    · rename_i heq
      simp only [Except.ok.injEq] at h
      exact Or.inl ⟨heq, h.symm⟩
    · rename_i hne
      right
      refine ⟨hne, ?_⟩
      simp only at h
      split at h
      · simp at h
      · rename_i s2 h2
        split at h
        · simp at h
        · rename_i s3 h3
          exact ⟨s2, s3, h2, h3, h⟩

/-! ## Concrete runs -/

/-- C1 (counterexample): runs with a pure hook whose ranges do not tile.
With a hook whose target goes back (distance 6 at position 2, else 0), rank 1
of 4 over an 8-byte file ends `Init` with `offset_begin_ = 8` and
`offset_end_ = 4`. With a hook whose target never goes back but lies behind
the end of the file (always position 12 of an 8-byte file), rank 0 of 2 gets
`[0, 12)` and rank 1 gets begin 12 and end 8. With the scanner of 4-byte words
and `align_bytes = 1` over a 16-byte file, rank 0 of 3 gets `[0, 18)` and
rank 1 gets begin 18 and end 16. And over one file of `2^62` bytes with
`align_bytes = 2^62` and 8 workers, where no hook is ever called, the products
of lines 27-28 wrap: rank 0 and rank 4 both get `[0, 2^62)`, and rank 3
indexes `files_` out of bounds at line 46. -/
theorem C1_pure_hook_ranges_do_not_tile :
    (InputSplitBase.Init fsLine jumpHooks blank "a" 1 4 1).toOption.map
      (fun s => (s.offset_begin_, s.offset_end_)) = some (8, 4) ∧
    (InputSplitBase.Init fsLine overshootHooks blank "a" 0 2 1).toOption.map
      (fun s => (s.offset_begin_, s.offset_end_)) = some (0, 12) ∧
    (InputSplitBase.Init fsLine overshootHooks blank "a" 1 2 1).toOption.map
      (fun s => (s.offset_begin_, s.offset_end_)) = some (12, 8) ∧
    (InputSplitBase.Init fsWords wordHooks blank "a" 0 3 1).toOption.map
      (fun s => (s.offset_begin_, s.offset_end_)) = some (0, 18) ∧
    (InputSplitBase.Init fsWords wordHooks blank "a" 1 3 1).toOption.map
      (fun s => (s.offset_begin_, s.offset_end_)) = some (18, 16) ∧
    (InputSplitBase.Init hugeFs lineHooks blank "a" 0 8 (2 ^ 62)).toOption.map
      (fun s => (s.offset_begin_, s.offset_end_)) = some (0, 2 ^ 62) ∧
    (InputSplitBase.Init hugeFs lineHooks blank "a" 4 8 (2 ^ 62)).toOption.map
      (fun s => (s.offset_begin_, s.offset_end_)) = some (0, 2 ^ 62) ∧
    InputSplitBase.Init hugeFs lineHooks blank "a" 3 8 (2 ^ 62) =
      .error (.undefined "files_ index") := by decide

/-- C4 (failing input): in the split `Init` returns for rank 1 of 4 over
`abcde\ngh` the cursor is 2 and the range ends at 6, yet `Read(buf, 1)` places
the byte `h` of offset 7, not the byte `c` of offset 2. -/
theorem C4_read_after_stale_init_wrong_bytes :
    InputSplitBase.Init fsLine lineHooks blank "a" 1 4 1 = .ok staleSplit ∧
    (InputSplitBase.Read fsLine staleSplit 1).toOption.map (fun r => (r.1, r.2.1)) =
      some (1, [104]) ∧
    ((concatBytes fsLine staleSplit.files_).drop staleSplit.offset_curr_).take
      (min 1 (staleSplit.offset_end_ - staleSplit.offset_curr_)) = [99] := by decide

/-- C6 (failing input): `Init` for rank 1 of 4 over `abcde\ngh` returns with
`offset_begin_ = 6`, `offset_curr_ = 2`, `offset_end_ = 6`: the cursor lies
before the begin of the range. -/
theorem C6_init_leaves_cursor_before_begin :
    (InputSplitBase.Init fsLine lineHooks blank "a" 1 4 1).toOption.map
      (fun s => (s.offset_begin_, s.offset_curr_, s.offset_end_)) = some (6, 2, 6) := by decide

/-- C7 (failing input): the split `Init` returns for rank 1 of 4 over
`abcde\ngh` has `offset_begin_ = offset_end_`, yet `Read(buf, 1)` returns 1,
reads from the stream and moves the cursor to 3. -/
theorem C7_read_on_emptied_range_returns_data :
    InputSplitBase.Init fsLine lineHooks blank "a" 1 4 1 = .ok staleSplit ∧
    staleSplit.offset_begin_ = staleSplit.offset_end_ ∧
    InputSplitBase.Read fsLine staleSplit 1 =
      .ok (1, [104], { staleSplit with
                       offset_curr_ := 3
                       fs_ := some { data := [97, 98, 99, 100, 101, 10, 103, 104], pos := 8 } }) := by
  decide

/-- C8 (counterexample): over three lines of 4 bytes and one of 20 bytes, with
`buffer_size = 1`, the first pass hands out blobs of 8, 4 and 20 bytes and
leaves the chunk with `data.size() = 4`; after `BeforeFirst` the second pass
hands out blobs of 12 and 20 bytes. -/
theorem C8_second_pass_differs_after_growth :
    passShape (consumeAll (oneFile fourLines) lineHooks 1 (soleSplit fourLines)) =
      some ([8, 4, 20], 4) ∧
    passShape (secondPass (oneFile fourLines) lineHooks 1 (soleSplit fourLines)) =
      some ([12, 20], 4) := by decide

/-- C9 (failing input): the split `Init` returns for rank 3 of 4 over
`abcde\ngh` has an empty overflow buffer and `offset_curr_ = 6` different from
`offset_end_ = 8`, yet `Load` ends in the fatal error of `Read` instead of
returning true. -/
theorem C9_load_after_stale_init_is_fatal :
    InputSplitBase.Init fsLine lineHooks blank "a" 3 4 1 = .ok staleSplitLast ∧
    staleSplitLast.overflow_ = [] ∧
    staleSplitLast.offset_curr_ ≠ staleSplitLast.offset_end_ ∧
    staleSplitLast.tmp_chunk_.Load fsLine lineHooks staleSplitLast 1 =
      .error (.fatal "FILE size not calculated correctly") := by decide

/-- C10 (counterexample): `Load(16)` on a fresh chunk over one 40-byte record
succeeds with `data.size()` still 17: the first `ReadChunk` call is offered
`16 * sizeof(size_t) = 128` bytes and reports all 40 bytes, so the buffer never
grows. -/
theorem C10_load16_succeeds_without_growth :
    (blank.tmp_chunk_.Load (oneFile record40) lineHooks (soleSplit record40) 16).toOption.map
      (fun r => (r.1, r.2.1.dataSize, r.2.1.begin, r.2.1.end_)) =
      some (true, 17, some 0, some 40) ∧
    ((soleSplit record40).ReadChunk (oneFile record40) lineHooks [] ((17 - 1) * sizeofSizeT)).toOption.map
      (fun r => (r.1.ret, r.1.size)) = some (true, 40) := by decide

/-! ## Claim C5 -/

/-- C5 (failing input): on the split of rank 0 of 4 over `abcde\ngh` (range
`[0, 6)`), after `Read` of 3 bytes, the call `Read(ptr, 2^64 - 3)` has
`offset_curr_ + size` wrap to 0, so the request is not truncated; the call
returns the 5 bytes up to the end of the file and leaves `offset_curr_ = 8`
behind `offset_end_ = 6`. -/
theorem C5_wrapped_request_moves_cursor_past_end :
    InputSplitBase.Init fsLine lineHooks blank "a" 0 4 1 = .ok firstSplit ∧
    InputSplitBase.Read fsLine firstSplit 3 = .ok (3, [97, 98, 99], firstSplitAt 3) ∧
    InputSplitBase.Read fsLine (firstSplitAt 3) (2 ^ 64 - 3) =
      .ok (5, [100, 101, 10, 103, 104], firstSplitAt 8) ∧
    (firstSplitAt 8).offset_end_ < (firstSplitAt 8).offset_curr_ := by decide

/-- When the cursor is not behind `offset_end_` and `offset_curr_ + size` does
not wrap, `Read` comes to an end, and when it returns, the count is at most
`size`, it is the number of bytes placed, and the cursor afterwards is at most
`offset_end_`. -/
lemma Read_within_request_and_range (filesys : FileSystem) (s : InputSplitBase) (size : Nat)
    (hc : s.offset_curr_ ≤ s.offset_end_) (hsum : s.offset_curr_ + size < 2 ^ 64) :
    InputSplitBase.Read filesys s size ≠ .error .fuel ∧
    ∀ n buf s', InputSplitBase.Read filesys s size = .ok (n, buf, s') →
      n ≤ size ∧ buf.length = n ∧ s'.offset_curr_ = s.offset_curr_ + n ∧
      s'.offset_curr_ ≤ s'.offset_end_ := by
  refine ⟨Read_ne_fuel filesys s size, ?_⟩
  intro n buf s' h
  obtain ⟨b1, b2, b3, b4, ⟨_, _, _, f4, _⟩, _⟩ := Read_bounds filesys _ _ _ _ _ h
  have := b2 hc hsum
  exact ⟨b1 hc, b4, b3, by omega⟩

/-! ## The offset table and upper_bound -/

lemma fileOffsetsFrom_length (acc : Nat) (files : List FileInfo) :
    (fileOffsetsFrom acc files).length = files.length + 1 := by
  induction files generalizing acc with
  | nil => rfl
  | cons f fs ih => simp [fileOffsetsFrom, ih]

lemma fileOffsetsFrom_zero (acc : Nat) (files : List FileInfo) :
    (fileOffsetsFrom acc files)[0]? = some acc := by
  cases files <;> simp [fileOffsetsFrom]

lemma fileOffsetsFrom_step (acc : Nat) (files : List FileInfo) (i : Nat) (f : FileInfo)
    (hf : files[i]? = some f) :
    ∃ o, (fileOffsetsFrom acc files)[i]? = some o ∧
      (fileOffsetsFrom acc files)[i + 1]? = some (o + f.size) := by
  induction files generalizing acc i with
  | nil => simp at hf
  | cons g fs ih =>
    cases i with
    | zero =>
      simp only [List.getElem?_cons_zero, Option.some.injEq] at hf
      subst hf
      exact ⟨acc, by simp [fileOffsetsFrom], by simp [fileOffsetsFrom, fileOffsetsFrom_zero]⟩
    | succ i =>
      simp only [List.getElem?_cons_succ] at hf
      obtain ⟨o, h1, h2⟩ := ih (acc + g.size) i hf
      exact ⟨o, by simpa [fileOffsetsFrom] using h1, by simpa [fileOffsetsFrom] using h2⟩

lemma fileOffsetsFrom_ge (acc : Nat) (files : List FileInfo) (i o : Nat)
    (h : (fileOffsetsFrom acc files)[i]? = some o) : acc ≤ o := by
  induction files generalizing acc i with
  | nil =>
    cases i with
    | zero => simp [fileOffsetsFrom] at h; omega
    | succ i => simp [fileOffsetsFrom] at h
  | cons g fs ih =>
    cases i with
    | zero => simp [fileOffsetsFrom] at h; omega
    | succ i =>
      simp only [fileOffsetsFrom, List.getElem?_cons_succ] at h
      have := ih _ _ h
      omega

lemma fileOffsetsFrom_mono (acc : Nat) (files : List FileInfo) (i j o q : Nat) (hij : i ≤ j)
    (hi : (fileOffsetsFrom acc files)[i]? = some o)
    (hj : (fileOffsetsFrom acc files)[j]? = some q) : o ≤ q := by
  induction files generalizing acc i j with
  | nil =>
    have h1 : i = 0 := by
      cases i with
      | zero => rfl
      | succ i => simp [fileOffsetsFrom] at hi
    have h2 : j = 0 := by
      cases j with
      | zero => rfl
      | succ j => simp [fileOffsetsFrom] at hj
    subst h1 h2
    rw [hi] at hj
    simp only [Option.some.injEq] at hj
    omega
  | cons g fs ih =>
    cases i with
    | zero =>
      simp only [fileOffsetsFrom, List.getElem?_cons_zero, Option.some.injEq] at hi
      have := fileOffsetsFrom_ge _ _ _ _ hj
      omega
    | succ i =>
      cases j with
      | zero => omega
      | succ j =>
        simp only [fileOffsetsFrom, List.getElem?_cons_succ] at hi hj
        exact ih _ _ _ (by omega) hi hj

lemma fileOffsetsFrom_last (acc : Nat) (files : List FileInfo) :
    (fileOffsetsFrom acc files)[files.length]? = some ((fileOffsetsFrom acc files).getLastD 0) := by
  induction files generalizing acc with
  | nil => simp [fileOffsetsFrom]
  | cons g fs ih =>
    have h := ih (acc + g.size)
    have hne : fileOffsetsFrom (acc + g.size) fs ≠ [] := by
      intro h0
      have := fileOffsetsFrom_length (acc + g.size) fs
      rw [h0] at this
      simp at this
    simp only [fileOffsetsFrom, List.length_cons, List.getElem?_cons_succ]
    rw [h]
    congr 1
    cases hl : fileOffsetsFrom (acc + g.size) fs with
    | nil => exact absurd hl hne
    | cons a l => simp [List.getLastD]

lemma upper_bound_le_length (l : List Nat) (x : Nat) : upper_bound l x ≤ l.length := by
  induction l with
  | nil => simp [upper_bound]
  | cons a l ih =>
    simp only [upper_bound, List.length_cons]
    split <;> omega

lemma upper_bound_before (l : List Nat) (x i o : Nat) (hi : i < upper_bound l x)
    (ho : l[i]? = some o) : o ≤ x := by
  induction l generalizing i with
  | nil => simp [upper_bound] at hi
  | cons a l ih =>
    simp only [upper_bound] at hi
    split at hi
    · omega
    · cases i with
      | zero =>
        simp only [List.getElem?_cons_zero, Option.some.injEq] at ho
        omega
      | succ i =>
        simp only [List.getElem?_cons_succ] at ho
        exact ih i (by omega) ho

lemma upper_bound_at (l : List Nat) (x o : Nat) (ho : l[upper_bound l x]? = some o) : x < o := by
  induction l with
  | nil => simp at ho
  | cons a l ih =>
    simp only [upper_bound] at ho
    split at ho
    · simp only [List.getElem?_cons_zero, Option.some.injEq] at ho
      omega
    · simp only [List.getElem?_cons_succ] at ho
      exact ih ho

lemma upper_bound_eq (l : List Nat) (x j : Nat) (hj : j ≤ l.length)
    (hbefore : ∀ i o, i < j → l[i]? = some o → o ≤ x)
    (hat : ∀ o, l[j]? = some o → x < o) : upper_bound l x = j := by
  rcases Nat.lt_trichotomy (upper_bound l x) j with h | h | h
  · have hlt : upper_bound l x < l.length := by omega
    have := hbefore _ _ h (List.getElem?_eq_getElem hlt)
    have := upper_bound_at l x _ (List.getElem?_eq_getElem hlt)
    omega
  · exact h
  · have hle := upper_bound_le_length l x
    have hlt : j < l.length := by omega
    have := hat _ (List.getElem?_eq_getElem hlt)
    have := upper_bound_before l x j _ h (List.getElem?_eq_getElem hlt)
    omega

lemma fileOffsets_length (files : List FileInfo) :
    (fileOffsets files).length = files.length + 1 := fileOffsetsFrom_length 0 files

lemma fileOffsets_zero (files : List FileInfo) : (fileOffsets files)[0]? = some 0 :=
  fileOffsetsFrom_zero 0 files

lemma fileOffsets_step (files : List FileInfo) (i : Nat) (f : FileInfo)
    (hf : files[i]? = some f) :
    ∃ o, (fileOffsets files)[i]? = some o ∧ (fileOffsets files)[i + 1]? = some (o + f.size) :=
  fileOffsetsFrom_step 0 files i f hf

lemma fileOffsets_mono (files : List FileInfo) (i j o q : Nat) (hij : i ≤ j)
    (hi : (fileOffsets files)[i]? = some o) (hj : (fileOffsets files)[j]? = some q) : o ≤ q :=
  fileOffsetsFrom_mono 0 files i j o q hij hi hj

lemma fileOffsets_last (files : List FileInfo) :
    (fileOffsets files)[files.length]? = some ((fileOffsets files).getLastD 0) :=
  fileOffsetsFrom_last 0 files

/-- Where an offset `x ≤ total` lies in the table: the slot `upper_bound - 1`
starts at or before `x`; below `total` it is the slot of a file that reaches
beyond `x`, at `total` it starts at `total`. -/
lemma locate (files : List FileInfo) (x : Nat) :
    ∃ off, (fileOffsets files)[upper_bound (fileOffsets files) x - 1]? = some off ∧ off ≤ x ∧
      1 ≤ upper_bound (fileOffsets files) x ∧
      (x < (fileOffsets files).getLastD 0 →
        ∃ f, files[upper_bound (fileOffsets files) x - 1]? = some f ∧ x < off + f.size) ∧
      (x = (fileOffsets files).getLastD 0 → off = x) := by
  have hlen := fileOffsets_length files
  have hub := upper_bound_le_length (fileOffsets files) x
  have h1 : 1 ≤ upper_bound (fileOffsets files) x := by
    by_contra hc
    have h0 : upper_bound (fileOffsets files) x = 0 := by omega
    have := upper_bound_at (fileOffsets files) x 0 (by rw [h0]; exact fileOffsets_zero files)
    omega
  have hlt : upper_bound (fileOffsets files) x - 1 < (fileOffsets files).length := by omega
  obtain ⟨off, hoff⟩ : ∃ off, (fileOffsets files)[upper_bound (fileOffsets files) x - 1]? = some off :=
    ⟨_, List.getElem?_eq_getElem hlt⟩
  have hle : off ≤ x := upper_bound_before _ x _ _ (by omega) hoff
  refine ⟨off, hoff, hle, h1, ?_, ?_⟩
  · intro hxt
    have hne : upper_bound (fileOffsets files) x ≠ files.length + 1 := by
      intro he
      have := upper_bound_before (fileOffsets files) x files.length _ (by omega)
        (fileOffsets_last files)
      omega
    have hfl : upper_bound (fileOffsets files) x - 1 < files.length := by omega
    obtain ⟨f, hf⟩ : ∃ f, files[upper_bound (fileOffsets files) x - 1]? = some f :=
      ⟨_, List.getElem?_eq_getElem hfl⟩
    refine ⟨f, hf, ?_⟩
    obtain ⟨o, ho1, ho2⟩ := fileOffsets_step files _ _ hf
    rw [hoff] at ho1
    simp only [Option.some.injEq] at ho1
    subst ho1
    have e2 : upper_bound (fileOffsets files) x - 1 + 1 = upper_bound (fileOffsets files) x := by
      omega
    rw [e2] at ho2
    exact upper_bound_at (fileOffsets files) x _ ho2
  · intro hxt
    have hall : upper_bound (fileOffsets files) x = files.length + 1 := by
      apply upper_bound_eq
      · omega
      · intro i o hi ho
        have := fileOffsets_mono files i files.length o _ (by omega) ho (fileOffsets_last files)
        omega
      · intro o ho
        rw [List.getElem?_eq_none (by omega)] at ho
        simp at ho
    have hlast := fileOffsets_last files
    have e : upper_bound (fileOffsets files) x - 1 = files.length := by omega
    rw [e, hlast] at hoff
    simp only [Option.some.injEq] at hoff
    omega

lemma realigned_ge (filesys : FileSystem) (hk : Hooks) (files : List FileInfo) (x : Nat) :
    x ≤ realigned filesys hk files x := by
  unfold realigned
  split
  · split <;> omega
  · exact le_refl _

lemma realigned_of_start (filesys : FileSystem) (hk : Hooks) (files : List FileInfo) (x : Nat)
    (h : (fileOffsets files)[upper_bound (fileOffsets files) x - 1]? = some x) :
    realigned filesys hk files x = x := by
  unfold realigned
  split
  · rename_i off f h1 h2
    rw [h] at h1
    simp only [Option.some.injEq] at h1
    subst h1
    simp
  · rfl

lemma realigned_zero (filesys : FileSystem) (hk : Hooks) (files : List FileInfo) :
    realigned filesys hk files 0 = 0 := by
  obtain ⟨off, h1, h2, _⟩ := locate files 0
  have : off = 0 := by omega
  subst this
  exact realigned_of_start filesys hk files 0 h1

lemma realigned_total (filesys : FileSystem) (hk : Hooks) (files : List FileInfo) :
    realigned filesys hk files ((fileOffsets files).getLastD 0) = (fileOffsets files).getLastD 0 := by
  obtain ⟨off, h1, _, _, _, h5⟩ := locate files ((fileOffsets files).getLastD 0)
  have := h5 rfl
  subst this
  exact realigned_of_start filesys hk files _ h1

lemma realigned_interior (filesys : FileSystem) (hk : Hooks) (files : List FileInfo) (x off : Nat)
    (f : FileInfo)
    (h1 : (fileOffsets files)[upper_bound (fileOffsets files) x - 1]? = some off)
    (h2 : files[upper_bound (fileOffsets files) x - 1]? = some f) (hne : x ≠ off) :
    realigned filesys hk files x =
      x + (hk.SeekRecordBegin ((filesys.OpenForRead f.path).Seek (x - off))).1 := by
  unfold realigned
  rw [h1, h2]
  simp [hne]

lemma slot_end_le_total (files : List FileInfo) (i off : Nat) (f : FileInfo)
    (h1 : (fileOffsets files)[i]? = some off) (h2 : files[i]? = some f) :
    (fileOffsets files)[i + 1]? = some (off + f.size) ∧
    off + f.size ≤ (fileOffsets files).getLastD 0 := by
  obtain ⟨o, ho1, ho2⟩ := fileOffsets_step files i f h2
  rw [h1] at ho1
  simp only [Option.some.injEq] at ho1
  subst ho1
  have hi : i < files.length := by
    by_contra hc
    rw [List.getElem?_eq_none (by omega)] at h2
    simp at h2
  exact ⟨ho2, fileOffsets_mono files (i + 1) files.length _ _ (by omega) ho2 (fileOffsets_last files)⟩

/-- With every file size a multiple of `a`, so is every entry of the table. -/
lemma fileOffsets_dvd (files : List FileInfo) (a : Nat) (hdiv : ∀ f ∈ files, a ∣ f.size) :
    ∀ (i o : Nat), (fileOffsets files)[i]? = some o → a ∣ o := by
  intro i
  induction i with
  | zero =>
    intro o ho
    rw [fileOffsets_zero] at ho
    simp only [Option.some.injEq] at ho
    subst ho
    exact dvd_zero a
  | succ i ih =>
    intro o ho
    have hlen := fileOffsets_length files
    have hi : i < files.length := by
      by_contra hc
      rw [List.getElem?_eq_none (by omega)] at ho
      simp at ho
    obtain ⟨o', h1, h2⟩ := fileOffsets_step files i files[i] (List.getElem?_eq_getElem hi)
    rw [ho] at h2
    simp only [Option.some.injEq] at h2
    subst h2
    exact Dvd.dvd.add (ih o' h1) (hdiv _ (List.getElem_mem hi))

lemma fileOffsets_total_dvd (files : List FileInfo) (a : Nat) (hdiv : ∀ f ∈ files, a ∣ f.size) :
    a ∣ (fileOffsets files).getLastD 0 :=
  fileOffsets_dvd files a hdiv files.length _ (fileOffsets_last files)

lemma realigned_le_total (filesys : FileSystem) (hk : Hooks) (files : List FileInfo) (x a : Nat)
    (hdiv : ∀ f ∈ files, a ∣ f.size) (hb : SeekStaysInFile filesys hk files a) (hxa : a ∣ x)
    (hx : x ≤ (fileOffsets files).getLastD 0) :
    realigned filesys hk files x ≤ (fileOffsets files).getLastD 0 := by
  rcases Nat.lt_or_ge x ((fileOffsets files).getLastD 0) with hlt | hge
  · obtain ⟨off, h1, h2, _, h4, _⟩ := locate files x
    obtain ⟨f, hf, hxf⟩ := h4 hlt
    by_cases hne : x = off
    · subst hne
      rw [realigned_of_start filesys hk files x h1]
      exact hx
    · rw [realigned_interior filesys hk files x off f h1 hf hne]
      have := hb f (List.getElem?_mem hf) (x - off) (by omega) (by omega)
        (Nat.dvd_sub' hxa (fileOffsets_dvd files a hdiv _ _ h1))
      have := (slot_end_le_total files _ off f h1 hf).2
      omega
  · have : x = (fileOffsets files).getLastD 0 := by omega
    subst this
    rw [realigned_total]

lemma realigned_mono (filesys : FileSystem) (hk : Hooks) (files : List FileInfo) (x y a : Nat)
    (hdiv : ∀ f ∈ files, a ∣ f.size)
    (hb : SeekStaysInFile filesys hk files a) (hm : SeekMonotone filesys hk files a)
    (hxa : a ∣ x) (hya : a ∣ y)
    (hxy : x ≤ y) (hy : y ≤ (fileOffsets files).getLastD 0) :
    realigned filesys hk files x ≤ realigned filesys hk files y := by
  rcases Nat.eq_or_lt_of_le hxy with he | hlt
  · subst he; exact le_refl _
  · obtain ⟨off, h1, h2, h3, h4, _⟩ := locate files x
    obtain ⟨f, hf, hxf⟩ := h4 (by omega)
    have hy' := realigned_ge filesys hk files y
    have hoa := fileOffsets_dvd files a hdiv _ _ h1
    by_cases hne : x = off
    · subst hne
      rw [realigned_of_start filesys hk files x h1]
      omega
    · rw [realigned_interior filesys hk files x off f h1 hf hne]
      have hbx := hb f (List.getElem?_mem hf) (x - off) (by omega) (by omega)
        (Nat.dvd_sub' hxa hoa)
      rcases Nat.lt_or_ge y (off + f.size) with hin | hout
      · have hub : upper_bound (fileOffsets files) y = upper_bound (fileOffsets files) x := by
          apply upper_bound_eq
          · exact upper_bound_le_length _ _
          · intro i o hi ho
            have := upper_bound_before _ x i o hi ho
            omega
          · intro o ho
            have e2 : upper_bound (fileOffsets files) x - 1 + 1 = upper_bound (fileOffsets files) x := by
              omega
            have h5 := (slot_end_le_total files _ off f h1 hf).1
            rw [e2, ho] at h5
            simp only [Option.some.injEq] at h5
            omega
        have h1y := h1
        have hfy := hf
        rw [← hub] at h1y hfy
        rw [realigned_interior filesys hk files y off f h1y hfy (by omega)]
        have := hm f (List.getElem?_mem hf) (y - off) (by omega) (Nat.dvd_sub' hya hoa)
          (x - off) (by omega) (by omega) (Nat.dvd_sub' hxa hoa)
        omega
      · omega

lemma realignEnd_eq (filesys : FileSystem) (hk : Hooks) (s : InputSplitBase)
    (hoffs : s.file_offset_ = fileOffsets s.files_)
    (hptr : s.file_ptr_end_ = upper_bound (fileOffsets s.files_) s.offset_end_ - 1)
    (hle : s.offset_end_ ≤ (fileOffsets s.files_).getLastD 0) :
    s.realignEnd filesys hk =
      .ok { s with offset_end_ := realigned filesys hk s.files_ s.offset_end_ } := by
  obtain ⟨files, offs, b, e, c, fp, fpe, fs, ov, ch⟩ := s
  simp only at hoffs hptr hle
  subst hoffs hptr
  obtain ⟨off, h1, h2, _, h4, h5⟩ := locate files e
  unfold InputSplitBase.realignEnd
  simp only [h1]
  by_cases hne : e = off
  · rw [if_neg (by simpa using hne)]
    subst hne
    rw [realigned_of_start filesys hk files _ h1]
  · have hlt : e < (fileOffsets files).getLastD 0 := by
      rcases Nat.lt_or_ge e ((fileOffsets files).getLastD 0) with h | h
      · exact h
      · exact absurd (h5 (by omega)).symm hne
    obtain ⟨f, hf, hxf⟩ := h4 hlt
    have hi : upper_bound (fileOffsets files) e - 1 < files.length := by
      by_contra hc
      rw [List.getElem?_eq_none (by omega)] at hf
      simp at hf
    rw [if_pos hne, if_neg (by omega), if_neg (by omega)]
    simp only [hf]
    rw [realigned_interior filesys hk files _ off f h1 hf hne]

lemma realignBegin_eq (filesys : FileSystem) (hk : Hooks) (s : InputSplitBase)
    (hoffs : s.file_offset_ = fileOffsets s.files_)
    (hptr : s.file_ptr_ = upper_bound (fileOffsets s.files_) s.offset_begin_ - 1)
    (hlt : s.offset_begin_ < (fileOffsets s.files_).getLastD 0) :
    ∃ st, s.realignBegin filesys hk =
      .ok { s with fs_ := some st
                   offset_begin_ := realigned filesys hk s.files_ s.offset_begin_ } := by
  obtain ⟨files, offs, b, e, c, fp, fpe, fs, ov, ch⟩ := s
  simp only at hoffs hptr hlt
  subst hoffs hptr
  obtain ⟨off, h1, h2, _, h4, _⟩ := locate files b
  obtain ⟨f, hf, hxf⟩ := h4 hlt
  unfold InputSplitBase.realignBegin
  simp only [h1, hf]
  by_cases hne : b = off
  · rw [if_neg (by simpa using hne)]
    subst hne
    rw [realigned_of_start filesys hk files _ h1]
    exact ⟨_, rfl⟩
  · rw [if_pos hne, realigned_interior filesys hk files _ off f h1 hf hne]
    exact ⟨_, rfl⟩

lemma BeforeFirst_total (filesys : FileSystem) (s : InputSplitBase) (st : Stream)
    (hoffs : s.file_offset_ = fileOffsets s.files_) (hfs : s.fs_ = some st)
    (hle : s.offset_begin_ < s.offset_end_ → s.offset_end_ ≤ (fileOffsets s.files_).getLastD 0) :
    ∃ s', s.BeforeFirst filesys = .ok s' ∧ s'.offset_begin_ = s.offset_begin_ ∧
      s'.offset_end_ = s.offset_end_ := by
  obtain ⟨files, offs, b, e, c, fp, fpe, fs, ov, ch⟩ := s
  simp only at hoffs hfs hle
  subst hoffs hfs
  unfold InputSplitBase.BeforeFirst
  by_cases hge : b ≥ e
  · simp only [if_pos hge]
    exact ⟨_, rfl, rfl, rfl⟩
  · simp only [if_neg hge]
    have hlt := hle (by omega)
    obtain ⟨off, h1, h2, _, h4, _⟩ := locate files b
    obtain ⟨f, hf, hxf⟩ := h4 (by omega)
    by_cases hp : fp = upper_bound (fileOffsets files) b - 1
    · subst hp
      simp only [ne_eq, not_true_eq_false, if_false, h1]
      exact ⟨_, rfl, rfl, rfl⟩
    · simp only [ne_eq, hp, not_false_eq_true, if_true, hf, h1]
      exact ⟨_, rfl, rfl, rfl⟩

lemma Init_of_empty (filesys : FileSystem) (hk : Hooks) (this s : InputSplitBase) (uri : String)
    (rank nsplit align_bytes : Nat)
    (hraw : (this.InitInputFileInfo filesys uri).InitRaw rank nsplit align_bytes = .ok s)
    (he : s.offset_begin_ = s.offset_end_) :
    InputSplitBase.Init filesys hk this uri rank nsplit align_bytes = .ok s := by
  unfold InputSplitBase.Init
  rw [hraw]
  simp only [he, if_true]

lemma Init_of_stages (filesys : FileSystem) (hk : Hooks) (this s s2 s3 sF : InputSplitBase)
    (uri : String) (rank nsplit align_bytes : Nat)
    (hraw : (this.InitInputFileInfo filesys uri).InitRaw rank nsplit align_bytes = .ok s)
    (hne : s.offset_begin_ ≠ s.offset_end_)
    (h2 : InputSplitBase.realignEnd filesys hk
            { s with
              file_ptr_ := upper_bound s.file_offset_ s.offset_begin_ - 1
              file_ptr_end_ := upper_bound s.file_offset_ s.offset_end_ - 1 } = .ok s2)
    (h3 : s2.realignBegin filesys hk = .ok s3) (h4 : s3.BeforeFirst filesys = .ok sF) :
    InputSplitBase.Init filesys hk this uri rank nsplit align_bytes = .ok sF := by
  unfold InputSplitBase.Init
  rw [hraw]
  simp only [hne, if_false]
  rw [h2]
  simp only
  rw [h3]
  simp only
  exact h4

/-- Under the alignment precondition, without wrap in lines 24-28 and with a
hook that stays inside the file, `Init` returns for every rank below the
worker count, and the range it leaves is the raw range with both ends moved by
`realigned`. -/
lemma Init_final (filesys : FileSystem) (hk : Hooks) (this : InputSplitBase) (uri : String)
    (rank nsplit align_bytes : Nat) (hn : 0 < nsplit) (h32 : nsplit < 2 ^ 32)
    (ha : 0 < align_bytes) (hrk : rank < nsplit)
    (hdiv : ∀ f ∈ (this.InitInputFileInfo filesys uri).files_, f.size % align_bytes = 0)
    (hfit : StepFits ((fileOffsets (this.InitInputFileInfo filesys uri).files_).getLastD 0)
      nsplit align_bytes)
    (hb : SeekStaysInFile filesys hk (this.InitInputFileInfo filesys uri).files_ align_bytes) :
    ∃ s, InputSplitBase.Init filesys hk this uri rank nsplit align_bytes = .ok s ∧
      s.offset_begin_ = realigned filesys hk (this.InitInputFileInfo filesys uri).files_
        (rawBegin ((fileOffsets (this.InitInputFileInfo filesys uri).files_).getLastD 0)
          nsplit align_bytes rank) ∧
      s.offset_end_ = realigned filesys hk (this.InitInputFileInfo filesys uri).files_
        (rawEnd ((fileOffsets (this.InitInputFileInfo filesys uri).files_).getLastD 0)
          nsplit align_bytes rank) := by
  have hdvd : ∀ f ∈ (this.InitInputFileInfo filesys uri).files_, align_bytes ∣ f.size :=
    fun f hf => Nat.dvd_of_mod_eq_zero (hdiv f hf)
  obtain ⟨sR, hraw, hRf, hRo, hRb, hRe⟩ : ∃ sR,
      (this.InitInputFileInfo filesys uri).InitRaw rank nsplit align_bytes = .ok sR ∧
      sR.files_ = (this.InitInputFileInfo filesys uri).files_ ∧
      sR.file_offset_ = fileOffsets (this.InitInputFileInfo filesys uri).files_ ∧
      sR.offset_begin_ =
        rawBegin ((fileOffsets (this.InitInputFileInfo filesys uri).files_).getLastD 0)
          nsplit align_bytes rank ∧
      sR.offset_end_ =
        rawEnd ((fileOffsets (this.InitInputFileInfo filesys uri).files_).getLastD 0)
          nsplit align_bytes rank :=
    ⟨_, InitRaw_eq_ok _ rank nsplit align_bytes hn ha hdiv, rfl, rfl, rfl, rfl⟩
  rw [← hRf] at hb hfit hdvd ⊢
  rw [← hRf] at hRo hRb hRe
  have hbe := rawBegin_le_rawEnd ((fileOffsets sR.files_).getLastD 0) nsplit align_bytes rank
    hfit hrk h32
  have het := rawEnd_le_total ((fileOffsets sR.files_).getLastD 0) nsplit align_bytes rank
  have hEa : align_bytes ∣ rawEnd ((fileOffsets sR.files_).getLastD 0) nsplit align_bytes rank := by
    rw [rawEnd_eq_rawBegin_succ _ _ _ rank hfit hrk h32]
    exact rawBegin_dvd _ _ _ (rank + 1) hfit (by omega)
      (fileOffsets_total_dvd sR.files_ align_bytes hdvd)
  rw [← hRb, ← hRe]
  rw [← hRb, ← hRe] at hbe
  rw [← hRe] at het hEa
  by_cases hemp : sR.offset_begin_ = sR.offset_end_
  · refine ⟨sR, Init_of_empty filesys hk this sR uri rank nsplit align_bytes hraw hemp, ?_, ?_⟩
    · have := (raw_empty_at_total ((fileOffsets sR.files_).getLastD 0) nsplit align_bytes rank
        hn ha h32 hfit hrk (by rw [← hRb, ← hRe]; exact hemp)).1
      rw [← hRb] at this
      rw [this, realigned_total]
    · have := (raw_empty_at_total ((fileOffsets sR.files_).getLastD 0) nsplit align_bytes rank
        hn ha h32 hfit hrk (by rw [← hRb, ← hRe]; exact hemp)).2
      rw [← hRe] at this
      rw [this, realigned_total]
  · have h2 := realignEnd_eq filesys hk
      { sR with
        file_ptr_ := upper_bound sR.file_offset_ sR.offset_begin_ - 1
        file_ptr_end_ := upper_bound sR.file_offset_ sR.offset_end_ - 1 }
      hRo (by simp only; rw [hRo]) het
    obtain ⟨st, h3⟩ := realignBegin_eq filesys hk
      { sR with
        file_ptr_ := upper_bound sR.file_offset_ sR.offset_begin_ - 1
        file_ptr_end_ := upper_bound sR.file_offset_ sR.offset_end_ - 1
        offset_end_ := realigned filesys hk sR.files_ sR.offset_end_ }
      hRo (by simp only; rw [hRo]) (by simp only; omega)
    obtain ⟨sF, h4, h5, h6⟩ := BeforeFirst_total filesys
      { sR with
        file_ptr_ := upper_bound sR.file_offset_ sR.offset_begin_ - 1
        file_ptr_end_ := upper_bound sR.file_offset_ sR.offset_end_ - 1
        offset_end_ := realigned filesys hk sR.files_ sR.offset_end_
        fs_ := some st
        offset_begin_ := realigned filesys hk sR.files_ sR.offset_begin_ } st
      hRo rfl
      (fun _ => realigned_le_total filesys hk sR.files_ sR.offset_end_ align_bytes hdvd hb
        hEa het)
    exact ⟨sF, Init_of_stages filesys hk this sR _ _ sF uri rank nsplit align_bytes hraw hemp
      h2 h3 h4, h5, h6⟩

/-- C1 (amended): for every file list, alignment of at least 1 that divides
every file size, worker count from 1 to `2^32 - 1` for which no sum or
product of lines 24-28 leaves `size_t`, and a `SeekRecordBegin` hook that, at
the multiples of `align_bytes` strictly inside a file, points at a position
that is not behind the end of the file and does not go back when the start
position goes forward: `Init` returns for every rank below the worker count,
and the ranges `[offset_begin_, offset_end_)` it leaves for these ranks tile
`[0, total)`: rank 0 begins at 0, the end of rank `r` is the begin of rank
`r + 1`, the last rank ends at `total`, no range is inverted, and every offset
below `total` lies in the range of exactly one rank. -/
theorem C1_realigned_ranges_tile (filesys : FileSystem) (hk : Hooks) (this : InputSplitBase)
    (uri : String) (nsplit align_bytes : Nat) (hn : 1 ≤ nsplit) (h32 : nsplit < 2 ^ 32)
    (ha : 1 ≤ align_bytes)
    (hdiv : ∀ f ∈ (this.InitInputFileInfo filesys uri).files_, align_bytes ∣ f.size)
    (hfit : StepFits ((fileOffsets (this.InitInputFileInfo filesys uri).files_).getLastD 0)
      nsplit align_bytes)
    (hb : SeekStaysInFile filesys hk (this.InitInputFileInfo filesys uri).files_ align_bytes)
    (hm : SeekMonotone filesys hk (this.InitInputFileInfo filesys uri).files_ align_bytes) :
    (∀ rank, rank < nsplit →
      ∃ s, InputSplitBase.Init filesys hk this uri rank nsplit align_bytes = .ok s) ∧
    finalBegin filesys hk this uri nsplit align_bytes 0 = 0 ∧
    (∀ r, r + 1 < nsplit → finalEnd filesys hk this uri nsplit align_bytes r =
      finalBegin filesys hk this uri nsplit align_bytes (r + 1)) ∧
    finalEnd filesys hk this uri nsplit align_bytes (nsplit - 1) =
      (fileOffsets (this.InitInputFileInfo filesys uri).files_).getLastD 0 ∧
    (∀ r, r < nsplit → finalBegin filesys hk this uri nsplit align_bytes r ≤
      finalEnd filesys hk this uri nsplit align_bytes r) ∧
    (∀ x, x < (fileOffsets (this.InitInputFileInfo filesys uri).files_).getLastD 0 →
      ∃! r, r < nsplit ∧ finalBegin filesys hk this uri nsplit align_bytes r ≤ x ∧
        x < finalEnd filesys hk this uri nsplit align_bytes r) := by
  have hdiv' : ∀ f ∈ (this.InitInputFileInfo filesys uri).files_, f.size % align_bytes = 0 :=
    fun f hf => Nat.mod_eq_zero_of_dvd (hdiv f hf)
  have hta := fileOffsets_total_dvd _ align_bytes hdiv
  have hfin := fun rank (hr : rank < nsplit) =>
    Init_final filesys hk this uri rank nsplit align_bytes hn h32 ha hr hdiv' hfit hb
  have hB : ∀ r, r < nsplit → finalBegin filesys hk this uri nsplit align_bytes r =
      realigned filesys hk (this.InitInputFileInfo filesys uri).files_
        (rawBegin ((fileOffsets (this.InitInputFileInfo filesys uri).files_).getLastD 0)
          nsplit align_bytes r) := by
    intro r hr
    obtain ⟨s, h1, h2, _⟩ := hfin r hr
    unfold finalBegin
    rw [h1]
    exact h2
  have hE : ∀ r, r < nsplit → finalEnd filesys hk this uri nsplit align_bytes r =
      realigned filesys hk (this.InitInputFileInfo filesys uri).files_
        (rawBegin ((fileOffsets (this.InitInputFileInfo filesys uri).files_).getLastD 0)
          nsplit align_bytes (r + 1)) := by
    intro r hr
    obtain ⟨s, h1, _, h3⟩ := hfin r hr
    unfold finalEnd
    rw [h1, ← rawEnd_eq_rawBegin_succ _ _ _ r hfit hr h32]
    exact h3
  have hchain : ∀ r, r < nsplit →
      realigned filesys hk (this.InitInputFileInfo filesys uri).files_
        (rawBegin ((fileOffsets (this.InitInputFileInfo filesys uri).files_).getLastD 0)
          nsplit align_bytes r) ≤
      realigned filesys hk (this.InitInputFileInfo filesys uri).files_
        (rawBegin ((fileOffsets (this.InitInputFileInfo filesys uri).files_).getLastD 0)
          nsplit align_bytes (r + 1)) := by
    intro r hr
    apply realigned_mono filesys hk _ _ _ align_bytes hdiv hb hm
      (rawBegin_dvd _ _ _ r hfit (by omega) hta) (rawBegin_dvd _ _ _ (r + 1) hfit (by omega) hta)
    · rw [← rawEnd_eq_rawBegin_succ _ _ _ r hfit hr h32]
      exact rawBegin_le_rawEnd _ _ _ r hfit hr h32
    · exact rawBegin_le_total _ _ _ _
  have hk1 : nsplit - 1 + 1 = nsplit := by omega
  have htop : rawBegin ((fileOffsets (this.InitInputFileInfo filesys uri).files_).getLastD 0)
      nsplit align_bytes nsplit =
      (fileOffsets (this.InitInputFileInfo filesys uri).files_).getLastD 0 := by
    have h := rawEnd_last _ nsplit align_bytes hn ha h32 hfit
    rw [rawEnd_eq_rawBegin_succ _ _ _ (nsplit - 1) hfit (by omega) h32, hk1] at h
    exact h
  have hzero : finalBegin filesys hk this uri nsplit align_bytes 0 = 0 := by
    rw [hB 0 (by omega), rawBegin_zero, realigned_zero]
  have hlast : finalEnd filesys hk this uri nsplit align_bytes (nsplit - 1) =
      (fileOffsets (this.InitInputFileInfo filesys uri).files_).getLastD 0 := by
    rw [hE (nsplit - 1) (by omega), hk1, htop, realigned_total]
  refine ⟨fun rank hr => ?_, hzero, fun r hr => ?_, hlast, fun r hr => ?_, ?_⟩
  · obtain ⟨s, h1, _⟩ := hfin rank hr
    exact ⟨s, h1⟩
  · rw [hE r (by omega), hB (r + 1) hr]
  · rw [hE r hr, hB r hr]
    exact hchain r hr
  · intro x hx
    obtain ⟨r, ⟨hr, h1, h2⟩, huniq⟩ := chain_cover
      (fun r => realigned filesys hk (this.InitInputFileInfo filesys uri).files_
        (rawBegin ((fileOffsets (this.InitInputFileInfo filesys uri).files_).getLastD 0)
          nsplit align_bytes r)) x nsplit
      (fun r hr => hchain r hr) (by simp only; rw [rawBegin_zero, realigned_zero]; omega)
      (by simp only; rw [htop, realigned_total]; exact hx)
    simp only at h1 h2 huniq
    refine ⟨r, ⟨hr, by rw [hB r hr]; exact h1, by rw [hE r hr]; exact h2⟩, ?_⟩
    rintro r' ⟨hr', h1', h2'⟩
    rw [hB r' hr'] at h1'
    rw [hE r' hr'] at h2'
    exact huniq r' ⟨hr', h1', h2'⟩

/-- The word scanner meets both conditions at the multiples of 4, though it
points behind the end of the file from a position off the grid. -/
lemma wordSeek_sane :
    SeekStaysInFile fsWords wordHooks (blank.InitInputFileInfo fsWords "a").files_ 4 ∧
    SeekMonotone fsWords wordHooks (blank.InitInputFileInfo fsWords "a").files_ 4 ∧
    ¬ SeekStaysInFile fsWords wordHooks (blank.InitInputFileInfo fsWords "a").files_ 1 := by
  unfold SeekStaysInFile SeekMonotone
  decide

lemma lineSeek_sane :
    SeekStaysInFile fsLine lineHooks (blank.InitInputFileInfo fsLine "a").files_ 1 ∧
    SeekMonotone fsLine lineHooks (blank.InitInputFileInfo fsLine "a").files_ 1 := by
  unfold SeekStaysInFile SeekMonotone
  decide

/-- Two instances of C1: the file `abcde\ngh`, the line hooks, alignment 1 and
4 workers; and the file of four 4-byte words, the word scanner, alignment 4
and 4 workers. -/
theorem C1_realigned_ranges_tile_witness :
    ((∀ rank, rank < 4 →
      ∃ s, InputSplitBase.Init fsWords wordHooks blank "a" rank 4 4 = .ok s) ∧
    finalBegin fsWords wordHooks blank "a" 4 4 0 = 0 ∧
    (∀ r, r + 1 < 4 →
      finalEnd fsWords wordHooks blank "a" 4 4 r =
        finalBegin fsWords wordHooks blank "a" 4 4 (r + 1)) ∧
    finalEnd fsWords wordHooks blank "a" 4 4 (4 - 1) =
      (fileOffsets (blank.InitInputFileInfo fsWords "a").files_).getLastD 0 ∧
    (∀ r, r < 4 →
      finalBegin fsWords wordHooks blank "a" 4 4 r ≤ finalEnd fsWords wordHooks blank "a" 4 4 r) ∧
    (∀ x, x < (fileOffsets (blank.InitInputFileInfo fsWords "a").files_).getLastD 0 →
      ∃! r, r < 4 ∧ finalBegin fsWords wordHooks blank "a" 4 4 r ≤ x ∧
        x < finalEnd fsWords wordHooks blank "a" 4 4 r)) ∧
    (∀ rank, rank < 4 →
      ∃ s, InputSplitBase.Init fsLine lineHooks blank "a" rank 4 1 = .ok s) ∧
    finalBegin fsLine lineHooks blank "a" 4 1 0 = 0 ∧
    (∀ r, r + 1 < 4 →
      finalEnd fsLine lineHooks blank "a" 4 1 r = finalBegin fsLine lineHooks blank "a" 4 1 (r + 1)) ∧
    finalEnd fsLine lineHooks blank "a" 4 1 (4 - 1) =
      (fileOffsets (blank.InitInputFileInfo fsLine "a").files_).getLastD 0 ∧
    (∀ r, r < 4 →
      finalBegin fsLine lineHooks blank "a" 4 1 r ≤ finalEnd fsLine lineHooks blank "a" 4 1 r) ∧
    (∀ x, x < (fileOffsets (blank.InitInputFileInfo fsLine "a").files_).getLastD 0 →
      ∃! r, r < 4 ∧ finalBegin fsLine lineHooks blank "a" 4 1 r ≤ x ∧
        x < finalEnd fsLine lineHooks blank "a" 4 1 r) :=
  ⟨C1_realigned_ranges_tile fsWords wordHooks blank "a" 4 4 (by decide) (by decide) (by decide)
    (by decide) (by decide) wordSeek_sane.1 wordSeek_sane.2.1,
   C1_realigned_ranges_tile fsLine lineHooks blank "a" 4 1 (by decide) (by decide) (by decide)
    (fun f _ => Nat.one_dvd f.size) (by decide) lineSeek_sane.1 lineSeek_sane.2⟩

lemma concat_drop_slot (filesys : FileSystem) (acc : Nat) (files : List FileInfo)
    (hc : Consistent filesys files) (i off : Nat) (f : FileInfo)
    (hf : files[i]? = some f) (ho : (fileOffsetsFrom acc files)[i]? = some off) :
    acc ≤ off ∧
    (concatBytes filesys files).drop (off - acc) =
      filesys.bytes f.path ++ (concatBytes filesys files).drop (off - acc + f.size) := by
  induction files generalizing acc i with
  | nil => simp at hf
  | cons g fs ih =>
    have hcg : (filesys.bytes g.path).length = g.size := hc g (List.mem_cons_self _ _)
    have hcfs : Consistent filesys fs := fun x hx => hc x (List.mem_cons_of_mem _ hx)
    cases i with
    | zero =>
      simp only [List.getElem?_cons_zero, Option.some.injEq] at hf
      subst hf
      simp only [fileOffsetsFrom, List.getElem?_cons_zero, Option.some.injEq] at ho
      subst ho
      refine ⟨le_refl _, ?_⟩
      simp only [Nat.sub_self, List.drop_zero, Nat.zero_add, concatBytes, List.map_cons,
        List.flatten_cons]
      rw [← hcg, List.drop_left]
    | succ i =>
      simp only [List.getElem?_cons_succ] at hf
      simp only [fileOffsetsFrom, List.getElem?_cons_succ] at ho
      obtain ⟨h1, h2⟩ := ih (acc + g.size) hcfs i hf ho
      refine ⟨by omega, ?_⟩
      have e1 : off - acc = (filesys.bytes g.path).length + (off - (acc + g.size)) := by omega
      have e2 : off - acc + f.size =
          (filesys.bytes g.path).length + (off - (acc + g.size) + f.size) := by omega
      have hcat : concatBytes filesys (g :: fs) = filesys.bytes g.path ++ concatBytes filesys fs := by
        simp [concatBytes]
      rw [hcat, e2, e1, List.drop_append, List.drop_append]
      exact h2

lemma concat_drop_at (filesys : FileSystem) (files : List FileInfo)
    (hc : Consistent filesys files) (i off : Nat) (f : FileInfo)
    (hf : files[i]? = some f) (ho : (fileOffsets files)[i]? = some off) (x : Nat)
    (h1 : off ≤ x) (h2 : x ≤ off + f.size) :
    (concatBytes filesys files).drop x =
      (filesys.bytes f.path).drop (x - off) ++ (concatBytes filesys files).drop (off + f.size) := by
  obtain ⟨_, h⟩ := concat_drop_slot filesys 0 files hc i off f hf ho
  simp only [Nat.sub_zero] at h
  have hlen : (filesys.bytes f.path).length = f.size := hc f (List.getElem?_mem hf)
  have e : x = off + (x - off) := by omega
  conv_lhs => rw [e, ← List.drop_drop, h]
  rw [List.drop_append_of_le_length (by omega)]

/-- One pass of the loop of `Read` sees the next bytes of the concatenation. -/
lemma stream_read_eq (filesys : FileSystem) (files : List FileInfo)
    (hc : Consistent filesys files) (i off : Nat) (f : FileInfo)
    (hf : files[i]? = some f) (ho : (fileOffsets files)[i]? = some off) (x nleft : Nat)
    (h1 : off ≤ x) (h2 : x ≤ off + f.size) :
    let got := (Stream.Read { data := filesys.bytes f.path, pos := x - off } nleft).1
    got.length = min nleft (off + f.size - x) ∧
    ((concatBytes filesys files).drop x).take nleft =
      got ++ ((concatBytes filesys files).drop (x + got.length)).take (nleft - got.length) := by
  have hlen : (filesys.bytes f.path).length = f.size := hc f (List.getElem?_mem hf)
  have hd := concat_drop_at filesys files hc i off f hf ho x h1 h2
  simp only [Stream.Read]
  have hgl : (List.take nleft (List.drop (x - off) (filesys.bytes f.path))).length =
      min nleft (off + f.size - x) := by
    rw [List.length_take, List.length_drop, hlen]
    omega
  refine ⟨hgl, ?_⟩
  rw [hgl, hd, List.take_append_eq_append_take]
  congr 1
  rw [List.length_drop, hlen]
  rcases Nat.lt_or_ge nleft (off + f.size - x) with hlt | hge
  · have e1 : nleft - (f.size - (x - off)) = 0 := by omega
    have e2 : nleft - min nleft (off + f.size - x) = 0 := by omega
    rw [e1, e2]
    rfl
  · have e1 : min nleft (off + f.size - x) = off + f.size - x := by omega
    have e2 : x + (off + f.size - x) = off + f.size := by omega
    have e3 : f.size - (x - off) = off + f.size - x := by omega
    have hd2 := concat_drop_at filesys files hc i off f hf ho (off + f.size) (by omega) (le_refl _)
    rw [e1, e2, e3]

lemma ReadLoop_step_done (filesys : FileSystem) (fuel : Nat) (s : InputSplitBase) (nleft : Nat)
    (buf : List UInt8) (st : Stream) (hfs : s.fs_ = some st)
    (hz : nleft - (st.Read nleft).1.length = 0) :
    InputSplitBase.ReadLoop filesys (fuel + 1) s nleft buf =
      .ok (0, buf ++ (st.Read nleft).1,
        { s with fs_ := some (st.Read nleft).2
                 offset_curr_ := s.offset_curr_ + (st.Read nleft).1.length }) := by
  unfold InputSplitBase.ReadLoop
  simp only [hfs, hz, if_true]

lemma ReadLoop_step_next (filesys : FileSystem) (fuel : Nat) (s : InputSplitBase) (nleft : Nat)
    (buf : List UInt8) (st : Stream) (g : FileInfo) (hfs : s.fs_ = some st)
    (hnz : nleft - (st.Read nleft).1.length ≠ 0)
    (hoff : s.file_offset_[s.file_ptr_ + 1]? = some (s.offset_curr_ + (st.Read nleft).1.length))
    (hnext : s.file_ptr_ + 1 < s.files_.length) (hg : s.files_[s.file_ptr_ + 1]? = some g) :
    InputSplitBase.ReadLoop filesys (fuel + 1) s nleft buf =
      InputSplitBase.ReadLoop filesys fuel
        { s with fs_ := some (filesys.OpenForRead g.path)
                 offset_curr_ := s.offset_curr_ + (st.Read nleft).1.length
                 file_ptr_ := s.file_ptr_ + 1 }
        (nleft - (st.Read nleft).1.length) (buf ++ (st.Read nleft).1) := by
  conv_lhs => unfold InputSplitBase.ReadLoop
  simp only [hfs, hnz, if_false, hoff, ne_eq, not_true_eq_false, hg]
  rw [if_neg (by omega)]

lemma ReadLoop_spec (filesys : FileSystem) :
    ∀ (fuel : Nat) (s : InputSplitBase) (nleft : Nat) (buf : List UInt8),
      s.file_offset_ = fileOffsets s.files_ → Consistent filesys s.files_ → Synced filesys s →
      s.offset_curr_ + nleft ≤ (fileOffsets s.files_).getLastD 0 → 0 < nleft →
      s.files_.length - s.file_ptr_ < fuel →
      ∃ s', InputSplitBase.ReadLoop filesys fuel s nleft buf =
          .ok (0, buf ++ ((concatBytes filesys s.files_).drop s.offset_curr_).take nleft, s') ∧
        Synced filesys s' ∧ s'.offset_curr_ = s.offset_curr_ + nleft ∧ SameFrame s s' := by
  intro fuel
  induction fuel with
  | zero => intro s nleft buf _ _ _ _ _ hf; omega
  | succ fuel ih =>
    intro s nleft buf hoffs hc hsync hle hpos hfuel
    obtain ⟨f, off, hf, ho, h1, h2, hfs⟩ := hsync
    rw [hoffs] at ho
    obtain ⟨hgl, hgot⟩ := stream_read_eq filesys s.files_ hc _ off f hf ho s.offset_curr_ nleft h1 h2
    have hslot := slot_end_le_total s.files_ _ off f ho hf
    generalize hr : Stream.Read { data := filesys.bytes f.path, pos := s.offset_curr_ - off } nleft = r
      at hgl hgot
    have hr2 : r.2 = { data := filesys.bytes f.path, pos := s.offset_curr_ - off + r.1.length } := by
      rw [← hr]; rfl
    by_cases hz : nleft - r.1.length = 0
    · have hstep := ReadLoop_step_done filesys fuel s nleft buf _ hfs (by rw [hr]; exact hz)
      rw [hr] at hstep
      refine ⟨{ s with fs_ := some r.2, offset_curr_ := s.offset_curr_ + r.1.length },
        ?_, ?_, ?_, ⟨rfl, rfl, rfl, rfl, rfl, rfl, rfl⟩⟩
      · rw [hstep, hgot, hz]
        simp
      · refine ⟨f, off, hf, by rw [hoffs]; exact ho, by simp only; omega, by simp only; omega, ?_⟩
        simp only [hr2, Option.some.injEq, Stream.mk.injEq, true_and]
        omega
      · simp only
        omega
    · have hcur : s.offset_curr_ + r.1.length = off + f.size := by omega
      have hnext : s.file_ptr_ + 1 < s.files_.length := by
        by_contra hcon
        have hi : s.file_ptr_ < s.files_.length := by
          by_contra hc2
          rw [List.getElem?_eq_none (by omega)] at hf
          simp at hf
        have e : s.file_ptr_ + 1 = s.files_.length := by omega
        have h5 := hslot.1
        rw [e, fileOffsets_last] at h5
        simp only [Option.some.injEq] at h5
        omega
      obtain ⟨g, hg⟩ : ∃ g, s.files_[s.file_ptr_ + 1]? = some g := ⟨_, List.getElem?_eq_getElem hnext⟩
      have hstep := ReadLoop_step_next filesys fuel s nleft buf _ g hfs (by rw [hr]; exact hz)
        (by rw [hr, hoffs, hcur]; exact hslot.1) hnext hg
      rw [hr] at hstep
      obtain ⟨s', e1, e2, e3, e4⟩ := ih
        { s with fs_ := some (filesys.OpenForRead g.path)
                 offset_curr_ := s.offset_curr_ + r.1.length
                 file_ptr_ := s.file_ptr_ + 1 }
        (nleft - r.1.length) (buf ++ r.1) hoffs hc
        ⟨g, off + f.size, hg, by simp only; rw [hoffs]; exact hslot.1, by simp only; omega,
          by simp only; omega, by simp [FileSystem.OpenForRead, hcur]⟩
        (by simp only; omega) (by omega) (by simp only; omega)
      refine ⟨s', ?_, e2, by rw [e3]; simp only; omega, e4⟩
      rw [hstep, e1]
      simp only [List.append_assoc]
      rw [hgot]

lemma fileOffsetsFrom_getLastD (filesys : FileSystem) (acc : Nat) (files : List FileInfo)
    (hc : Consistent filesys files) :
    (fileOffsetsFrom acc files).getLastD 0 = acc + (concatBytes filesys files).length := by
  induction files generalizing acc with
  | nil => simp [fileOffsetsFrom, concatBytes]
  | cons g fs ih =>
    have hcg : (filesys.bytes g.path).length = g.size := hc g (List.mem_cons_self _ _)
    have hcfs : Consistent filesys fs := fun x hx => hc x (List.mem_cons_of_mem _ hx)
    have h := ih (acc + g.size) hcfs
    have hcat : concatBytes filesys (g :: fs) = filesys.bytes g.path ++ concatBytes filesys fs := by
      simp [concatBytes]
    rw [hcat, List.length_append, hcg]
    cases hl : fileOffsetsFrom (acc + g.size) fs with
    | nil =>
      have := fileOffsetsFrom_length (acc + g.size) fs
      rw [hl] at this
      simp at this
    | cons a l =>
      rw [hl] at h
      simp only [fileOffsetsFrom, hl]
      simp only [List.getLastD_cons] at h ⊢
      omega

lemma concat_length (filesys : FileSystem) (files : List FileInfo) (hc : Consistent filesys files) :
    (concatBytes filesys files).length = (fileOffsets files).getLastD 0 := by
  have := fileOffsetsFrom_getLastD filesys 0 files hc
  unfold fileOffsets
  omega

lemma pending_length (filesys : FileSystem) (s : InputSplitBase) (hr : Ready filesys s) :
    (pending filesys s).length = s.overflow_.length + (s.offset_end_ - s.offset_curr_) := by
  obtain ⟨_, hc, _, h1, h2, _⟩ := hr
  have := concat_length filesys s.files_ hc
  unfold pending
  rw [List.length_append, List.length_take, List.length_drop]
  omega

lemma Read_spec (filesys : FileSystem) (s : InputSplitBase) (size : Nat) (hr : Ready filesys s)
    (hsum : s.offset_curr_ + size < 2 ^ 64) :
    ∃ s', InputSplitBase.Read filesys s size =
        .ok (min size (s.offset_end_ - s.offset_curr_),
          ((concatBytes filesys s.files_).drop s.offset_curr_).take
            (min size (s.offset_end_ - s.offset_curr_)), s') ∧
      Ready filesys s' ∧
      s'.offset_curr_ = s.offset_curr_ + min size (s.offset_end_ - s.offset_curr_) ∧
      SameFrame s s' ∧
      (s.offset_curr_ = s.offset_end_ → s' = s) := by
  obtain ⟨hoffs, hc, hb, h1, h2, hov, hsync⟩ := hr
  have hsz : s.readSize size = min size (s.offset_end_ - s.offset_curr_) :=
    readSize_eq s size h1 hsum
  unfold InputSplitBase.Read
  simp only [hsz]
  by_cases hz : min size (s.offset_end_ - s.offset_curr_) = 0
  · rw [if_pos hz, hz]
    exact ⟨s, by simp, ⟨hoffs, hc, hb, h1, h2, hov, hsync⟩, by omega, SameFrame.refl s,
      fun _ => rfl⟩
  · rw [if_neg hz]
    obtain ⟨s', e1, e2, e3, e4⟩ := ReadLoop_spec filesys (s.files_.length + 1) s
      (min size (s.offset_end_ - s.offset_curr_)) [] hoffs hc (hsync (by omega)) (by omega)
      (by omega) (by omega)
    rw [e1]
    obtain ⟨f1, f2, f3, f4, f5, f6, f7⟩ := e4
    refine ⟨s', by simp, ⟨by rw [f2, f1]; exact hoffs, by rw [f1]; exact hc, by omega, by omega,
      by rw [f1, f4]; exact h2, by rw [f6]; omega, fun _ => e2⟩, e3,
      ⟨f1, f2, f3, f4, f5, f6, f7⟩, fun h => by omega⟩

lemma writeFront_take (w mem : List UInt8) (n : Nat) (h : n ≤ w.length) :
    (writeFront w mem).take n = w.take n := by
  unfold writeFront
  exact List.take_append_of_le_length h

lemma writeFront_drop_take (w mem : List UInt8) (k : Nat) (h : k ≤ w.length) :
    ((writeFront w mem).drop k).take (w.length - k) = w.drop k := by
  unfold writeFront
  rw [List.drop_append_of_le_length h]
  exact List.take_left' (by simp)

/-- What one call of `ReadChunk` does to a split that is `Ready`, in terms of
the bytes still to hand out. -/
lemma ReadChunk_spec (filesys : FileSystem) (hk : Hooks) (s : InputSplitBase) (mem : List UInt8)
    (max_size : Nat) (hr : Ready filesys s) (hh : HookInRange hk)
    (hfit : s.offset_end_ + max_size < 2 ^ 64) :
    ∃ r s', s.ReadChunk filesys hk mem max_size = .ok (r, s') ∧ Ready filesys s' ∧
      (s'.files_ = s.files_ ∧ s'.file_offset_ = s.file_offset_ ∧
        s'.offset_begin_ = s.offset_begin_ ∧ s'.offset_end_ = s.offset_end_ ∧
        s'.file_ptr_end_ = s.file_ptr_end_ ∧ s'.tmp_chunk_ = s.tmp_chunk_) ∧
      (pending filesys s = [] → s' = s) ∧
      (r.ret = false → pending filesys s = [] ∧ pending filesys s' = [] ∧
        s.overflow_.length < max_size) ∧
      (r.ret = true → r.size ≤ (pending filesys s).length ∧ r.size ≤ max_size ∧
        pending filesys s' = (pending filesys s).drop r.size ∧
        r.buf.take r.size = (pending filesys s).take r.size) ∧
      (max_size ≤ s.overflow_.length → r.ret = true ∧ r.size = 0 ∧ r.buf = mem ∧ s' = s) ∧
      (s.overflow_.length < max_size →
        r.buf = writeFront ((pending filesys s).take max_size) mem ∧
        (pending filesys s = [] → r.ret = false) ∧
        (pending filesys s ≠ [] → r.ret = true) ∧
        (pending filesys s ≠ [] → (pending filesys s).length < max_size →
          r.size = (pending filesys s).length ∧ s'.overflow_ = []) ∧
        (max_size ≤ (pending filesys s).length →
          r.size = hk.FindLastRecordBegin ((pending filesys s).take max_size) ∧
          s'.overflow_ = ((pending filesys s).take max_size).drop r.size)) := by
  have hplen := pending_length filesys s hr
  by_cases hcap : max_size ≤ s.overflow_.length
  · refine ⟨{ ret := true, size := 0, buf := mem }, s, ?_, hr, ⟨rfl, rfl, rfl, rfl, rfl, rfl⟩,
      fun _ => rfl, ?_, ?_, ?_, ?_⟩
    · unfold InputSplitBase.ReadChunk
      rw [if_pos hcap]
    · intro h; simp at h
    · intro _
      exact ⟨Nat.zero_le _, Nat.zero_le _, by simp, by simp⟩
    · intro _; exact ⟨rfl, rfl, rfl, rfl⟩
    · intro h; omega
  · have hlt : s.overflow_.length < max_size := by omega
    have hr0 : Ready filesys { s with overflow_ := [] } := by
      obtain ⟨a1, a2, a3, a4, a5, _, a7⟩ := hr
      exact ⟨a1, a2, a3, a4, a5, Nat.zero_le _, a7⟩
    obtain ⟨s1, hread, hr1, hcur1, hfr, hsame⟩ := Read_spec filesys { s with overflow_ := [] }
      (max_size - s.overflow_.length) hr0 (by have := hr.2.2.2.1; simp only; omega)
    obtain ⟨f1, f2, f3, f4, f5, f6, f7⟩ := hfr
    simp only at hread hcur1 f1 f2 f3 f4 f5 f6 f7 hsame
    have hrov : ∀ X : List UInt8, X.length ≤ s1.offset_curr_ - s1.offset_begin_ →
        Ready filesys { s1 with overflow_ := X } := by
      intro X hX
      obtain ⟨a1, a2, a3, a4, a5, _, a7⟩ := hr1
      exact ⟨a1, a2, a3, a4, a5, hX, a7⟩
    obtain ⟨hoffs, hc, hbc, hce, het, hovl, _⟩ := hr
    have hclen := concat_length filesys s.files_ hc
    generalize hn : min (max_size - s.overflow_.length) (s.offset_end_ - s.offset_curr_) = n
      at hread hcur1
    -- the bytes the call assembles
    have hw : s.overflow_ ++ ((concatBytes filesys s.files_).drop s.offset_curr_).take n =
        (pending filesys s).take max_size := by
      unfold pending
      have e1 : List.take max_size s.overflow_ = s.overflow_ :=
        List.take_of_length_le (by omega)
      rw [@List.take_append_eq_append_take _ s.overflow_ _ max_size, e1, List.take_take, hn]
    have hgl : (((concatBytes filesys s.files_).drop s.offset_curr_).take n).length = n := by
      rw [List.length_take, List.length_drop]
      omega
    have hwl : ((pending filesys s).take max_size).length = s.overflow_.length + n := by
      rw [← hw, List.length_append, hgl]
    have hrest : ((concatBytes filesys s1.files_).drop s1.offset_curr_).take
          (s1.offset_end_ - s1.offset_curr_) = (pending filesys s).drop (s.overflow_.length + n) := by
      unfold pending
      rw [f1, f4, hcur1, List.drop_append, List.drop_take, List.drop_drop]
      congr 1
      omega
    have hp1 : ∀ X : List UInt8, pending filesys { s1 with overflow_ := X } =
        X ++ (pending filesys s).drop (s.overflow_.length + n) := by
      intro X
      rw [← hrest]
      rfl
    have hp1' : pending filesys s1 = (pending filesys s).drop (s.overflow_.length + n) := by
      have h0 : pending filesys s1 = s1.overflow_ ++
          ((concatBytes filesys s1.files_).drop s1.offset_curr_).take
            (s1.offset_end_ - s1.offset_curr_) := rfl
      rw [h0, f6, hrest]
      rfl
    generalize hP : pending filesys s = P at *
    unfold InputSplitBase.ReadChunk
    rw [if_neg hcap]
    simp only [hread, hw]
    by_cases hz : n + s.overflow_.length = 0
    · -- nothing assembled: the split is exhausted
      rw [if_pos hz]
      have hnil : P = [] := List.eq_nil_of_length_eq_zero (by omega)
      have hnil1 : pending filesys s1 = [] := by
        rw [hp1', hnil]
        simp
      have hs1 : s1 = s := by
        have h0 : s.overflow_ = [] := List.eq_nil_of_length_eq_zero (by omega)
        rw [hsame (by omega)]
        cases s
        simp only at h0
        subst h0
        rfl
      refine ⟨_, s1, rfl, hr1, ⟨f1, f2, f3, f4, f5, f7⟩, fun _ => hs1, ?_, ?_, ?_, ?_⟩
      · intro _; exact ⟨hnil, hnil1, hlt⟩
      · intro h; simp at h
      · intro h; omega
      · intro _
        refine ⟨rfl, fun _ => rfl, fun h => absurd hnil h, fun h => absurd hnil h, ?_⟩
        intro h
        rw [hnil] at h
        simp at h
        omega
    · rw [if_neg hz]
      have hne : P ≠ [] := by
        intro h
        rw [h] at hplen
        simp at hplen
        omega
      by_cases hfull : n + s.overflow_.length = max_size
      · -- the buffer is saturated: the hook decides
        rw [if_neg (by simpa using hfull)]
        have hwmax : (P.take max_size).length = max_size := by omega
        have htk : (writeFront (P.take max_size) mem).take max_size = P.take max_size := by
          rw [writeFront_take _ _ _ (by omega)]
          exact List.take_of_length_le (by omega)
        have hk_le : hk.FindLastRecordBegin (P.take max_size) ≤ max_size := by
          have := hh (P.take max_size)
          omega
        have hov : ((writeFront (P.take max_size) mem).drop
              (hk.FindLastRecordBegin (P.take max_size))).take
              (max_size - hk.FindLastRecordBegin (P.take max_size)) =
            (P.take max_size).drop (hk.FindLastRecordBegin (P.take max_size)) := by
          have := writeFront_drop_take (P.take max_size) mem
            (hk.FindLastRecordBegin (P.take max_size)) (by omega)
          rw [hwmax] at this
          exact this
        simp only [htk, hov]
        generalize hkk : hk.FindLastRecordBegin (List.take max_size P) = k at *
        have hsplit : P.drop k = (P.take max_size).drop k ++ P.drop max_size := by
          conv_lhs => rw [← List.take_append_drop max_size P]
          rw [List.drop_append_of_le_length (by omega)]
        refine ⟨_, _, rfl, hrov _ (by rw [List.length_drop, hcur1, f3]; omega),
          ⟨f1, f2, f3, f4, f5, f7⟩, fun h => absurd h hne, ?_, ?_, ?_, ?_⟩
        · intro h; simp at h
        · intro _
          refine ⟨by simp only; omega, hk_le, ?_, ?_⟩
          · simp only
            rw [hp1]
            have e : s.overflow_.length + n = max_size := by omega
            rw [e, hsplit]
          · simp only
            rw [writeFront_take _ _ _ (by omega), List.take_take]
            congr 1
            omega
        · intro h; omega
        · intro _
          refine ⟨rfl, fun h => absurd h hne, fun _ => rfl, fun _ h => by omega, fun _ => ⟨rfl, rfl⟩⟩
      · -- the split ran out before the buffer was full
        rw [if_pos (by simpa using hfull)]
        have hall : P.length < max_size := by omega
        have hwP : P.take max_size = P := List.take_of_length_le (by omega)
        have hnil1 : pending filesys s1 = [] := by
          rw [hp1']
          exact List.drop_eq_nil_of_le (by omega)
        refine ⟨_, s1, rfl, hr1, ⟨f1, f2, f3, f4, f5, f7⟩, fun h => absurd h hne, ?_, ?_, ?_, ?_⟩
        · intro h; simp at h
        · intro _
          simp only
          refine ⟨by omega, by omega, ?_, ?_⟩
          · rw [hnil1]
            exact (List.drop_eq_nil_of_le (by omega)).symm
          · rw [hwP, writeFront_take _ _ _ (by omega)]
        · intro h; omega
        · intro _
          refine ⟨rfl, fun h => absurd h hne, fun _ => rfl, fun _ _ => ⟨by simp only; omega, f6⟩,
            fun h => by omega⟩

lemma LoadLoop_succ (filesys : FileSystem) (hk : Hooks) (fuel : Nat) (c : Chunk)
    (split split1 : InputSplitBase) (r : ChunkResult)
    (h : split.ReadChunk filesys hk c.mem ((c.dataSize - 1) * sizeofSizeT) = .ok (r, split1)) :
    Chunk.LoadLoop filesys hk (fuel + 1) c split =
      if r.ret = false then .ok (false, { c with mem := r.buf }, split1)
      else if r.size = 0 then
        Chunk.LoadLoop filesys hk fuel { c with mem := r.buf, dataSize := c.dataSize * 2 } split1
      else .ok (true, { c with mem := r.buf, begin := some 0, end_ := some r.size }, split1) := by
  conv_lhs => unfold Chunk.LoadLoop
  simp only [h]

lemma pending_le_range (filesys : FileSystem) (s : InputSplitBase) (hr : Ready filesys s) :
    (pending filesys s).length ≤ s.offset_end_ - s.offset_begin_ := by
  have := pending_length filesys s hr
  obtain ⟨_, _, h3, h4, _, h6, _⟩ := hr
  omega

lemma LoadFits_of_same (s s' : InputSplitBase) (d : Nat) (he : s'.offset_end_ = s.offset_end_)
    (hb : s'.offset_begin_ = s.offset_begin_) (h : LoadFits s d) : LoadFits s' d := by
  unfold LoadFits at *
  rw [he, hb]
  exact h

lemma LoadFits_max (s : InputSplitBase) (a b : Nat) :
    LoadFits s (max a b) ↔ LoadFits s a ∧ LoadFits s b := by
  unfold LoadFits sizeofSizeT
  rcases Nat.le_total a b with h | h
  · rw [Nat.max_eq_right h]
    constructor
    · rintro ⟨h1, h2⟩
      exact ⟨⟨by omega, h2⟩, h1, h2⟩
    · rintro ⟨_, h2⟩
      exact h2
  · rw [Nat.max_eq_left h]
    constructor
    · rintro ⟨h1, h2⟩
      exact ⟨⟨h1, h2⟩, by omega, h2⟩
    · rintro ⟨h1, _⟩
      exact h1

/-- The bounds of `LoadFits` hold for every range that ends below `2^62` and
every buffer of at most `2^60` words. -/
lemma LoadFits_of_small (s : InputSplitBase) (d : Nat) (he : s.offset_end_ < 2 ^ 62)
    (hd : d ≤ 2 ^ 60) : LoadFits s d := by
  unfold LoadFits sizeofSizeT
  omega

/-- The bound passes on to the doubled buffer of a pass that was offered no
more than the bytes still to hand out. -/
lemma LoadFits_double (filesys : FileSystem) (s s1 : InputSplitBase) (d : Nat)
    (hr : Ready filesys s) (h : LoadFits s d) (he : s1.offset_end_ = s.offset_end_)
    (hb : s1.offset_begin_ = s.offset_begin_)
    (hcap : (d - 1) * sizeofSizeT ≤ (pending filesys s).length) : LoadFits s1 (d * 2) := by
  have hp := pending_le_range filesys s hr
  unfold LoadFits sizeofSizeT at *
  rw [he, hb]
  omega

/-- On a split in working order, a call of `ReadChunk` that makes the loop of
`Load` go on was offered no more than the bytes still to hand out. -/
lemma goes_on_capacity (filesys : FileSystem) (s s1 : InputSplitBase)
    (max_size : Nat) (r : ChunkResult) (hr : Ready filesys s)
    (hret : r.ret = true) (hsz : r.size = 0)
    (hbig : s.overflow_.length < max_size →
      (pending filesys s = [] → r.ret = false) ∧
      (pending filesys s ≠ [] → (pending filesys s).length < max_size →
        r.size = (pending filesys s).length ∧ s1.overflow_ = [])) :
    max_size ≤ (pending filesys s).length := by
  have hpl := pending_length filesys s hr
  rcases Nat.lt_or_ge s.overflow_.length max_size with ho | ho
  · obtain ⟨b2, b4⟩ := hbig ho
    by_contra hcon
    have hne : pending filesys s ≠ [] := by
      intro hnil
      have := b2 hnil
      rw [this] at hret
      simp at hret
    have := (b4 hne (by omega)).1
    have : 0 < (pending filesys s).length := List.length_pos.mpr hne
    omega
  · omega

/-- When everything still to hand out is one record (the hook finds no record
start in any shorter range), a successful pass of the loop of `Load` has
offered `ReadChunk` at least the length of the record. -/
lemma LoadLoop_capacity (filesys : FileSystem) (hk : Hooks) (hh : HookInRange hk) :
    ∀ (fuel : Nat) (c c' : Chunk) (s s' : InputSplitBase), Ready filesys s →
      LoadFits s c.dataSize →
      (∀ m, m < (pending filesys s).length →
        hk.FindLastRecordBegin ((pending filesys s).take m) = 0) →
      Chunk.LoadLoop filesys hk fuel c s = .ok (true, c', s') →
      (pending filesys s).length ≤ (c'.dataSize - 1) * sizeofSizeT ∧
      c.dataSize ≤ c'.dataSize ∧
      ∃ size, 0 < size ∧ size ≤ (pending filesys s).length ∧ c'.begin = some 0 ∧
        c'.end_ = some size ∧ c'.mem.take size = (pending filesys s).take size ∧
        pending filesys s' = (pending filesys s).drop size := by
  intro fuel
  induction fuel with
  | zero => intro c c' s s' _ _ _ h; simp [Chunk.LoadLoop] at h
  | succ fuel ih =>
    intro c c' s s' hr hfit hrec h
    obtain ⟨r, s1, hrc, hr1, ⟨_, _, g3, g4, _, _⟩, _, hfalse, htrue, hsmall, hbig⟩ :=
      ReadChunk_spec filesys hk s c.mem ((c.dataSize - 1) * sizeofSizeT) hr hh hfit.1
    rw [LoadLoop_succ filesys hk fuel c s s1 r hrc] at h
    by_cases hret : r.ret = false
    · rw [if_pos hret] at h
      simp at h
    · rw [if_neg hret] at h
      have hret' : r.ret = true := by simpa using hret
      obtain ⟨t1, t2, t3, t4⟩ := htrue hret'
      by_cases hsz : r.size = 0
      · rw [if_pos hsz] at h
        have hp : pending filesys s1 = pending filesys s := by rw [t3, hsz]; rfl
        have hcap := goes_on_capacity filesys s s1 _ r hr hret' hsz
          (fun ho => ⟨(hbig ho).2.1, (hbig ho).2.2.2.1⟩)
        obtain ⟨i1, i2, i3⟩ := ih { c with mem := r.buf, dataSize := c.dataSize * 2 } c' s1 s'
          hr1 (LoadFits_double filesys s s1 c.dataSize hr hfit g4 g3 hcap)
          (by rw [hp]; exact hrec) h
        rw [hp] at i1 i3
        simp only at i2
        exact ⟨i1, by omega, i3⟩
      · rw [if_neg hsz] at h
        simp only [Except.ok.injEq, Prod.mk.injEq, true_and] at h
        obtain ⟨h1, h2⟩ := h
        subst h1 h2
        refine ⟨?_, le_refl _, r.size, by omega, t1, rfl, rfl, t4, t3⟩
        simp only
        by_contra hcon
        have hlt : (c.dataSize - 1) * sizeofSizeT < (pending filesys s).length := by omega
        rcases Nat.lt_or_ge s.overflow_.length ((c.dataSize - 1) * sizeofSizeT) with ho | ho
        · have := (hbig ho).2.2.2.2 (by omega)
          rw [hrec _ hlt] at this
          exact hsz this.1
        · exact hsz (hsmall ho).2.1

lemma LoadLoop_total (filesys : FileSystem) (hk : Hooks) (hh : HookInRange hk) :
    ∀ (fuel : Nat) (c : Chunk) (s : InputSplitBase), Ready filesys s →
      LoadFits s c.dataSize → 1 ≤ c.dataSize →
      1 ≤ fuel → (pending filesys s).length + 3 ≤ fuel + c.dataSize →
      ∃ b c' s', Chunk.LoadLoop filesys hk fuel c s = .ok (b, c', s') ∧ Ready filesys s' ∧
        SameRange s s' ∧ s'.tmp_chunk_ = s.tmp_chunk_ ∧ c.dataSize ≤ c'.dataSize ∧
        LoadFits s' c'.dataSize ∧
        (b = false → pending filesys s = [] ∧ s' = s) ∧
        (b = true → ∃ size, 0 < size ∧ size ≤ (pending filesys s).length ∧
          c'.begin = some 0 ∧ c'.end_ = some size ∧
          c'.mem.take size = (pending filesys s).take size ∧
          pending filesys s' = (pending filesys s).drop size) := by
  intro fuel
  induction fuel with
  | zero => intro c s _ _ _ h _; omega
  | succ fuel ih =>
    intro c s hr hfit hd _ hfuel
    obtain ⟨r, s1, hrc, hr1, ⟨g1, g2, g3, g4, g5, g6⟩, hsame, hfalse, htrue, hsmall, hbig⟩ :=
      ReadChunk_spec filesys hk s c.mem ((c.dataSize - 1) * sizeofSizeT) hr hh hfit.1
    have hfit1 : LoadFits s1 c.dataSize := LoadFits_of_same s s1 _ g4 g3 hfit
    rw [LoadLoop_succ filesys hk fuel c s s1 r hrc]
    by_cases hret : r.ret = false
    · rw [if_pos hret]
      obtain ⟨h1, _, _⟩ := hfalse hret
      exact ⟨false, _, s1, rfl, hr1, ⟨g1, g2, g3, g4, g5⟩, g6, le_refl _, hfit1,
        fun _ => ⟨h1, hsame h1⟩, fun h => by simp at h⟩
    · rw [if_neg hret]
      have hret' : r.ret = true := by simpa using hret
      obtain ⟨t1, t2, t3, t4⟩ := htrue hret'
      by_cases hsz : r.size = 0
      · rw [if_pos hsz]
        have hp : pending filesys s1 = pending filesys s := by rw [t3, hsz]; rfl
        have hcap := goes_on_capacity filesys s s1 _ r hr hret' hsz
          (fun ho => ⟨(hbig ho).2.1, (hbig ho).2.2.2.1⟩)
        have hd8 : c.dataSize - 1 ≤ (c.dataSize - 1) * sizeofSizeT := by
          unfold sizeofSizeT; omega
        obtain ⟨b, c', s', e1, e2, ⟨e3, e4, e5, e6, e7⟩, e8, e9, e9', e10, e11⟩ :=
          ih { c with mem := r.buf, dataSize := c.dataSize * 2 } s1 hr1
            (LoadFits_double filesys s s1 c.dataSize hr hfit g4 g3 hcap)
            (by simp only; omega) (by omega) (by rw [hp]; simp only; omega)
        rw [hp] at e10 e11
        simp only at e9
        refine ⟨b, c', s', e1, e2, ⟨e3.trans g1, e4.trans g2, e5.trans g3, e6.trans g4,
          e7.trans g5⟩, e8.trans g6, by omega, e9', ?_, e11⟩
        intro hb
        obtain ⟨h1, h2⟩ := e10 hb
        exact ⟨h1, by rw [h2]; exact hsame h1⟩
      · rw [if_neg hsz]
        exact ⟨true, _, s1, rfl, hr1, ⟨g1, g2, g3, g4, g5⟩, g6, le_refl _, hfit1,
          fun h => by simp at h, fun _ => ⟨r.size, by omega, t1, rfl, rfl, t4, t3⟩⟩

lemma Load_total (filesys : FileSystem) (hk : Hooks) (hh : HookInRange hk) (c : Chunk)
    (s : InputSplitBase) (buffer_size : Nat) (hr : Ready filesys s)
    (hfit : LoadFits s (max c.dataSize (buffer_size + 1))) :
    ∃ b c' s', c.Load filesys hk s buffer_size = .ok (b, c', s') ∧ Ready filesys s' ∧
      SameRange s s' ∧ s'.tmp_chunk_ = s.tmp_chunk_ ∧
      max c.dataSize (buffer_size + 1) ≤ c'.dataSize ∧
      LoadFits s' c'.dataSize ∧
      (b = false → pending filesys s = [] ∧ s' = s) ∧
      (b = true → ∃ size, 0 < size ∧ size ≤ (pending filesys s).length ∧
        c'.begin = some 0 ∧ c'.end_ = some size ∧
        c'.mem.take size = (pending filesys s).take size ∧
        pending filesys s' = (pending filesys s).drop size) := by
  have hpl := pending_length filesys s hr
  obtain ⟨hfa, hfb⟩ := (LoadFits_max s _ _).mp hfit
  unfold Chunk.Load
  simp only
  have hfuel : loadFuel s = (pending filesys s).length + 2 := by
    unfold loadFuel; omega
  by_cases hb : buffer_size + 1 > c.dataSize
  · rw [if_pos hb]
    obtain ⟨b, c', s', e1, e2, e3, e4, e5, e6⟩ := LoadLoop_total filesys hk hh (loadFuel s)
      { c with dataSize := buffer_size + 1 } s hr hfb (by simp only; omega) (by omega)
      (by simp only; omega)
    simp only at e5
    exact ⟨b, c', s', e1, e2, e3, e4, by omega, e6⟩
  · rw [if_neg hb]
    rcases Nat.eq_zero_or_pos c.dataSize with h0 | hpos
    · omega
    · obtain ⟨b, c', s', e1, e2, e3, e4, e5, e6⟩ := LoadLoop_total filesys hk hh (loadFuel s)
        c s hr hfa hpos (by omega) (by omega)
      exact ⟨b, c', s', e1, e2, e3, e4, by omega, e6⟩

lemma Ready_setChunk (filesys : FileSystem) (x : Chunk) (s : InputSplitBase)
    (h : Ready filesys s) : Ready filesys { s with tmp_chunk_ := x } := h

lemma pending_setChunk (filesys : FileSystem) (x : Chunk) (s : InputSplitBase) :
    pending filesys { s with tmp_chunk_ := x } = pending filesys s := rfl

lemma consume_succ (filesys : FileSystem) (hk : Hooks) (buffer_size fuel : Nat)
    (s : InputSplitBase) :
    consume filesys hk buffer_size (fuel + 1) s =
      match s.tmp_chunk_.Load filesys hk s buffer_size with
      | .error e => .error e
      | .ok (false, c, s1) => .ok ([], { s1 with tmp_chunk_ := c })
      | .ok (true, c, s1) =>
        match consume filesys hk buffer_size fuel
            { s1 with tmp_chunk_ := (ExtractNextChunk { dptr := none, size := 0 } c).2.2 } with
        | .error e => .error e
        | .ok (blobs, s2) =>
          .ok (blobBytes c.mem (ExtractNextChunk { dptr := none, size := 0 } c).2.1 :: blobs, s2) := by
  conv_lhs => unfold consume

lemma extract_loaded (c : Chunk) (size : Nat) (hs : 0 < size) (hb : c.begin = some 0)
    (he : c.end_ = some size) :
    ExtractNextChunk { dptr := none, size := 0 } c =
      (true, { dptr := some 0, size := size }, { c with begin := some size }) := by
  unfold ExtractNextChunk
  rw [hb, he]
  have hne : (some 0 : Option Nat) ≠ some size := by
    intro h
    simp only [Option.some.injEq] at h
    omega
  rw [if_neg hne]
  simp

/-- Consuming a split that is `Ready` comes to an end within `pending + 1`
calls of `Load`, and the blobs handed out, put end to end, are the bytes that
were still to hand out. -/
lemma consume_total (filesys : FileSystem) (hk : Hooks) (hh : HookInRange hk)
    (buffer_size : Nat) :
    ∀ (fuel : Nat) (s : InputSplitBase), Ready filesys s →
      LoadFits s (max s.tmp_chunk_.dataSize (buffer_size + 1)) →
      (pending filesys s).length < fuel →
      ∃ blobs s', consume filesys hk buffer_size fuel s = .ok (blobs, s') ∧ Ready filesys s' ∧
        SameRange s s' ∧ blobs.flatten = pending filesys s ∧ pending filesys s' = [] ∧
        (∀ b ∈ blobs, b ≠ []) ∧
        max s.tmp_chunk_.dataSize (buffer_size + 1) ≤ s'.tmp_chunk_.dataSize ∧
        LoadFits s' s'.tmp_chunk_.dataSize ∧
        (pending filesys s = [] → s' = { s with tmp_chunk_ := s'.tmp_chunk_ }) := by
  intro fuel
  induction fuel with
  | zero => intro s _ _ h; omega
  | succ fuel ih =>
    intro s hr hfit hfuel
    obtain ⟨b, c', s1, e1, e2, e3, e4, e5, e5', e6, e7⟩ :=
      Load_total filesys hk hh s.tmp_chunk_ s buffer_size hr hfit
    have hfb := ((LoadFits_max s _ _).mp hfit).2
    rw [consume_succ, e1]
    cases b with
    | false =>
      obtain ⟨h1, h2⟩ := e6 rfl
      simp only
      refine ⟨[], { s1 with tmp_chunk_ := c' }, rfl, Ready_setChunk filesys c' s1 e2, e3, ?_, ?_,
        ?_, e5, e5', ?_⟩
      · rw [h1]; rfl
      · rw [pending_setChunk, h2, h1]
      · intro b hb; simp at hb
      · intro _; rw [h2]
    | true =>
      obtain ⟨size, g1, g2, g3, g4, g5, g6⟩ := e7 rfl
      simp only
      rw [extract_loaded c' size g1 g3 g4]
      simp only
      obtain ⟨a1, a2, a3, a4, a5⟩ := e3
      obtain ⟨blobs, s2, i1, i2, i3, i4, i5, i6, i7, i7', _⟩ := ih
        { s1 with tmp_chunk_ := { c' with begin := some size } }
        (Ready_setChunk filesys _ s1 e2)
        ((LoadFits_max _ _ _).mpr ⟨e5', LoadFits_of_same s _ _ a4 a3 hfb⟩)
        (by rw [pending_setChunk, g6, List.length_drop]; omega)
      rw [i1]
      simp only
      rw [pending_setChunk, g6] at i4
      obtain ⟨b1, b2, b3, b4, b5⟩ := i3
      simp only at b1 b2 b3 b4 b5 i7
      refine ⟨_, s2, rfl, i2, ⟨b1.trans a1, b2.trans a2, b3.trans a3, b4.trans a4, b5.trans a5⟩,
        ?_, i5, ?_, by omega, i7', ?_⟩
      · simp only [List.flatten_cons, i4, blobBytes, Option.getD_some, List.drop_zero, g5]
        exact List.take_append_drop size _
      · intro b hb
        simp only [List.mem_cons] at hb
        rcases hb with rfl | hb
        · intro hnil
          have hl : (blobBytes c'.mem { dptr := some 0, size := size }).length = size := by
            simp only [blobBytes, Option.getD_some, List.drop_zero, g5, List.length_take]
            omega
          rw [hnil] at hl
          simp at hl
          omega
        · exact i6 b hb
      · intro hnil
        rw [hnil] at g2
        simp at g2
        omega

lemma consumeAll_total (filesys : FileSystem) (hk : Hooks) (hh : HookInRange hk)
    (buffer_size : Nat) (s : InputSplitBase) (hr : Ready filesys s)
    (hfit : LoadFits s (max s.tmp_chunk_.dataSize (buffer_size + 1))) :
    ∃ blobs s', consumeAll filesys hk buffer_size s = .ok (blobs, s') ∧ Ready filesys s' ∧
      SameRange s s' ∧ blobs.flatten = pending filesys s ∧ pending filesys s' = [] ∧
      (∀ b ∈ blobs, b ≠ []) ∧
      max s.tmp_chunk_.dataSize (buffer_size + 1) ≤ s'.tmp_chunk_.dataSize ∧
      LoadFits s' s'.tmp_chunk_.dataSize ∧
      (pending filesys s = [] → s' = { s with tmp_chunk_ := s'.tmp_chunk_ }) := by
  unfold consumeAll
  apply consume_total filesys hk hh buffer_size _ s hr hfit
  rw [pending_length filesys s hr]
  unfold consumeFuel
  omega

lemma ReadLoop_setChunk (filesys : FileSystem) (x : Chunk) :
    ∀ (fuel : Nat) (s : InputSplitBase) (nleft : Nat) (buf : List UInt8),
      InputSplitBase.ReadLoop filesys fuel (setChunk x s) nleft buf =
        liftRead x (InputSplitBase.ReadLoop filesys fuel s nleft buf) := by
  intro fuel
  induction fuel with
  | zero => intro s nleft buf; rfl
  | succ fuel ih =>
    intro s nleft buf
    unfold InputSplitBase.ReadLoop
    simp only [setChunk]
    cases hfs : s.fs_ with
    | none => rfl
    | some st =>
      simp only
      by_cases hz : nleft - (st.Read nleft).1.length = 0
      · simp only [if_pos hz]
        rfl
      · simp only [if_neg hz]
        cases ho : s.file_offset_[s.file_ptr_ + 1]? with
        | none => rfl
        | some off =>
          simp only
          by_cases h1 : s.offset_curr_ + (st.Read nleft).1.length ≠ off
          · simp only [if_pos h1]
            rfl
          · simp only [if_neg h1]
            by_cases h2 : s.file_ptr_ + 1 ≥ s.files_.length
            · simp only [if_pos h2]
              rfl
            · simp only [if_neg h2]
              cases hg : s.files_[s.file_ptr_ + 1]? with
              | none => rfl
              | some g =>
                simp only
                exact ih { s with
                           fs_ := some (filesys.OpenForRead g.path)
                           offset_curr_ := s.offset_curr_ + (st.Read nleft).1.length
                           file_ptr_ := s.file_ptr_ + 1 } _ _

lemma Read_setChunk (filesys : FileSystem) (x : Chunk) (s : InputSplitBase) (size : Nat) :
    InputSplitBase.Read filesys (setChunk x s) size =
      liftRead x (InputSplitBase.Read filesys s size) := by
  unfold InputSplitBase.Read
  have hsz : (setChunk x s).readSize size = s.readSize size := rfl
  have hlen : (setChunk x s).files_ = s.files_ := rfl
  simp only [hsz, hlen, ReadLoop_setChunk]
  by_cases hz : s.readSize size = 0
  · simp only [if_pos hz]
    rfl
  · simp only [if_neg hz]
    cases InputSplitBase.ReadLoop filesys (s.files_.length + 1) s (s.readSize size) [] with
    | error e => rfl
    | ok r =>
      obtain ⟨nl, b, s1⟩ := r
      rfl

lemma ReadChunk_small (filesys : FileSystem) (hk : Hooks) (s : InputSplitBase) (mem : List UInt8)
    (max_size : Nat) (h : max_size ≤ s.overflow_.length) :
    s.ReadChunk filesys hk mem max_size = .ok ({ ret := true, size := 0, buf := mem }, s) := by
  unfold InputSplitBase.ReadChunk
  rw [if_pos h]

lemma ReadChunk_of_read (filesys : FileSystem) (hk : Hooks) (s s' : InputSplitBase)
    (mem got : List UInt8) (max_size n : Nat) (h : ¬ max_size ≤ s.overflow_.length)
    (hread : InputSplitBase.Read filesys { s with overflow_ := [] }
      (max_size - s.overflow_.length) = .ok (n, got, s')) :
    s.ReadChunk filesys hk mem max_size =
      if n + s.overflow_.length = 0 then
        .ok ({ ret := false, size := max_size, buf := writeFront (s.overflow_ ++ got) mem }, s')
      else if n + s.overflow_.length ≠ max_size then
        .ok ({ ret := true, size := n + s.overflow_.length,
               buf := writeFront (s.overflow_ ++ got) mem }, s')
      else
        .ok ({ ret := true
               size := (cutAtRecord hk (writeFront (s.overflow_ ++ got) mem) max_size).1
               buf := writeFront (s.overflow_ ++ got) mem },
             { s' with
               overflow_ := (cutAtRecord hk (writeFront (s.overflow_ ++ got) mem) max_size).2 }) := by
  unfold InputSplitBase.ReadChunk cutAtRecord
  rw [if_neg h]
  simp only [hread]

lemma cutAtRecord_eq (hk : Hooks) (hh : HookInRange hk) (w mem : List UInt8) (max_size : Nat)
    (hw : w.length = max_size) :
    cutAtRecord hk (writeFront w mem) max_size =
      (hk.FindLastRecordBegin w, w.drop (hk.FindLastRecordBegin w)) := by
  have ht : (writeFront w mem).take max_size = w := by
    rw [writeFront_take _ _ _ (by omega)]
    exact List.take_of_length_le (by omega)
  have hd := writeFront_drop_take w mem (hk.FindLastRecordBegin w) (hh w)
  unfold cutAtRecord
  rw [ht, ← hw, hd]

lemma ReadChunk_read_ok (filesys : FileSystem) (hk : Hooks) (s s1 : InputSplitBase)
    (mem : List UInt8) (max_size : Nat) (r : ChunkResult) (h : ¬ max_size ≤ s.overflow_.length)
    (hrc : s.ReadChunk filesys hk mem max_size = .ok (r, s1)) :
    ∃ n got s', InputSplitBase.Read filesys { s with overflow_ := [] }
      (max_size - s.overflow_.length) = .ok (n, got, s') := by
  unfold InputSplitBase.ReadChunk at hrc
  rw [if_neg h] at hrc
  simp only at hrc
  cases hread : InputSplitBase.Read filesys { s with overflow_ := [] }
      (max_size - s.overflow_.length) with
  | error e => rw [hread] at hrc; simp at hrc
  | ok v =>
    obtain ⟨n, got, s'⟩ := v
    exact ⟨n, got, s', rfl⟩

/-- `ReadChunk` does not look at the chunk the split carries, and with a hook
that stays in range the bytes a caller may look at do not depend on what the
buffer held before. -/
lemma ReadChunk_sim (filesys : FileSystem) (hk : Hooks) (hh : HookInRange hk) (x : Chunk)
    (s s1 : InputSplitBase) (mem mem2 : List UInt8) (max_size : Nat) (r : ChunkResult)
    (hrc : s.ReadChunk filesys hk mem max_size = .ok (r, s1)) :
    ∃ r2, (setChunk x s).ReadChunk filesys hk mem2 max_size = .ok (r2, setChunk x s1) ∧
      r2.ret = r.ret ∧ r2.size = r.size ∧
      (r.ret = true → r2.buf.take r.size = r.buf.take r.size) := by
  by_cases hcap : max_size ≤ s.overflow_.length
  · rw [ReadChunk_small filesys hk s mem max_size hcap] at hrc
    simp only [Except.ok.injEq, Prod.mk.injEq] at hrc
    obtain ⟨h1, h2⟩ := hrc
    subst h1 h2
    exact ⟨{ ret := true, size := 0, buf := mem2 },
      ReadChunk_small filesys hk (setChunk x s) mem2 max_size hcap, rfl, rfl, fun _ => by simp⟩
  · obtain ⟨n, got, s', hread⟩ := ReadChunk_read_ok filesys hk s s1 mem max_size r hcap hrc
    have hread2 : InputSplitBase.Read filesys { setChunk x s with overflow_ := [] }
        (max_size - (setChunk x s).overflow_.length) = .ok (n, got, setChunk x s') := by
      have := Read_setChunk filesys x { s with overflow_ := [] } (max_size - s.overflow_.length)
      rw [hread] at this
      exact this
    obtain ⟨_, _, _, hgl, _, _⟩ := Read_bounds filesys _ _ _ _ _ hread
    rw [ReadChunk_of_read filesys hk s s' mem got max_size n hcap hread] at hrc
    rw [ReadChunk_of_read filesys hk (setChunk x s) (setChunk x s') mem2 got max_size n hcap hread2]
    have hov : (setChunk x s).overflow_ = s.overflow_ := rfl
    simp only [hov]
    have hwl : (s.overflow_ ++ got).length = n + s.overflow_.length := by
      rw [List.length_append, hgl]; omega
    by_cases hz : n + s.overflow_.length = 0
    · rw [if_pos hz] at hrc ⊢
      simp only [Except.ok.injEq, Prod.mk.injEq] at hrc
      obtain ⟨h1, h2⟩ := hrc
      subst h1 h2
      exact ⟨_, rfl, rfl, rfl, fun h => by simp at h⟩
    · rw [if_neg hz] at hrc ⊢
      by_cases hfull : n + s.overflow_.length ≠ max_size
      · rw [if_pos hfull] at hrc ⊢
        simp only [Except.ok.injEq, Prod.mk.injEq] at hrc
        obtain ⟨h1, h2⟩ := hrc
        subst h1 h2
        refine ⟨_, rfl, rfl, rfl, fun _ => ?_⟩
        simp only
        rw [writeFront_take _ _ _ (by omega), writeFront_take _ _ _ (by omega)]
      · rw [if_neg hfull] at hrc ⊢
        have hmax : (s.overflow_ ++ got).length = max_size := by omega
        have hkle := hh (s.overflow_ ++ got)
        rw [cutAtRecord_eq hk hh _ mem max_size hmax] at hrc
        rw [cutAtRecord_eq hk hh _ mem2 max_size hmax]
        simp only [Except.ok.injEq, Prod.mk.injEq] at hrc
        obtain ⟨h1, h2⟩ := hrc
        subst h1 h2
        refine ⟨_, rfl, rfl, rfl, fun _ => ?_⟩
        simp only
        rw [writeFront_take _ _ _ hkle, writeFront_take _ _ _ hkle]

lemma LoadLoop_read_ok (filesys : FileSystem) (hk : Hooks) (fuel : Nat) (c c' : Chunk)
    (s s' : InputSplitBase) (b : Bool)
    (h : Chunk.LoadLoop filesys hk (fuel + 1) c s = .ok (b, c', s')) :
    ∃ r s1, s.ReadChunk filesys hk c.mem ((c.dataSize - 1) * sizeofSizeT) = .ok (r, s1) := by
  unfold Chunk.LoadLoop at h
  simp only at h
  cases hrc : s.ReadChunk filesys hk c.mem ((c.dataSize - 1) * sizeofSizeT) with
  | error e => rw [hrc] at h; simp at h
  | ok v => exact ⟨v.1, v.2, rfl⟩

/-- The loop of `Load` on a chunk with the same `data.size()` but other
buffer contents, over a split that carries another chunk, takes the same
course and delivers the same bytes. -/
lemma LoadLoop_sim (filesys : FileSystem) (hk : Hooks) (hh : HookInRange hk) (x : Chunk) :
    ∀ (fuel : Nat) (c c2 c' : Chunk) (s s' : InputSplitBase) (b : Bool),
      c2.dataSize = c.dataSize →
      Chunk.LoadLoop filesys hk fuel c s = .ok (b, c', s') →
      ∃ c2', Chunk.LoadLoop filesys hk fuel c2 (setChunk x s) = .ok (b, c2', setChunk x s') ∧
        c2'.dataSize = c'.dataSize ∧
        (b = true → c2'.begin = c'.begin ∧ c2'.end_ = c'.end_ ∧ c'.begin = some 0 ∧
          ∃ size, c'.end_ = some size ∧ c2'.mem.take size = c'.mem.take size) := by
  intro fuel
  induction fuel with
  | zero => intro c c2 c' s s' b _ h; simp [Chunk.LoadLoop] at h
  | succ fuel ih =>
    intro c c2 c' s s' b hd h
    obtain ⟨r, s1, hrc⟩ := LoadLoop_read_ok filesys hk fuel c c' s s' b h
    obtain ⟨r2, hrc2, e1, e2, e3⟩ := ReadChunk_sim filesys hk hh x s s1 c.mem c2.mem
      ((c.dataSize - 1) * sizeofSizeT) r hrc
    rw [← hd] at hrc2
    rw [LoadLoop_succ filesys hk fuel c s s1 r hrc] at h
    rw [LoadLoop_succ filesys hk fuel c2 (setChunk x s) (setChunk x s1) r2 hrc2, e1, e2]
    by_cases hret : r.ret = false
    · rw [if_pos hret] at h ⊢
      simp only [Except.ok.injEq, Prod.mk.injEq] at h
      obtain ⟨h1, h2, h3⟩ := h
      subst h1 h2 h3
      exact ⟨_, rfl, hd, fun hb => by simp at hb⟩
    · rw [if_neg hret] at h ⊢
      by_cases hsz : r.size = 0
      · rw [if_pos hsz] at h ⊢
        exact ih _ { c2 with mem := r2.buf, dataSize := c2.dataSize * 2 } c' s1 s' b
          (by simp only; rw [hd]) h
      · rw [if_neg hsz] at h ⊢
        simp only [Except.ok.injEq, Prod.mk.injEq] at h
        obtain ⟨h1, h2, h3⟩ := h
        subst h1 h2 h3
        refine ⟨_, rfl, hd, fun _ => ⟨rfl, rfl, rfl, r.size, rfl, ?_⟩⟩
        exact e3 (by simpa using hret)

lemma Load_sim (filesys : FileSystem) (hk : Hooks) (hh : HookInRange hk) (x : Chunk)
    (c c2 c' : Chunk) (s s' : InputSplitBase) (b : Bool) (buffer_size : Nat)
    (hd : max c2.dataSize (buffer_size + 1) = max c.dataSize (buffer_size + 1))
    (h : c.Load filesys hk s buffer_size = .ok (b, c', s')) :
    ∃ c2', c2.Load filesys hk (setChunk x s) buffer_size = .ok (b, c2', setChunk x s') ∧
      c2'.dataSize = c'.dataSize ∧
      (b = true → c2'.begin = c'.begin ∧ c2'.end_ = c'.end_ ∧ c'.begin = some 0 ∧
        ∃ size, c'.end_ = some size ∧ c2'.mem.take size = c'.mem.take size) := by
  unfold Chunk.Load at h ⊢
  simp only at h ⊢
  have hf : loadFuel (setChunk x s) = loadFuel s := rfl
  rw [hf]
  refine LoadLoop_sim filesys hk hh x (loadFuel s) _ _ c' s s' b ?_ h
  by_cases h1 : buffer_size + 1 > c.dataSize <;> by_cases h2 : buffer_size + 1 > c2.dataSize
  · rw [if_pos h1, if_pos h2]
  · rw [if_pos h1, if_neg h2]
    simp only
    omega
  · rw [if_neg h1, if_pos h2]
    simp only
    omega
  · rw [if_neg h1, if_neg h2]
    omega

lemma extract_sim (c c2 : Chunk) (hb : c2.begin = c.begin) (he : c2.end_ = c.end_)
    (hm : c.begin = some 0) (size : Nat) (hs : c.end_ = some size)
    (hmem : c2.mem.take size = c.mem.take size) (hd : c2.dataSize = c.dataSize) :
    blobBytes c2.mem (ExtractNextChunk { dptr := none, size := 0 } c2).2.1 =
      blobBytes c.mem (ExtractNextChunk { dptr := none, size := 0 } c).2.1 ∧
    (ExtractNextChunk { dptr := none, size := 0 } c2).2.2.dataSize =
      (ExtractNextChunk { dptr := none, size := 0 } c).2.2.dataSize := by
  unfold ExtractNextChunk
  rw [hb, he, hm, hs]
  by_cases h0 : (some 0 : Option Nat) = some size
  · rw [if_pos h0, if_pos h0]
    exact ⟨rfl, hd⟩
  · rw [if_neg h0, if_neg h0]
    simp only [blobBytes, Option.getD_some, List.drop_zero, Nat.sub_zero]
    exact ⟨hmem, hd⟩

/-- Consuming a split gives the same blobs whatever the chunk buffer held
before, as long as `Load` starts from the same `data.size()`. -/
lemma consume_sim (filesys : FileSystem) (hk : Hooks) (hh : HookInRange hk) (buffer_size : Nat) :
    ∀ (fuel : Nat) (s s' : InputSplitBase) (x : Chunk) (blobs : List (List UInt8)),
      max x.dataSize (buffer_size + 1) = max s.tmp_chunk_.dataSize (buffer_size + 1) →
      consume filesys hk buffer_size fuel s = .ok (blobs, s') →
      ∃ t', consume filesys hk buffer_size fuel (setChunk x s) = .ok (blobs, t') := by
  intro fuel
  induction fuel with
  | zero => intro s s' x blobs _ h; simp [consume] at h
  | succ fuel ih =>
    intro s s' x blobs hd h
    rw [consume_succ] at h ⊢
    cases hl : s.tmp_chunk_.Load filesys hk s buffer_size with
    | error e => rw [hl] at h; simp at h
    | ok v =>
      obtain ⟨b, c', s1⟩ := v
      obtain ⟨c2', hl2, e1, e2⟩ := Load_sim filesys hk hh x s.tmp_chunk_ x c' s s1 b
        buffer_size hd hl
      have hx : (setChunk x s).tmp_chunk_ = x := rfl
      rw [hl] at h
      rw [hx, hl2]
      cases b with
      | false =>
        simp only at h ⊢
        simp only [Except.ok.injEq, Prod.mk.injEq] at h
        obtain ⟨h1, _⟩ := h
        subst h1
        exact ⟨_, rfl⟩
      | true =>
        simp only at h ⊢
        obtain ⟨g1, g2, g3, size, g4, g5⟩ := e2 rfl
        obtain ⟨k1, k2⟩ := extract_sim c' c2' g1 g2 g3 size g4 g5 e1
        cases hc : consume filesys hk buffer_size fuel
            { s1 with tmp_chunk_ := (ExtractNextChunk { dptr := none, size := 0 } c').2.2 } with
        | error e => rw [hc] at h; simp at h
        | ok w =>
          obtain ⟨bl, s2⟩ := w
          rw [hc] at h
          simp only [Except.ok.injEq, Prod.mk.injEq] at h
          obtain ⟨h1, _⟩ := h
          subst h1
          obtain ⟨t', ht⟩ := ih
            { s1 with tmp_chunk_ := (ExtractNextChunk { dptr := none, size := 0 } c').2.2 } s2
            (ExtractNextChunk { dptr := none, size := 0 } c2').2.2 bl
            (by simp only; rw [k2]) hc
          have hst : setChunk (ExtractNextChunk { dptr := none, size := 0 } c2').2.2
              { s1 with tmp_chunk_ := (ExtractNextChunk { dptr := none, size := 0 } c').2.2 } =
              { setChunk x s1 with
                tmp_chunk_ := (ExtractNextChunk { dptr := none, size := 0 } c2').2.2 } := rfl
          rw [hst] at ht
          rw [ht]
          simp only
          rw [k1]
          exact ⟨_, rfl⟩

lemma BeforeFirst_canon (filesys : FileSystem) (s : InputSplitBase) (hr : Ready filesys s)
    (hlt : s.offset_begin_ < s.offset_end_) :
    ∃ f off, s.files_[upper_bound (fileOffsets s.files_) s.offset_begin_ - 1]? = some f ∧
      (fileOffsets s.files_)[upper_bound (fileOffsets s.files_) s.offset_begin_ - 1]? = some off ∧
      off ≤ s.offset_begin_ ∧ s.offset_begin_ < off + f.size ∧
      s.BeforeFirst filesys = .ok (rewound filesys s f off) := by
  obtain ⟨hoffs, hc, hb, hce, het, hov, hsync⟩ := hr
  obtain ⟨f1, off1, hf1, ho1, _, _, hfs⟩ := hsync hlt
  obtain ⟨off, h1, h2, _, h4, _⟩ := locate s.files_ s.offset_begin_
  obtain ⟨f, hf, hxf⟩ := h4 (by omega)
  refine ⟨f, off, hf, h1, h2, hxf, ?_⟩
  obtain ⟨files, offs, b, e, c, fp, fpe, fs, ov, ch⟩ := s
  simp only at hoffs hf1 ho1 hfs hf h1 hlt
  subst hoffs hfs
  unfold InputSplitBase.BeforeFirst rewound
  simp only [if_neg (show ¬ b ≥ e by omega)]
  by_cases hp : fp = upper_bound (fileOffsets files) b - 1
  · subst hp
    rw [hf] at hf1
    rw [h1] at ho1
    simp only [Option.some.injEq] at hf1 ho1
    subst hf1 ho1
    simp only [ne_eq, not_true_eq_false, if_false, h1, Stream.Seek]
  · simp only [ne_eq, hp, not_false_eq_true, if_true, hf, h1, Stream.Seek, FileSystem.OpenForRead]

lemma rewound_ready (filesys : FileSystem) (s : InputSplitBase) (f : FileInfo) (off : Nat)
    (hr : Ready filesys s) (hlt : s.offset_begin_ < s.offset_end_)
    (hf : s.files_[upper_bound (fileOffsets s.files_) s.offset_begin_ - 1]? = some f)
    (ho : (fileOffsets s.files_)[upper_bound (fileOffsets s.files_) s.offset_begin_ - 1]? = some off)
    (h1 : off ≤ s.offset_begin_) (h2 : s.offset_begin_ < off + f.size) :
    Ready filesys (rewound filesys s f off) := by
  obtain ⟨hoffs, hc, hb, hce, het, hov, hsync⟩ := hr
  refine ⟨hoffs, hc, le_refl _, by simp only [rewound]; omega, het, Nat.zero_le _, fun _ => ?_⟩
  refine ⟨f, off, hf, ?_, h1, by simp only [rewound]; omega, rfl⟩
  simp only [rewound]
  rw [hoffs]
  exact ho

lemma rewound_same (filesys : FileSystem) (s t : InputSplitBase) (f : FileInfo) (off : Nat)
    (h : SameRange s t) :
    rewound filesys t f off =
      setChunk { t.tmp_chunk_ with begin := none, end_ := none } (rewound filesys s f off) := by
  obtain ⟨a1, a2, a3, a4, a5⟩ := h
  obtain ⟨files, offs, b, e, c, fp, fpe, fs, ov, ch⟩ := s
  obtain ⟨files', offs', b', e', c', fp', fpe', fs', ov', ch'⟩ := t
  simp only at a1 a2 a3 a4 a5
  subst a1 a2 a3 a4 a5
  rfl

/-- C8 (amended): for every split in working order, every buffer size for
which the sum of line 105 of `Read` never wraps (`LoadFits`), a consistent
filesystem and a `FindLastRecordBegin` that stays in range: `BeforeFirst`
followed by consuming the split to exhaustion comes to an end;
a further `BeforeFirst` returns with `offset_curr_ = offset_begin_` and an
empty overflow buffer; the second pass comes to an end as well and hands out
the same bytes in total; and when the chunk buffer did not grow during the
first pass, the second pass hands out the same sequence of blobs. -/
theorem C8_rewind_reproduces_blobs (filesys : FileSystem) (hk : Hooks) (hh : HookInRange hk)
    (buffer_size : Nat) (s0 : InputSplitBase) (hr : Ready filesys s0)
    (hfit : LoadFits s0 (max s0.tmp_chunk_.dataSize (buffer_size + 1))) :
    ∃ sA blobs s1 sB blobs2 s2,
      s0.BeforeFirst filesys = .ok sA ∧
      consumeAll filesys hk buffer_size sA = .ok (blobs, s1) ∧
      s1.BeforeFirst filesys = .ok sB ∧
      sB.offset_curr_ = sB.offset_begin_ ∧ sB.overflow_ = [] ∧
      consumeAll filesys hk buffer_size sB = .ok (blobs2, s2) ∧
      blobs2.flatten = blobs.flatten ∧
      (s1.tmp_chunk_.dataSize = max sA.tmp_chunk_.dataSize (buffer_size + 1) →
        blobs2 = blobs) := by
  -- the first rewind
  have hA : ∃ sA, s0.BeforeFirst filesys = .ok sA ∧ Ready filesys sA ∧ SameRange s0 sA ∧
      sA.offset_curr_ = sA.offset_begin_ ∧ sA.overflow_ = [] ∧
      sA.tmp_chunk_.dataSize = s0.tmp_chunk_.dataSize ∧
      (s0.offset_begin_ < s0.offset_end_ → ∃ f off,
        s0.files_[upper_bound (fileOffsets s0.files_) s0.offset_begin_ - 1]? = some f ∧
        (fileOffsets s0.files_)[upper_bound (fileOffsets s0.files_) s0.offset_begin_ - 1]? = some off ∧
        sA = rewound filesys s0 f off) := by
    by_cases hlt : s0.offset_begin_ < s0.offset_end_
    · obtain ⟨f, off, hf, ho, h1, h2, hbf⟩ := BeforeFirst_canon filesys s0 hr hlt
      exact ⟨_, hbf, rewound_ready filesys s0 f off hr hlt hf ho h1 h2, ⟨rfl, rfl, rfl, rfl, rfl⟩,
        rfl, rfl, rfl, fun _ => ⟨f, off, hf, ho, rfl⟩⟩
    · have hr' := hr
      obtain ⟨_, _, hb, hce, _, hov, _⟩ := hr'
      refine ⟨s0, ?_, hr, ⟨rfl, rfl, rfl, rfl, rfl⟩, by omega,
        List.eq_nil_of_length_eq_zero (by omega), rfl, fun h => absurd h hlt⟩
      unfold InputSplitBase.BeforeFirst
      rw [if_pos (by omega)]
  obtain ⟨sA, hbfA, hrA, hsrA, hcurA, hovA, hdsA, hcanA⟩ := hA
  have hfitA : LoadFits sA (max sA.tmp_chunk_.dataSize (buffer_size + 1)) := by
    rw [hdsA]
    exact LoadFits_of_same s0 sA _ hsrA.2.2.2.1 hsrA.2.2.1 hfit
  obtain ⟨blobs, s1, hp1, hr1, hsr1, hfl1, hpe1, _, hds1, hfit1, hsame1⟩ :=
    consumeAll_total filesys hk hh buffer_size sA hrA hfitA
  have hsr01 : SameRange s0 s1 := by
    obtain ⟨a1, a2, a3, a4, a5⟩ := hsrA
    obtain ⟨b1, b2, b3, b4, b5⟩ := hsr1
    exact ⟨b1.trans a1, b2.trans a2, b3.trans a3, b4.trans a4, b5.trans a5⟩
  -- the second rewind gives the state of the first, up to the chunk
  have hB : ∃ xB, s1.BeforeFirst filesys = .ok (setChunk xB sA) ∧
      xB.dataSize = s1.tmp_chunk_.dataSize := by
    by_cases hlt : s0.offset_begin_ < s0.offset_end_
    · obtain ⟨f, off, hf, ho, rfl⟩ := hcanA hlt
      obtain ⟨a1, a2, a3, a4, a5⟩ := hsr01
      obtain ⟨f', off', hf', ho', _, _, hbf⟩ := BeforeFirst_canon filesys s1 hr1 (by omega)
      rw [a1, a3] at hf' ho'
      rw [hf] at hf'
      rw [ho] at ho'
      simp only [Option.some.injEq] at hf' ho'
      subst hf' ho'
      rw [rewound_same filesys s0 s1 f off ⟨a1, a2, a3, a4, a5⟩] at hbf
      exact ⟨_, hbf, rfl⟩
    · have hpA : pending filesys sA = [] := by
        apply List.eq_nil_of_length_eq_zero
        rw [pending_length filesys sA hrA, hovA]
        have hrA' := hrA
        obtain ⟨_, _, hb, hce, _⟩ := hrA'
        obtain ⟨_, _, a3, a4, _⟩ := hsrA
        simp only [List.length_nil]
        omega
      have hs1 := hsame1 hpA
      refine ⟨s1.tmp_chunk_, ?_, rfl⟩
      obtain ⟨_, _, a3, a4, _⟩ := hsr01
      unfold InputSplitBase.BeforeFirst
      rw [if_pos (by omega)]
      congr 1
  obtain ⟨xB, hbfB, hxB⟩ := hB
  have hrB : Ready filesys (setChunk xB sA) := Ready_setChunk filesys xB sA hrA
  have hfitB : LoadFits (setChunk xB sA)
      (max (setChunk xB sA).tmp_chunk_.dataSize (buffer_size + 1)) := by
    apply (LoadFits_max _ _ _).mpr
    constructor
    · show LoadFits (setChunk xB sA) xB.dataSize
      rw [hxB]
      exact LoadFits_of_same s1 _ _ hsr1.2.2.2.1.symm hsr1.2.2.1.symm hfit1
    · exact LoadFits_of_same sA _ _ rfl rfl ((LoadFits_max _ _ _).mp hfitA).2
  obtain ⟨blobs2, s2, hp2, _, _, hfl2, _⟩ :=
    consumeAll_total filesys hk hh buffer_size (setChunk xB sA) hrB hfitB
  refine ⟨sA, blobs, s1, setChunk xB sA, blobs2, s2, hbfA, hp1, hbfB, hcurA, hovA, hp2, ?_, ?_⟩
  · rw [hfl2, hfl1]
    rfl
  · intro hgrow
    unfold consumeAll at hp1 hp2
    have hfuel : consumeFuel (setChunk xB sA) = consumeFuel sA := rfl
    rw [hfuel] at hp2
    obtain ⟨t', ht⟩ := consume_sim filesys hk hh buffer_size (consumeFuel sA) sA s1 xB blobs
      (by rw [hxB, hgrow]; omega) hp1
    rw [ht] at hp2
    simp only [Except.ok.injEq, Prod.mk.injEq] at hp2
    exact hp2.1.symm

lemma lineHooks_inRange : HookInRange lineHooks := by
  intro b
  show lineFindLast b ≤ b.length
  unfold lineFindLast
  cases b with
  | nil => simp
  | cons a tl =>
    simp only
    split <;> omega

lemma soleSplit_record40_ready : Ready (oneFile record40) (soleSplit record40) := by
  unfold Ready Consistent Synced
  refine ⟨by decide, by decide, by decide, by decide, by decide, by decide, fun _ => ?_⟩
  exact ⟨{ path := "a", size := 40, type := .kFile }, 0, by decide, by decide, by decide,
    by decide, by decide⟩

lemma soleSplit_fourLines_ready : Ready (oneFile fourLines) (soleSplit fourLines) := by
  unfold Ready Consistent Synced
  refine ⟨by decide, by decide, by decide, by decide, by decide, by decide, fun _ => ?_⟩
  exact ⟨{ path := "a", size := 32, type := .kFile }, 0, by decide, by decide, by decide,
    by decide, by decide⟩

/-- C10 (amended): `Load(16)` on a fresh chunk over one 40-byte record offers
`ReadChunk` `16 * sizeof(size_t) = 128` bytes and succeeds at once, handing
out the 40 bytes with `data.size()` still 17; `Load(1)` over the same record
doubles `data.size()` from 2 to 4 to 8 (capacities 8, 24 and 56 bytes) before
it hands out the 40 bytes; and in general, when all that is left to hand out
is one record (`FindLastRecordBegin` returns the buffer start on every shorter
range), a `Load` that succeeds has offered `ReadChunk` a capacity of at least
the length of that record, and its span `[0, size)` holds the first `size`
bytes left (provided the sum of line 105 of `Read` never wraps: `LoadFits`). -/
theorem C10_load_succeeds_only_with_capacity :
    (blank.tmp_chunk_.Load (oneFile record40) lineHooks (soleSplit record40) 16).toOption.map
      (fun r => (r.1, r.2.1.dataSize, r.2.1.begin, r.2.1.end_, r.2.1.mem.take 40)) =
      some (true, 17, some 0, some 40, record40) ∧
    (blank.tmp_chunk_.Load (oneFile record40) lineHooks (soleSplit record40) 1).toOption.map
      (fun r => (r.1, r.2.1.dataSize, r.2.1.begin, r.2.1.end_, r.2.1.mem.take 40)) =
      some (true, 8, some 0, some 40, record40) ∧
    ∀ (filesys : FileSystem) (hk : Hooks) (c c' : Chunk) (s s' : InputSplitBase)
      (buffer_size : Nat), HookInRange hk → Ready filesys s →
      LoadFits s (max c.dataSize (buffer_size + 1)) →
      (∀ m, m < (pending filesys s).length →
        hk.FindLastRecordBegin ((pending filesys s).take m) = 0) →
      c.Load filesys hk s buffer_size = .ok (true, c', s') →
      (pending filesys s).length ≤ (c'.dataSize - 1) * sizeofSizeT ∧
      ∃ size, 0 < size ∧ size ≤ (pending filesys s).length ∧ c'.begin = some 0 ∧
        c'.end_ = some size ∧ c'.mem.take size = (pending filesys s).take size := by
  refine ⟨by decide, by decide, ?_⟩
  intro filesys hk c c' s s' buffer_size hh hr hfit hrec hload
  obtain ⟨hfa, hfb⟩ := (LoadFits_max s _ _).mp hfit
  unfold Chunk.Load at hload
  simp only at hload
  by_cases hb : buffer_size + 1 > c.dataSize
  · rw [if_pos hb] at hload
    obtain ⟨h1, _, size, h2, h3, h4, h5, h6, _⟩ :=
      LoadLoop_capacity filesys hk hh (loadFuel s) { c with dataSize := buffer_size + 1 } c' s s'
        hr hfb hrec hload
    exact ⟨h1, size, h2, h3, h4, h5, h6⟩
  · rw [if_neg hb] at hload
    obtain ⟨h1, _, size, h2, h3, h4, h5, h6, _⟩ :=
      LoadLoop_capacity filesys hk hh (loadFuel s) c c' s s' hr hfa hrec hload
    exact ⟨h1, size, h2, h3, h4, h5, h6⟩

/-- An instance of the general part of C10: `Load(1)` over the 40-byte record. -/
theorem C10_load_succeeds_only_with_capacity_witness :
    HookInRange lineHooks ∧ Ready (oneFile record40) (soleSplit record40) ∧
    LoadFits (soleSplit record40) (max blank.tmp_chunk_.dataSize (1 + 1)) ∧
    (∀ m, m < (pending (oneFile record40) (soleSplit record40)).length →
      lineHooks.FindLastRecordBegin ((pending (oneFile record40) (soleSplit record40)).take m) = 0) ∧
    blank.tmp_chunk_.Load (oneFile record40) lineHooks (soleSplit record40) 1 =
      .ok (true, loadedChunk load1, loadedSplit load1) ∧
    ((pending (oneFile record40) (soleSplit record40)).length ≤
      ((loadedChunk load1).dataSize - 1) * sizeofSizeT ∧
      ∃ size, 0 < size ∧ size ≤ (pending (oneFile record40) (soleSplit record40)).length ∧
        (loadedChunk load1).begin = some 0 ∧ (loadedChunk load1).end_ = some size ∧
        (loadedChunk load1).mem.take size =
          (pending (oneFile record40) (soleSplit record40)).take size) :=
  ⟨lineHooks_inRange, soleSplit_record40_ready, by decide, by decide, by decide,
    C10_load_succeeds_only_with_capacity.2.2 (oneFile record40) lineHooks blank.tmp_chunk_
      (loadedChunk load1) (soleSplit record40) (loadedSplit load1) 1 lineHooks_inRange
      soleSplit_record40_ready (by decide) (by decide) (by decide)⟩

/-- An instance of C8: the four lines of the counterexample, with
`buffer_size = 1`. -/
theorem C8_rewind_reproduces_blobs_witness :
    HookInRange lineHooks ∧ Ready (oneFile fourLines) (soleSplit fourLines) ∧
    LoadFits (soleSplit fourLines) (max (soleSplit fourLines).tmp_chunk_.dataSize (1 + 1)) ∧
    ∃ sA blobs s1 sB blobs2 s2,
      (soleSplit fourLines).BeforeFirst (oneFile fourLines) = .ok sA ∧
      consumeAll (oneFile fourLines) lineHooks 1 sA = .ok (blobs, s1) ∧
      s1.BeforeFirst (oneFile fourLines) = .ok sB ∧
      sB.offset_curr_ = sB.offset_begin_ ∧ sB.overflow_ = [] ∧
      consumeAll (oneFile fourLines) lineHooks 1 sB = .ok (blobs2, s2) ∧
      blobs2.flatten = blobs.flatten ∧
      (s1.tmp_chunk_.dataSize = max sA.tmp_chunk_.dataSize (1 + 1) → blobs2 = blobs) :=
  ⟨lineHooks_inRange, soleSplit_fourLines_ready, by decide,
    C8_rewind_reproduces_blobs (oneFile fourLines) lineHooks lineHooks_inRange 1
      (soleSplit fourLines) soleSplit_fourLines_ready (by decide)⟩

lemma firstSplit_reachable : Reachable fsLine lineHooks firstSplit :=
  Reachable.init blank "a" 0 4 1 firstSplit (by decide)

lemma Read_at_end (filesys : FileSystem) (s : InputSplitBase) (size : Nat)
    (h : s.offset_curr_ = s.offset_end_) (hsum : s.offset_curr_ + size < 2 ^ 64) :
    InputSplitBase.Read filesys s size = .ok (0, [], s) := by
  unfold InputSplitBase.Read
  simp only
  rw [readSize_eq s size (by omega) hsum, if_pos (by omega)]

lemma Init_raw_empty (filesys : FileSystem) (hk : Hooks) (this s : InputSplitBase) (uri : String)
    (rank nsplit align_bytes : Nat)
    (hraw : (this.InitInputFileInfo filesys uri).InitRaw rank nsplit align_bytes = .ok s)
    (he : s.offset_begin_ = s.offset_end_) :
    InputSplitBase.Init filesys hk this uri rank nsplit align_bytes = .ok s ∧
    s.fs_ = this.fs_ ∧ s.offset_curr_ = s.offset_end_ := by
  refine ⟨Init_of_empty filesys hk this s uri rank nsplit align_bytes hraw he, ?_, ?_⟩
  · obtain ⟨_, _, _, hs⟩ := InitRaw_ok _ _ _ _ _ hraw
    rw [hs]
    rfl
  · obtain ⟨_, _, _, hs⟩ := InitRaw_ok _ _ _ _ _ hraw
    rw [← he, hs]

lemma BeforeFirst_attached (filesys : FileSystem) (s : InputSplitBase) (f1 : FileInfo)
    (st : Stream) (hoffs : s.file_offset_ = fileOffsets s.files_)
    (hlt : s.offset_begin_ < s.offset_end_)
    (het : s.offset_end_ ≤ (fileOffsets s.files_).getLastD 0)
    (hf1 : s.files_[s.file_ptr_]? = some f1) (hfs : s.fs_ = some st)
    (hdata : st.data = filesys.bytes f1.path) :
    ∃ f off, s.files_[upper_bound (fileOffsets s.files_) s.offset_begin_ - 1]? = some f ∧
      (fileOffsets s.files_)[upper_bound (fileOffsets s.files_) s.offset_begin_ - 1]? = some off ∧
      off ≤ s.offset_begin_ ∧ s.offset_begin_ < off + f.size ∧
      s.BeforeFirst filesys = .ok (rewound filesys s f off) := by
  obtain ⟨off, h1, h2, _, h4, _⟩ := locate s.files_ s.offset_begin_
  obtain ⟨f, hf, hxf⟩ := h4 (by omega)
  refine ⟨f, off, hf, h1, h2, hxf, ?_⟩
  obtain ⟨files, offs, b, e, c, fp, fpe, fs, ov, ch⟩ := s
  obtain ⟨sd, sp⟩ := st
  simp only at hoffs hf1 hfs hf h1 hlt hdata
  subst hoffs hfs hdata
  unfold InputSplitBase.BeforeFirst rewound
  simp only [if_neg (show ¬ b ≥ e by omega)]
  by_cases hp : fp = upper_bound (fileOffsets files) b - 1
  · subst hp
    rw [hf] at hf1
    simp only [Option.some.injEq] at hf1
    subst hf1
    simp only [ne_eq, not_true_eq_false, if_false, h1, Stream.Seek]
  · simp only [ne_eq, hp, not_false_eq_true, if_true, hf, h1, Stream.Seek, FileSystem.OpenForRead]

lemma rewound_ready_of (filesys : FileSystem) (s : InputSplitBase) (f : FileInfo) (off : Nat)
    (hoffs : s.file_offset_ = fileOffsets s.files_) (hc : Consistent filesys s.files_)
    (het : s.offset_end_ ≤ (fileOffsets s.files_).getLastD 0)
    (hlt : s.offset_begin_ < s.offset_end_)
    (hf : s.files_[upper_bound (fileOffsets s.files_) s.offset_begin_ - 1]? = some f)
    (ho : (fileOffsets s.files_)[upper_bound (fileOffsets s.files_) s.offset_begin_ - 1]? = some off)
    (h1 : off ≤ s.offset_begin_) (h2 : s.offset_begin_ < off + f.size) :
    Ready filesys (rewound filesys s f off) := by
  refine ⟨hoffs, hc, le_refl _, by simp only [rewound]; omega, het, Nat.zero_le _, fun _ => ?_⟩
  refine ⟨f, off, hf, ?_, h1, by simp only [rewound]; omega, rfl⟩
  simp only [rewound]
  rw [hoffs]
  exact ho

lemma realignBegin_attached (filesys : FileSystem) (hk : Hooks) (hd : SeekKeepsData hk)
    (s : InputSplitBase) (hoffs : s.file_offset_ = fileOffsets s.files_)
    (hptr : s.file_ptr_ = upper_bound (fileOffsets s.files_) s.offset_begin_ - 1)
    (hlt : s.offset_begin_ < (fileOffsets s.files_).getLastD 0) :
    ∃ st f, s.files_[s.file_ptr_]? = some f ∧ st.data = filesys.bytes f.path ∧
      s.realignBegin filesys hk =
        .ok { s with fs_ := some st
                     offset_begin_ := realigned filesys hk s.files_ s.offset_begin_ } := by
  obtain ⟨files, offs, b, e, c, fp, fpe, fs, ov, ch⟩ := s
  simp only at hoffs hptr hlt
  subst hoffs hptr
  obtain ⟨off, h1, h2, _, h4, _⟩ := locate files b
  obtain ⟨f, hf, hxf⟩ := h4 hlt
  unfold InputSplitBase.realignBegin
  simp only [h1, hf]
  by_cases hne : b = off
  · rw [if_neg (by simpa using hne)]
    subst hne
    rw [realigned_of_start filesys hk files _ h1]
    exact ⟨_, f, rfl, rfl, rfl⟩
  · rw [if_pos hne, realigned_interior filesys hk files _ off f h1 hf hne]
    exact ⟨_, f, rfl, hd _, rfl⟩

/-- With a consistent filesystem, no wrap in lines 24-28 and a
`SeekRecordBegin` that only reads and stays inside the file, the split `Init`
returns for a rank below the worker count is in working order unless
realignment left the cursor before the begin of the range. -/
lemma Init_ready (filesys : FileSystem) (hk : Hooks) (this : InputSplitBase) (uri : String)
    (rank nsplit align_bytes : Nat) (hn : 0 < nsplit) (h32 : nsplit < 2 ^ 32)
    (ha : 0 < align_bytes) (hrk : rank < nsplit)
    (hdiv : ∀ f ∈ (this.InitInputFileInfo filesys uri).files_, f.size % align_bytes = 0)
    (hfit : StepFits ((fileOffsets (this.InitInputFileInfo filesys uri).files_).getLastD 0)
      nsplit align_bytes)
    (hc : Consistent filesys (this.InitInputFileInfo filesys uri).files_)
    (hb : SeekStaysInFile filesys hk (this.InitInputFileInfo filesys uri).files_ align_bytes)
    (hd : SeekKeepsData hk) (hov : this.overflow_ = []) :
    ∃ s, InputSplitBase.Init filesys hk this uri rank nsplit align_bytes = .ok s ∧
      (s.offset_begin_ ≤ s.offset_curr_ → Ready filesys s) := by
  obtain ⟨sR, hraw, hRf, hRo, hRb, hRe, hRc, hRv⟩ : ∃ sR,
      (this.InitInputFileInfo filesys uri).InitRaw rank nsplit align_bytes = .ok sR ∧
      sR.files_ = (this.InitInputFileInfo filesys uri).files_ ∧
      sR.file_offset_ = fileOffsets (this.InitInputFileInfo filesys uri).files_ ∧
      sR.offset_begin_ =
        rawBegin ((fileOffsets (this.InitInputFileInfo filesys uri).files_).getLastD 0)
          nsplit align_bytes rank ∧
      sR.offset_end_ =
        rawEnd ((fileOffsets (this.InitInputFileInfo filesys uri).files_).getLastD 0)
          nsplit align_bytes rank ∧
      sR.offset_curr_ = sR.offset_begin_ ∧ sR.overflow_ = this.overflow_ :=
    ⟨_, InitRaw_eq_ok _ rank nsplit align_bytes hn ha hdiv, rfl, rfl, rfl, rfl, rfl, rfl⟩
  have hdvd : ∀ f ∈ (this.InitInputFileInfo filesys uri).files_, align_bytes ∣ f.size :=
    fun f hf => Nat.dvd_of_mod_eq_zero (hdiv f hf)
  rw [← hRf] at hb hc hfit hdvd
  rw [← hRf] at hRo hRb hRe
  have hbe := rawBegin_le_rawEnd ((fileOffsets sR.files_).getLastD 0) nsplit align_bytes rank
    hfit hrk h32
  have het := rawEnd_le_total ((fileOffsets sR.files_).getLastD 0) nsplit align_bytes rank
  have hEa : align_bytes ∣ rawEnd ((fileOffsets sR.files_).getLastD 0) nsplit align_bytes rank := by
    rw [rawEnd_eq_rawBegin_succ _ _ _ rank hfit hrk h32]
    exact rawBegin_dvd _ _ _ (rank + 1) hfit (by omega)
      (fileOffsets_total_dvd sR.files_ align_bytes hdvd)
  rw [← hRb, ← hRe] at hbe
  rw [← hRe] at het hEa
  by_cases hemp : sR.offset_begin_ = sR.offset_end_
  · refine ⟨sR, Init_of_empty filesys hk this sR uri rank nsplit align_bytes hraw hemp, fun _ => ?_⟩
    refine ⟨hRo, hc, by omega, by omega, het, by rw [hRv, hov]; exact Nat.zero_le _, fun h => ?_⟩
    omega
  · have h2 := realignEnd_eq filesys hk
      { sR with
        file_ptr_ := upper_bound sR.file_offset_ sR.offset_begin_ - 1
        file_ptr_end_ := upper_bound sR.file_offset_ sR.offset_end_ - 1 }
      hRo (by simp only; rw [hRo]) het
    obtain ⟨st, f1, hf1, hdata, h3⟩ := realignBegin_attached filesys hk hd
      { sR with
        file_ptr_ := upper_bound sR.file_offset_ sR.offset_begin_ - 1
        file_ptr_end_ := upper_bound sR.file_offset_ sR.offset_end_ - 1
        offset_end_ := realigned filesys hk sR.files_ sR.offset_end_ }
      hRo (by simp only; rw [hRo]) (by simp only; omega)
    have hge := realigned_ge filesys hk sR.files_ sR.offset_end_
    have hle := realigned_le_total filesys hk sR.files_ sR.offset_end_ align_bytes hdvd hb
      hEa het
    by_cases hlt : realigned filesys hk sR.files_ sR.offset_begin_ <
        realigned filesys hk sR.files_ sR.offset_end_
    · obtain ⟨f, off, hf, ho, k1, k2, hbf⟩ := BeforeFirst_attached filesys
        { sR with
          file_ptr_ := upper_bound sR.file_offset_ sR.offset_begin_ - 1
          file_ptr_end_ := upper_bound sR.file_offset_ sR.offset_end_ - 1
          offset_end_ := realigned filesys hk sR.files_ sR.offset_end_
          fs_ := some st
          offset_begin_ := realigned filesys hk sR.files_ sR.offset_begin_ } f1 st
        hRo hlt hle hf1 rfl hdata
      refine ⟨_, Init_of_stages filesys hk this sR _ _ _ uri rank nsplit align_bytes hraw hemp
        h2 h3 hbf, fun _ => ?_⟩
      exact rewound_ready_of filesys _ f off hRo hc hle hlt hf ho k1 k2
    · refine ⟨_, Init_of_stages filesys hk this sR _ _ _ uri rank nsplit align_bytes hraw hemp
        h2 h3 (by unfold InputSplitBase.BeforeFirst; rw [if_pos (by simp only; omega)]), fun h => ?_⟩
      simp only at h
      omega

/-! ## ExtractNextChunk -/

/-- **C12.** For a chunk with `begin != end`, `ExtractNextChunk` returns true,
sets the blob to `dptr = chunk.begin`, `size = end - begin`, and leaves the
chunk with `begin == end` and `end` as it was; for a chunk with `begin == end`
it returns false and changes neither the chunk nor the blob. So a second call
on the chunk a first call left, whatever blob it is given, returns false and
changes nothing. -/
theorem C12_extract_hands_out_chunk_once (out_chunk : Blob) (chunk : Chunk) :
    (chunk.begin ≠ chunk.end_ →
      ExtractNextChunk out_chunk chunk =
        (true, { dptr := chunk.begin, size := chunk.end_.getD 0 - chunk.begin.getD 0 },
         { chunk with begin := chunk.end_ })) ∧
    (chunk.begin = chunk.end_ → ExtractNextChunk out_chunk chunk = (false, out_chunk, chunk)) ∧
    (ExtractNextChunk out_chunk chunk).2.2.begin = (ExtractNextChunk out_chunk chunk).2.2.end_ ∧
    (ExtractNextChunk out_chunk chunk).2.2.end_ = chunk.end_ ∧
    (∀ b : Blob, ExtractNextChunk b (ExtractNextChunk out_chunk chunk).2.2 =
      (false, b, (ExtractNextChunk out_chunk chunk).2.2)) := by
  have hsame : (ExtractNextChunk out_chunk chunk).2.2.begin =
      (ExtractNextChunk out_chunk chunk).2.2.end_ := by
    unfold ExtractNextChunk
    split
    · rename_i h; exact h
    · rfl
  refine ⟨?_, ?_, hsame, ?_, ?_⟩
  · intro h
    unfold ExtractNextChunk
    rw [if_neg h]
  · intro h
    unfold ExtractNextChunk
    rw [if_pos h]
  · unfold ExtractNextChunk
    split <;> rfl
  · intro b
    generalize (ExtractNextChunk out_chunk chunk).2.2 = c at hsame
    unfold ExtractNextChunk
    rw [if_pos hsame]

/-! ## The errors of Init -/

lemma InitRaw_error (s : InputSplitBase) (rank nsplit align_bytes : Nat) (e : Err)
    (h : s.InitRaw rank nsplit align_bytes = .error e) :
    e = .undefined "division by zero" ∨
    (e = .fatal "file do not align" ∧ ¬ (∀ f ∈ s.files_, f.size % align_bytes = 0)) := by
  unfold InputSplitBase.InitRaw at h
  split at h
  · simp only [Except.error.injEq] at h
    exact Or.inl h.symm
  · split at h
    · rename_i hdiv
      simp only [Except.error.injEq] at h
      exact Or.inr ⟨h.symm, hdiv⟩
    · split at h
      · simp only [Except.error.injEq] at h
        exact Or.inl h.symm
      · simp at h

lemma realignEnd_error (filesys : FileSystem) (hk : Hooks) (s : InputSplitBase) (e : Err)
    (h : s.realignEnd filesys hk = .error e) :
    (∃ w, e = .undefined w) ∨
    e = .fatal "Check failed: offset_end_ > file_offset_[file_ptr_end_]" ∨
    e = .fatal "Check failed: file_ptr_end_ < files_.size()" := by
  unfold InputSplitBase.realignEnd at h
  split at h
  · simp only [Except.error.injEq] at h
    exact Or.inl ⟨_, h.symm⟩
  · split at h
    · split at h
      · simp only [Except.error.injEq] at h
        exact Or.inr (Or.inl h.symm)
      · split at h
        · simp only [Except.error.injEq] at h
          exact Or.inr (Or.inr h.symm)
        · split at h
          · simp only [Except.error.injEq] at h
            exact Or.inl ⟨_, h.symm⟩
          · simp at h
    · simp at h

lemma realignBegin_error (filesys : FileSystem) (hk : Hooks) (s : InputSplitBase) (e : Err)
    (h : s.realignBegin filesys hk = .error e) : ∃ w, e = .undefined w := by
  unfold InputSplitBase.realignBegin at h
  split at h
  · simp only at h
    split at h <;> simp at h
  · simp only [Except.error.injEq] at h
    exact ⟨_, h.symm⟩
  · simp only [Except.error.injEq] at h
    exact ⟨_, h.symm⟩

lemma BeforeFirst_error (filesys : FileSystem) (s : InputSplitBase) (e : Err)
    (h : s.BeforeFirst filesys = .error e) : ∃ w, e = .undefined w := by
  unfold InputSplitBase.BeforeFirst at h
  split at h
  · simp at h
  · simp only at h
    split at h
    · rename_i e1 hre
      simp only [Except.error.injEq] at h
      subst h
      split at hre
      · split at hre
        · simp at hre
        · simp only [Except.error.injEq] at hre
          exact ⟨_, hre.symm⟩
      · simp at hre
    · split at h
      · simp at h
      · simp only [Except.error.injEq] at h
        exact ⟨_, h.symm⟩
      · simp only [Except.error.injEq] at h
        exact ⟨_, h.symm⟩

/-- The stage of `Init` an error comes from. -/
lemma Init_error (filesys : FileSystem) (hk : Hooks) (this : InputSplitBase) (uri : String)
    (rank nsplit align_bytes : Nat) (e : Err)
    (h : InputSplitBase.Init filesys hk this uri rank nsplit align_bytes = .error e) :
    (this.InitInputFileInfo filesys uri).InitRaw rank nsplit align_bytes = .error e ∨
    ∃ s, (this.InitInputFileInfo filesys uri).InitRaw rank nsplit align_bytes = .ok s ∧
      s.offset_begin_ ≠ s.offset_end_ ∧
      (InputSplitBase.realignEnd filesys hk
          { s with
            file_ptr_ := upper_bound s.file_offset_ s.offset_begin_ - 1
            file_ptr_end_ := upper_bound s.file_offset_ s.offset_end_ - 1 } = .error e ∨
       (∃ w, e = .undefined w)) := by
  unfold InputSplitBase.Init at h
  split at h
  · rename_i e1 he1
    simp only [Except.error.injEq] at h
    subst h
    exact Or.inl he1
  · rename_i s hraw
    right
    refine ⟨s, hraw, ?_⟩
    split at h
    · simp at h
    · rename_i hne
      refine ⟨hne, ?_⟩
      simp only at h
      split at h
      · rename_i e2 h2
        simp only [Except.error.injEq] at h
        subst h
        exact Or.inl h2
      · rename_i s2 h2
        right
        split at h
        · rename_i e3 h3
          simp only [Except.error.injEq] at h
          subst h
          exact realignBegin_error _ _ _ _ h3
        · exact BeforeFirst_error _ _ _ h

/-- **C14.** With a modulus `align_bytes ≥ 1`: if some indexed file has a size
that is not a multiple of `align_bytes`, `Init` fails with the fatal error
"file do not align", for every rank and every worker count (the check comes
before the ranges are computed, so also for ranks whose range is empty and
for a worker count of 0); and if every indexed file size is a multiple of
`align_bytes`, `Init` never ends in that error. -/
theorem C14_init_checks_alignment (filesys : FileSystem) (hk : Hooks) (this : InputSplitBase)
    (uri : String) (rank nsplit align_bytes : Nat) (ha : 1 ≤ align_bytes) :
    ((∃ f ∈ (this.InitInputFileInfo filesys uri).files_, f.size % align_bytes ≠ 0) →
      InputSplitBase.Init filesys hk this uri rank nsplit align_bytes =
        .error (.fatal "file do not align")) ∧
    ((∀ f ∈ (this.InitInputFileInfo filesys uri).files_, f.size % align_bytes = 0) →
      InputSplitBase.Init filesys hk this uri rank nsplit align_bytes ≠
        .error (.fatal "file do not align")) := by
  constructor
  · intro hbad
    have hraw : (this.InitInputFileInfo filesys uri).InitRaw rank nsplit align_bytes =
        .error (.fatal "file do not align") := by
      unfold InputSplitBase.InitRaw
      rw [if_neg (by omega), if_pos (by
        intro hall
        obtain ⟨f, hf, hne⟩ := hbad
        exact hne (hall f hf))]
    unfold InputSplitBase.Init
    rw [hraw]
  · intro hall h
    rcases Init_error _ _ _ _ _ _ _ _ h with hraw | ⟨s, _, _, hend | ⟨w, hw⟩⟩
    · rcases InitRaw_error _ _ _ _ _ hraw with h1 | ⟨_, h2⟩
      · simp at h1
      · exact h2 hall
    · rcases realignEnd_error _ _ _ _ hend with ⟨w, hw⟩ | hw | hw
      · simp at hw
      · simp at hw
      · simp at hw
    · simp at hw

/-- A file of 6 bytes fails the check for `align_bytes = 4` on rank 2 of 3,
a file of 4 bytes passes it. -/
theorem C14_init_checks_alignment_witness :
    1 ≤ 4 ∧
    InputSplitBase.Init (oneFile [1, 2, 3, 4, 5, 6]) lineHooks blank "a" 2 3 4 =
      .error (.fatal "file do not align") ∧
    InputSplitBase.Init (oneFile [1, 2, 3, 4]) lineHooks blank "a" 0 1 4 ≠
      .error (.fatal "file do not align") :=
  ⟨by decide,
   (C14_init_checks_alignment (oneFile [1, 2, 3, 4, 5, 6]) lineHooks blank "a" 2 3 4
      (by decide)).1 (by decide),
   (C14_init_checks_alignment (oneFile [1, 2, 3, 4]) lineHooks blank "a" 0 1 4
      (by decide)).2 (by decide)⟩

/-- C14 (counterexample): with `align_bytes = 0` the one indexed file, of 3
bytes, has a size that is not a multiple of `align_bytes`, and `Init` does not
end in the fatal error "file do not align": the remainder of line 20 divides
by zero. -/
theorem C14_zero_alignment_divides_by_zero :
    ((blank.InitInputFileInfo (oneFile [1, 2, 3]) "a").files_.map (fun f => f.size)) = [3] ∧
    (∃ f ∈ (blank.InitInputFileInfo (oneFile [1, 2, 3]) "a").files_, ¬ (0 ∣ f.size)) ∧
    InputSplitBase.Init (oneFile [1, 2, 3]) lineHooks blank "a" 0 1 0 =
      .error (.undefined "division by zero") ∧
    InputSplitBase.Init (oneFile [1, 2, 3]) lineHooks blank "a" 0 1 0 ≠
      .error (.fatal "file do not align") := by
  refine ⟨by decide, by decide, by decide, by decide⟩

/-! ## Read with 64-bit wraparound -/

/-- **C19.** In 64-bit arithmetic the truncation at the top of `Read` does not
cap every request. On the split of rank 0 of 4 over the file `abcde\ngh`
(range `[0, 6)`) with the cursor at 1 after `Read` of one byte, the request
`2^64 - 1` makes `offset_curr_ + size` wrap to 0, the test
`offset_curr_ + size > offset_end_` fails and the request stays `2^64 - 1`
instead of `min(size, offset_end_ - offset_curr_) = 5`; `Read` then returns
the 7 bytes up to the end of the file and leaves the cursor at 8, behind
`offset_end_ = 6`. -/
theorem C19_wrapped_sum_skips_truncation :
    InputSplitBase.Read fsLine firstSplit 1 = .ok (1, [97], firstSplitAt 1) ∧
    (firstSplitAt 1).offset_curr_ = 1 ∧ (firstSplitAt 1).offset_end_ = 6 ∧
    (firstSplitAt 1).readSize (2 ^ 64 - 1) = 2 ^ 64 - 1 ∧
    InputSplitBase.Read fsLine (firstSplitAt 1) (2 ^ 64 - 1) =
      .ok (7, [98, 99, 100, 101, 10, 103, 104], firstSplitAt 8) := by
  refine ⟨by decide, rfl, rfl, by decide, by decide⟩

/-! ## The indices of Init -/

lemma ReadChunk_ne_fuel (filesys : FileSystem) (hk : Hooks) (s : InputSplitBase)
    (mem : List UInt8) (max_size : Nat) :
    s.ReadChunk filesys hk mem max_size ≠ .error .fuel := by
  unfold InputSplitBase.ReadChunk
  split
  · simp
  · simp only
    split
    · rename_i e he
      intro h
      simp only [Except.error.injEq] at h
      subst h
      exact Read_ne_fuel _ _ _ he
    · split
      · simp
      · split <;> simp

lemma LoadLoop_error (filesys : FileSystem) (hk : Hooks) (fuel : Nat) (c : Chunk)
    (split : InputSplitBase) (e : Err)
    (h : split.ReadChunk filesys hk c.mem ((c.dataSize - 1) * sizeofSizeT) = .error e) :
    Chunk.LoadLoop filesys hk (fuel + 1) c split = .error e := by
  conv_lhs => unfold Chunk.LoadLoop
  simp only [h]

/-- Passes beyond those the loop of `Load` makes change nothing. -/
lemma LoadLoop_more_fuel (filesys : FileSystem) (hk : Hooks) :
    ∀ (fuel : Nat) (c : Chunk) (s : InputSplitBase),
      Chunk.LoadLoop filesys hk fuel c s ≠ .error .fuel →
      ∀ k, Chunk.LoadLoop filesys hk (fuel + k) c s = Chunk.LoadLoop filesys hk fuel c s := by
  intro fuel
  induction fuel with
  | zero =>
    intro c s h
    exact absurd rfl h
  | succ fuel ih =>
    intro c s h k
    rw [Nat.add_right_comm]
    cases hrc : s.ReadChunk filesys hk c.mem ((c.dataSize - 1) * sizeofSizeT) with
    | error e =>
      rw [LoadLoop_error filesys hk _ c s e hrc, LoadLoop_error filesys hk _ c s e hrc]
    | ok p =>
      obtain ⟨r, s1⟩ := p
      rw [LoadLoop_succ filesys hk _ c s s1 r hrc] at h ⊢
      rw [LoadLoop_succ filesys hk _ c s s1 r hrc]
      by_cases hret : r.ret = false
      · rw [if_pos hret, if_pos hret]
      · rw [if_neg hret] at h ⊢
        rw [if_neg hret]
        by_cases hsz : r.size = 0
        · rw [if_pos hsz] at h ⊢
          rw [if_pos hsz]
          exact ih _ s1 h k
        · rw [if_neg hsz, if_neg hsz]

/-- **C11.** The doubling loop of `Chunk::Load` does not end by returning
true or false from every reachable state: on the split `Init` returns for
rank 1 of 4 over `abcde\ngh` (range `[6, 6)`, cursor left at 2, stream at 7),
with the line hook, which returns a position inside the range it is given,
`Load(1)` ends in the fatal error of `Read`, however many passes the loop is
given. On a split in working order whose sizes fit `size_t`, `Load` does
return true or false, after at most
`overflow_.length() + (offset_end_ - offset_curr_) + 2` calls of `ReadChunk`
(more passes change nothing). -/
theorem C11_load_on_stale_split_never_returns :
    InputSplitBase.Init fsLine lineHooks blank "a" 1 4 1 = .ok staleSplit ∧
    Reachable fsLine lineHooks staleSplit ∧
    HookInRange lineHooks ∧
    (∀ k, Chunk.LoadLoop fsLine lineHooks
        (staleSplit.overflow_.length + (staleSplit.offset_end_ - staleSplit.offset_curr_) + 2 + k)
        { blank.tmp_chunk_ with dataSize := 1 + 1 } staleSplit =
      .error (.fatal "FILE size not calculated correctly")) ∧
    blank.tmp_chunk_.Load fsLine lineHooks staleSplit 1 =
      .error (.fatal "FILE size not calculated correctly") ∧
    ∀ (filesys : FileSystem) (hk : Hooks) (c : Chunk) (s : InputSplitBase) (buffer_size : Nat),
      Ready filesys s → HookInRange hk → LoadFits s (max c.dataSize (buffer_size + 1)) →
      (∃ b c' s', c.Load filesys hk s buffer_size = .ok (b, c', s')) ∧
      ∀ k, Chunk.LoadLoop filesys hk
          (s.overflow_.length + (s.offset_end_ - s.offset_curr_) + 2 + k)
          (if buffer_size + 1 > c.dataSize then { c with dataSize := buffer_size + 1 } else c) s =
        c.Load filesys hk s buffer_size := by
  have hload : blank.tmp_chunk_.Load fsLine lineHooks staleSplit 1 =
      .error (.fatal "FILE size not calculated correctly") := by decide
  refine ⟨by decide, Reachable.init blank "a" 1 4 1 staleSplit (by decide), lineHooks_inRange,
    ?_, hload, ?_⟩
  · intro k
    have h0 : Chunk.LoadLoop fsLine lineHooks
        (staleSplit.overflow_.length + (staleSplit.offset_end_ - staleSplit.offset_curr_) + 2)
        { blank.tmp_chunk_ with dataSize := 1 + 1 } staleSplit =
        .error (.fatal "FILE size not calculated correctly") := by decide
    rw [LoadLoop_more_fuel fsLine lineHooks _ _ staleSplit (by rw [h0]; simp) k, h0]
  · intro filesys hk c s buffer_size hr hh hfit
    obtain ⟨b, c', s', h, _⟩ := Load_total filesys hk hh c s buffer_size hr hfit
    refine ⟨⟨b, c', s', h⟩, fun k => ?_⟩
    have h1 : c.Load filesys hk s buffer_size ≠ .error .fuel := by
      rw [h]
      simp
    exact LoadLoop_more_fuel filesys hk _ _ s h1 k

/-! ## The fatal error of Read -/

lemma ReadLoop_fatal_iff (filesys : FileSystem) :
    ∀ (fuel : Nat) (s : InputSplitBase) (nleft : Nat) (buf : List UInt8) (msg : String),
      InputSplitBase.ReadLoop filesys fuel s nleft buf = .error (.fatal msg) ↔
        msg = "FILE size not calculated correctly" ∧
        ∃ p ∈ InputSplitBase.readPasses filesys fuel s nleft, OffBoundary p := by
  intro fuel
  induction fuel with
  | zero =>
    intro s nleft buf msg
    unfold InputSplitBase.ReadLoop InputSplitBase.readPasses
    simp
  | succ fuel ih =>
    intro s nleft buf msg
    unfold InputSplitBase.ReadLoop InputSplitBase.readPasses
    cases hfs : s.fs_ with
    | none => simp
    | some st =>
      simp only
      by_cases hz : nleft - (st.Read nleft).1.length = 0
      · simp only [hz, if_true, List.mem_singleton, exists_eq_left, OffBoundary]
        simp
      · simp only [hz, if_false]
        cases hoff : s.file_offset_[s.file_ptr_ + 1]? with
        | none =>
          simp only [List.mem_singleton, exists_eq_left, OffBoundary, hoff]
          simp
        | some off =>
          simp only
          by_cases hne : s.offset_curr_ + (st.Read nleft).1.length ≠ off
          · simp only [if_pos hne, List.mem_singleton, exists_eq_left, OffBoundary, hoff]
            simp only [Except.error.injEq, Err.fatal.injEq]
            constructor
            · intro h
              exact ⟨h.symm, by omega, off, rfl, hne⟩
            · intro h
              exact h.1.symm
          · simp only [if_neg hne]
            have heq : s.offset_curr_ + (st.Read nleft).1.length = off := by
              by_contra hc
              exact hne hc
            by_cases hlast : s.file_ptr_ + 1 ≥ s.files_.length
            · simp only [if_pos hlast, List.mem_singleton, exists_eq_left, OffBoundary, hoff]
              simp only [Option.some.injEq, exists_eq_left', heq]
              simp
            · simp only [if_neg hlast]
              cases hg : s.files_[s.file_ptr_ + 1]? with
              | none =>
                simp only [List.mem_singleton, exists_eq_left, OffBoundary, hoff]
                simp only [Option.some.injEq, exists_eq_left', heq]
                simp
              | some g =>
                simp only
                rw [ih]
                simp only [List.mem_cons]
                constructor
                · rintro ⟨h1, p, hp, hb⟩
                  exact ⟨h1, p, Or.inr hp, hb⟩
                · rintro ⟨h1, p, hp | hp, hb⟩
                  · subst hp
                    obtain ⟨_, o, ho, hneq⟩ := hb
                    simp only at ho hneq
                    rw [hoff] at ho
                    simp only [Option.some.injEq] at ho
                    subst ho
                    exact absurd heq hneq
                  · exact ⟨h1, p, hp, hb⟩

/-- **C13.** `Read` ends in a fatal error if and only if one of its stream
reads leaves the request unfinished (`nleft > 0`) while the updated
`offset_curr_` differs from `file_offset_[file_ptr_ + 1]`, and the error then
is "FILE size not calculated correctly". A pass of the loop whose read is
short and lands exactly on the end offset of the current file raises nothing:
after the last file the loop is left and `Read` returns short, otherwise the
loop goes on with the next file opened. -/
theorem C13_read_fatal_iff_off_boundary (filesys : FileSystem) (s : InputSplitBase)
    (size : Nat) :
    (∀ msg, InputSplitBase.Read filesys s size = .error (.fatal msg) ↔
      msg = "FILE size not calculated correctly" ∧
      ∃ p ∈ s.readTrace filesys size, OffBoundary p) ∧
    (∀ (fuel nleft : Nat) (buf : List UInt8) (st : Stream),
      s.fs_ = some st → (st.Read nleft).1.length < nleft →
      s.file_offset_[s.file_ptr_ + 1]? = some (s.offset_curr_ + (st.Read nleft).1.length) →
      (s.files_.length ≤ s.file_ptr_ + 1 →
        InputSplitBase.ReadLoop filesys (fuel + 1) s nleft buf =
          .ok (nleft - (st.Read nleft).1.length, buf ++ (st.Read nleft).1,
            { s with fs_ := some (st.Read nleft).2
                     offset_curr_ := s.offset_curr_ + (st.Read nleft).1.length })) ∧
      (∀ g, s.file_ptr_ + 1 < s.files_.length → s.files_[s.file_ptr_ + 1]? = some g →
        InputSplitBase.ReadLoop filesys (fuel + 1) s nleft buf =
          InputSplitBase.ReadLoop filesys fuel
            { s with fs_ := some (filesys.OpenForRead g.path)
                     offset_curr_ := s.offset_curr_ + (st.Read nleft).1.length
                     file_ptr_ := s.file_ptr_ + 1 }
            (nleft - (st.Read nleft).1.length) (buf ++ (st.Read nleft).1))) := by
  constructor
  · intro msg
    unfold InputSplitBase.Read InputSplitBase.readTrace
    simp only
    by_cases hz : s.readSize size = 0
    · simp [hz]
    · simp only [if_neg hz]
      rw [← ReadLoop_fatal_iff filesys _ s _ []]
      cases hloop : InputSplitBase.ReadLoop filesys (s.files_.length + 1) s (s.readSize size) [] with
      | error e => simp
      | ok v => simp
  · intro fuel nleft buf st hfs hshort hoff
    constructor
    · intro hlast
      conv_lhs => unfold InputSplitBase.ReadLoop
      simp only [hfs, hoff]
      rw [if_neg (by omega)]
      simp only [ne_eq, not_true_eq_false, if_false]
      rw [if_pos (by omega)]
    · intro g hnext hg
      exact ReadLoop_step_next filesys fuel s nleft buf st g hfs (by omega) hoff hnext hg

/-! ## The outcomes of ReadChunk -/

/-- **C16.** A call of `ReadChunk` with capacity `c` greater than the overflow
length, whose `Read` delivers `m` fresh bytes `got`, assembles
`buf[0..n) = overflow ++ got` with `n = overflow length + m` (at most `c`
when the cursor is not behind `offset_end_`); for `n == 0` it returns false; for `0 < n < c` it returns true with `*size = n` and an
empty overflow buffer; for `n == c` it returns true with `*size = k`, the
offset `FindLastRecordBegin` returns for `buf[0..n)`, and the overflow buffer
becomes `buf[k..n)`. A call with `c` at most the overflow length (`c = 0`
included) reads nothing and returns true with `*size = 0`; buffer and split
stay as they are. -/
theorem C16_readchunk_outcomes (filesys : FileSystem) (hk : Hooks) (s : InputSplitBase)
    (mem : List UInt8) (c : Nat) :
    (c ≤ s.overflow_.length →
      s.ReadChunk filesys hk mem c = .ok ({ ret := true, size := 0, buf := mem }, s)) ∧
    (s.overflow_.length < c → ∀ (m : Nat) (got : List UInt8) (s1 : InputSplitBase),
      InputSplitBase.Read filesys { s with overflow_ := [] } (c - s.overflow_.length) =
        .ok (m, got, s1) →
      (s.offset_curr_ ≤ s.offset_end_ → s.overflow_.length + m ≤ c) ∧
      (writeFront (s.overflow_ ++ got) mem).take (s.overflow_.length + m) = s.overflow_ ++ got ∧
      (s.overflow_.length + m = 0 →
        s.ReadChunk filesys hk mem c =
          .ok ({ ret := false, size := c, buf := writeFront (s.overflow_ ++ got) mem }, s1)) ∧
      (0 < s.overflow_.length + m → s.overflow_.length + m < c →
        s.ReadChunk filesys hk mem c =
          .ok ({ ret := true, size := s.overflow_.length + m,
                 buf := writeFront (s.overflow_ ++ got) mem }, s1) ∧
        s1.overflow_ = []) ∧
      (s.overflow_.length + m = c →
        s.ReadChunk filesys hk mem c =
          .ok ({ ret := true
                 size := hk.FindLastRecordBegin
                   ((writeFront (s.overflow_ ++ got) mem).take (s.overflow_.length + m))
                 buf := writeFront (s.overflow_ ++ got) mem },
               { s1 with
                 overflow_ :=
                   ((writeFront (s.overflow_ ++ got) mem).take (s.overflow_.length + m)).drop
                     (hk.FindLastRecordBegin
                       ((writeFront (s.overflow_ ++ got) mem).take (s.overflow_.length + m))) }))) := by
  constructor
  · exact ReadChunk_small filesys hk s mem c
  · intro hc m got s1 hread
    obtain ⟨b1, _, _, b4, b5, _⟩ := Read_bounds filesys _ _ _ _ _ hread
    obtain ⟨_, _, _, _, _, f6, _⟩ := b5
    simp only at f6
    have hrc := ReadChunk_of_read filesys hk s s1 mem got c m (by omega) hread
    have hw : (s.overflow_ ++ got).length = s.overflow_.length + m := by
      rw [List.length_append, b4]
    refine ⟨fun hle => by have := b1 hle; omega, ?_, ?_, ?_, ?_⟩
    · rw [writeFront_take _ _ _ (by omega)]
      exact List.take_of_length_le (by omega)
    · intro h0
      rw [hrc, if_pos (by omega)]
    · intro hpos hlt
      rw [hrc, if_neg (by omega), if_pos (by omega)]
      exact ⟨by rw [Nat.add_comm], f6⟩
    · intro hfull
      rw [hrc, if_neg (by omega), if_neg (by simp only [ne_eq, not_not]; omega)]
      unfold cutAtRecord
      rw [hfull, List.drop_take]

/-- **C17.** Of two consecutive calls of `ReadChunk`, the second with a
capacity greater than the overflow length the first left: the buffer the
second assembles starts with exactly those overflow bytes, and the bytes its
`Read` delivers follow right behind them. With a capacity of at most that
overflow length the second call assembles nothing: it returns true with
`*size = 0` and leaves buffer and split, the overflow bytes included, as they
are. -/
theorem C17_overflow_leads_next_buffer (filesys : FileSystem) (hk : Hooks)
    (s s1 s2 : InputSplitBase) (mem1 mem2 : List UInt8) (c1 c2 : Nat) (r1 r2 : ChunkResult)
    (h1 : s.ReadChunk filesys hk mem1 c1 = .ok (r1, s1))
    (h2 : s1.ReadChunk filesys hk mem2 c2 = .ok (r2, s2)) :
    (s1.overflow_.length < c2 → ∃ (m : Nat) (got : List UInt8) (s' : InputSplitBase),
      InputSplitBase.Read filesys { s1 with overflow_ := [] } (c2 - s1.overflow_.length) =
        .ok (m, got, s') ∧
      got.length = m ∧
      r2.buf = writeFront (s1.overflow_ ++ got) mem2 ∧
      r2.buf.take s1.overflow_.length = s1.overflow_ ∧
      (r2.buf.drop s1.overflow_.length).take m = got) ∧
    (c2 ≤ s1.overflow_.length → r2 = { ret := true, size := 0, buf := mem2 } ∧ s2 = s1) := by
  have _ := h1
  constructor
  · intro hc
    obtain ⟨m, got, s', hread⟩ :=
      ReadChunk_read_ok filesys hk s1 s2 mem2 c2 r2 (by omega) h2
    obtain ⟨_, _, _, b4, _⟩ := Read_bounds filesys _ _ _ _ _ hread
    have hbuf : r2.buf = writeFront (s1.overflow_ ++ got) mem2 := by
      rw [ReadChunk_of_read filesys hk s1 s' mem2 got c2 m (by omega) hread] at h2
      split at h2
      · simp only [Except.ok.injEq, Prod.mk.injEq] at h2
        rw [← h2.1]
      · split at h2
        · simp only [Except.ok.injEq, Prod.mk.injEq] at h2
          rw [← h2.1]
        · simp only [Except.ok.injEq, Prod.mk.injEq] at h2
          rw [← h2.1]
    refine ⟨m, got, s', hread, b4, hbuf, ?_, ?_⟩
    · rw [hbuf, writeFront_take _ _ _ (by rw [List.length_append]; omega)]
      exact List.take_left' rfl
    · rw [hbuf]
      unfold writeFront
      rw [List.append_assoc, List.drop_left' rfl]
      exact List.take_left' b4
  · intro hc
    rw [ReadChunk_small filesys hk s1 mem2 c2 hc] at h2
    simp only [Except.ok.injEq, Prod.mk.injEq] at h2
    exact ⟨h2.1.symm, h2.2.symm⟩

/-- On the split left by `Init` for rank 1 of 4 over `abcde\ngh` (cursor 2,
end 6, stream at 7), `Read(ptr, 4)` gets one byte from the stream, is left
with 3 bytes to read at cursor 3, not the end offset 8 of the file, and ends
in the fatal error. -/
theorem C13_read_fatal_iff_off_boundary_witness :
    InputSplitBase.Read fsLine staleSplit 4 = .error (.fatal "FILE size not calculated correctly") :=
  ((C13_read_fatal_iff_off_boundary fsLine staleSplit 4).1 _).2
    ⟨rfl,
     ({ staleSplit with
        fs_ := some { data := [97, 98, 99, 100, 101, 10, 103, 104], pos := 8 }
        offset_curr_ := 3 }, 3),
     by decide, by decide, 8, by decide, by decide⟩

/-- A call of `ReadChunk` with capacity 0 on a fresh split: no overflow
bytes, nothing read, so `n == 0`, and the call returns true with `*size = 0`. -/
theorem C16_zero_capacity_returns_true :
    InputSplitBase.Init fsLine lineHooks blank "a" 0 1 1 = .ok (wholeSplitAt 0 []) ∧
    (wholeSplitAt 0 []).overflow_ = [] ∧
    (wholeSplitAt 0 []).ReadChunk fsLine lineHooks [] 0 =
      .ok ({ ret := true, size := 0, buf := [] }, wholeSplitAt 0 []) := by
  refine ⟨by decide, rfl, by decide⟩

/-- The whole file `abcde\ngh` read with capacity 8: `n == c`, the last record
starts at 6, the call reports 6 bytes and keeps `gh` as overflow. With
capacity 0 the call returns true with `*size = 0`. -/
theorem C16_readchunk_outcomes_witness :
    (wholeSplitAt 0 []).ReadChunk fsLine lineHooks [] 8 =
      .ok ({ ret := true, size := 6, buf := [97, 98, 99, 100, 101, 10, 103, 104] },
           wholeSplitAt 8 [103, 104]) ∧
    (wholeSplitAt 0 []).ReadChunk fsLine lineHooks [] 0 =
      .ok ({ ret := true, size := 0, buf := [] }, wholeSplitAt 0 []) :=
  ⟨((C16_readchunk_outcomes fsLine lineHooks (wholeSplitAt 0 []) [] 8).2 (by decide) 8
      [97, 98, 99, 100, 101, 10, 103, 104] (wholeSplitAt 8 []) (by decide)).2.2.2.2 (by decide),
   (C16_readchunk_outcomes fsLine lineHooks (wholeSplitAt 0 []) [] 0).1 (by decide)⟩

/-- After a call with capacity 8 left the overflow bytes `gh` and the buffer
`abcde\ngh`, a second call with capacity 2 on that buffer returns true with
`*size = 0` and leaves the buffer alone: its first two bytes are `ab`, not the
overflow bytes. -/
theorem C17_small_capacity_assembles_nothing :
    (wholeSplitAt 0 []).ReadChunk fsLine lineHooks [] 8 =
      .ok ({ ret := true, size := 6, buf := [97, 98, 99, 100, 101, 10, 103, 104] },
           wholeSplitAt 8 [103, 104]) ∧
    (wholeSplitAt 8 [103, 104]).overflow_ = [103, 104] ∧
    (wholeSplitAt 8 [103, 104]).ReadChunk fsLine lineHooks
        [97, 98, 99, 100, 101, 10, 103, 104] 2 =
      .ok ({ ret := true, size := 0, buf := [97, 98, 99, 100, 101, 10, 103, 104] },
           wholeSplitAt 8 [103, 104]) ∧
    ([97, 98, 99, 100, 101, 10, 103, 104] : List UInt8).take 2 ≠ [103, 104] := by
  refine ⟨by decide, rfl, by decide, by decide⟩

/-- A call with capacity 4 leaves `abcd` as overflow; the call with capacity 8
that follows assembles `abcd` and behind it the 4 fresh bytes `e\ngh`. -/
theorem C17_overflow_leads_next_buffer_witness :
    (wholeSplitAt 0 []).ReadChunk fsLine lineHooks [] 4 =
      .ok ({ ret := true, size := 0, buf := [97, 98, 99, 100] },
           wholeSplitAt 4 [97, 98, 99, 100]) ∧
    (wholeSplitAt 4 [97, 98, 99, 100]).ReadChunk fsLine lineHooks [97, 98, 99, 100] 8 =
      .ok ({ ret := true, size := 6, buf := [97, 98, 99, 100, 101, 10, 103, 104] },
           wholeSplitAt 8 [103, 104]) ∧
    ∃ (m : Nat) (got : List UInt8) (s' : InputSplitBase),
      InputSplitBase.Read fsLine { wholeSplitAt 4 [97, 98, 99, 100] with overflow_ := [] }
        (8 - (wholeSplitAt 4 [97, 98, 99, 100]).overflow_.length) = .ok (m, got, s') ∧
      got.length = m ∧
      ({ ret := true, size := 6, buf := [97, 98, 99, 100, 101, 10, 103, 104] } :
          ChunkResult).buf =
        writeFront ((wholeSplitAt 4 [97, 98, 99, 100]).overflow_ ++ got) [97, 98, 99, 100] ∧
      ({ ret := true, size := 6, buf := [97, 98, 99, 100, 101, 10, 103, 104] } :
          ChunkResult).buf.take (wholeSplitAt 4 [97, 98, 99, 100]).overflow_.length =
        (wholeSplitAt 4 [97, 98, 99, 100]).overflow_ ∧
      (({ ret := true, size := 6, buf := [97, 98, 99, 100, 101, 10, 103, 104] } :
          ChunkResult).buf.drop (wholeSplitAt 4 [97, 98, 99, 100]).overflow_.length).take m =
        got :=
  ⟨by decide, by decide,
   (C17_overflow_leads_next_buffer fsLine lineHooks (wholeSplitAt 0 [])
      (wholeSplitAt 4 [97, 98, 99, 100]) (wholeSplitAt 8 [103, 104]) [] [97, 98, 99, 100] 4 8
      { ret := true, size := 0, buf := [97, 98, 99, 100] }
      { ret := true, size := 6, buf := [97, 98, 99, 100, 101, 10, 103, 104] }
      (by decide) (by decide)).1 (by decide)⟩

/-! ## The file index -/

lemma strtokAux_run (dlm : Char) :
    ∀ (w rest cur : List Char), dlm ∉ w →
      strtokAux dlm (w ++ rest) cur = strtokAux dlm rest (w.reverse ++ cur) := by
  intro w
  induction w with
  | nil => intro rest cur _; rfl
  | cons c w ih =>
    intro rest cur h
    have hc : c ≠ dlm := fun e => h (by rw [e]; exact List.mem_cons_self _ _)
    have hw : dlm ∉ w := fun e => h (List.mem_cons_of_mem _ e)
    rw [List.cons_append]
    conv_lhs => unfold strtokAux
    rw [if_neg hc, ih rest (c :: cur) hw, List.reverse_cons, List.append_assoc]
    rfl

/-- `strtok` with `;` gives back the paths a uri was joined from. -/
lemma strtokAux_join :
    ∀ paths : List String, (∀ p ∈ paths, p.data ≠ [] ∧ ';' ∉ p.data) →
      strtokAux ';' (joinChars paths) [] = paths := by
  intro paths
  induction paths with
  | nil => intro _; rfl
  | cons p ps ih =>
    intro h
    obtain ⟨hne, hsemi⟩ := h p (List.mem_cons_self _ _)
    have hrev : p.data.reverse ++ [] ≠ [] := by
      rw [List.append_nil]
      intro e
      exact hne (List.reverse_eq_nil_iff.mp e)
    have hmk : String.mk (p.data.reverse ++ []).reverse = p := by
      rw [List.append_nil, List.reverse_reverse]
    cases ps with
    | nil =>
      have hj : joinChars [p] = p.data ++ [] := by
        rw [List.append_nil]
        rfl
      rw [hj, strtokAux_run ';' p.data [] [] hsemi]
      unfold strtokAux
      rw [if_neg hrev, hmk]
    | cons q qs =>
      have hj : joinChars (p :: q :: qs) = p.data ++ ';' :: joinChars (q :: qs) := rfl
      rw [hj, strtokAux_run ';' p.data _ [] hsemi]
      conv_lhs => unfold strtokAux
      rw [if_pos rfl, if_neg hrev, hmk, ih (fun x hx => h x (List.mem_cons_of_mem _ hx))]

lemma pathFiles_listed (filesys : FileSystem) (paths : List String) :
    (paths.map (pathFiles filesys)).flatten = listedFiles filesys paths := by
  induction paths with
  | nil => rfl
  | cons p ps ih =>
    rw [List.map_cons, List.flatten_cons, ih]
    conv_rhs => unfold listedFiles
    congr 1
    unfold pathFiles
    simp only
    cases ht : (filesys.GetPathInfo p).type with
    | kDirectory =>
      simp only [if_true]
      apply List.filter_congr
      intro f _
      by_cases h1 : f.size = 0 <;> by_cases h2 : f.type = FileType.kFile <;>
        simp [h1, h2, Nat.pos_iff_ne_zero]
    | kFile =>
      simp only [reduceCtorEq, if_false]
      by_cases h0 : (filesys.GetPathInfo p).size = 0
      · rw [if_neg (by simpa using h0), if_neg (by omega)]
      · rw [if_pos h0, if_pos (by omega)]

lemma listedFiles_pos (filesys : FileSystem) (paths : List String) :
    ∀ f ∈ listedFiles filesys paths, 0 < f.size := by
  induction paths with
  | nil => intro f hf; simp [listedFiles] at hf
  | cons p ps ih =>
    intro f hf
    unfold listedFiles at hf
    rcases List.mem_append.mp hf with h | h
    · cases ht : (filesys.GetPathInfo p).type with
      | kDirectory =>
        rw [ht] at h
        simp only [List.mem_filter, decide_eq_true_eq] at h
        exact h.2.2
      | kFile =>
        rw [ht] at h
        simp only at h
        split at h
        · rename_i hpos
          simp only [List.mem_singleton] at h
          rw [h]
          exact hpos
        · simp at h
    · exact ih f h

/-- With files of non-zero size the table is strictly increasing. -/
lemma fileOffsets_strict (files : List FileInfo) (hpos : ∀ f ∈ files, 0 < f.size)
    (i j o q : Nat) (hij : i < j) (hi : (fileOffsets files)[i]? = some o)
    (hj : (fileOffsets files)[j]? = some q) : o < q := by
  have hlen := fileOffsets_length files
  have hjl : j < (fileOffsets files).length := by
    by_contra hc
    rw [List.getElem?_eq_none (by omega)] at hj
    simp at hj
  obtain ⟨f, hf⟩ : ∃ f, files[i]? = some f := by
    have hil : i < files.length := by omega
    exact ⟨files[i], List.getElem?_eq_getElem hil⟩
  obtain ⟨o', h1, h2⟩ := fileOffsets_step files i f hf
  rw [hi] at h1
  simp only [Option.some.injEq] at h1
  subst h1
  have hm := fileOffsets_mono files (i + 1) j _ _ (by omega) h2 hj
  have := hpos f (List.mem_iff_getElem?.mpr ⟨i, hf⟩)
  omega

/-- **C15.** On a fresh object, for every list of non-empty paths free of `;`
joined by `;`, and every filesystem answer, `InitInputFileInfo` leaves in
`files_` exactly: for each path in order, if it is a directory its listed
children that are regular files of non-zero size, in listing order, otherwise
the path itself when its size is non-zero. So every indexed file has a size
greater than 0, and the table `file_offset_` that `Init` builds from it
(entry 0 is 0, entry `i + 1` is entry `i` plus the size of file `i`, one more
entry than files) is strictly increasing. -/
theorem C15_file_index_is_listed_files (filesys : FileSystem) (this : InputSplitBase)
    (paths : List String) (hthis : this.files_ = [])
    (hp : ∀ p ∈ paths, p.data ≠ [] ∧ ';' ∉ p.data) :
    (this.InitInputFileInfo filesys (joinPaths paths)).files_ = listedFiles filesys paths ∧
    (∀ f ∈ (this.InitInputFileInfo filesys (joinPaths paths)).files_, 0 < f.size) ∧
    (∀ (rank nsplit align_bytes : Nat) (s : InputSplitBase),
      (this.InitInputFileInfo filesys (joinPaths paths)).InitRaw rank nsplit align_bytes =
        .ok s →
      s.files_ = listedFiles filesys paths ∧
      s.file_offset_.length = s.files_.length + 1 ∧
      s.file_offset_[0]? = some 0 ∧
      (∀ (i : Nat) (f : FileInfo), s.files_[i]? = some f →
        ∃ o, s.file_offset_[i]? = some o ∧ s.file_offset_[i + 1]? = some (o + f.size)) ∧
      (∀ i j o q : Nat, i < j → s.file_offset_[i]? = some o → s.file_offset_[j]? = some q →
        o < q)) := by
  have hfiles : (this.InitInputFileInfo filesys (joinPaths paths)).files_ =
      listedFiles filesys paths := by
    unfold InputSplitBase.InitInputFileInfo joinPaths
    simp only
    rw [hthis, List.nil_append, strtokAux_join paths hp, pathFiles_listed]
  refine ⟨hfiles, ?_, ?_⟩
  · rw [hfiles]
    exact listedFiles_pos filesys paths
  · intro rank nsplit align_bytes s hraw
    obtain ⟨_, _, _, hs⟩ := InitRaw_ok _ _ _ _ _ hraw
    subst hs
    simp only
    rw [hfiles]
    exact ⟨rfl, fileOffsets_length _, fileOffsets_zero _, fileOffsets_step _,
      fileOffsets_strict _ (listedFiles_pos filesys paths)⟩

/-- The uri `d;e;a` over `dirFs`: the directory `d` gives its two regular
files with data, the empty file `e` gives nothing, the file `a` gives itself. -/
theorem C15_file_index_is_listed_files_witness :
    blank.files_ = [] ∧ joinPaths ["d", "e", "a"] = "d;e;a" ∧
    (blank.InitInputFileInfo dirFs "d;e;a").files_ =
      [{ path := "d/x", size := 3, type := .kFile }, { path := "d/w", size := 2, type := .kFile },
       { path := "a", size := 4, type := .kFile }] ∧
    listedFiles dirFs ["d", "e", "a"] =
      [{ path := "d/x", size := 3, type := .kFile }, { path := "d/w", size := 2, type := .kFile },
       { path := "a", size := 4, type := .kFile }] :=
  ⟨rfl, by decide,
   ((C15_file_index_is_listed_files dirFs blank ["d", "e", "a"] rfl (by decide)).1.trans
     (by decide)),
   by decide⟩

/-! ## The spans of successive calls of Load -/

lemma loadSpans_succ (filesys : FileSystem) (hk : Hooks) (sizes : Nat → Nat) (fuel i : Nat)
    (c : Chunk) (s : InputSplitBase) :
    loadSpans filesys hk sizes (fuel + 1) i c s =
      match c.Load filesys hk s (sizes i) with
      | .error e => .error e
      | .ok (false, c1, s1) => .ok ([], c1, s1)
      | .ok (true, c1, s1) =>
        match loadSpans filesys hk sizes fuel (i + 1) c1 s1 with
        | .error e => .error e
        | .ok (spans, c2, s2) => .ok (c1.span :: spans, c2, s2) := by
  conv_lhs => unfold loadSpans

/-- From a split in working order, whatever the buffer sizes that fit
`size_t`, the calls of `Load` come to an end within `pending + 1` calls, and
their valid spans, put end to end, are the bytes that were still to hand
out. -/
lemma loadSpans_total (filesys : FileSystem) (hk : Hooks) (hh : HookInRange hk)
    (sizes : Nat → Nat) :
    ∀ (fuel i : Nat) (c : Chunk) (s : InputSplitBase), Ready filesys s →
      LoadFits s c.dataSize → (∀ j, LoadFits s (sizes j + 1)) →
      (pending filesys s).length < fuel →
      ∃ spans c' s', loadSpans filesys hk sizes fuel i c s = .ok (spans, c', s') ∧
        spans.flatten = pending filesys s ∧ Ready filesys s' ∧ pending filesys s' = [] := by
  intro fuel
  induction fuel with
  | zero => intro i c s _ _ _ h; omega
  | succ fuel ih =>
    intro i c s hr hfc hfs hfuel
    obtain ⟨b, c', s1, e1, e2, e3, _, _, e5, e6, e7⟩ := Load_total filesys hk hh c s (sizes i) hr
      ((LoadFits_max s _ _).mpr ⟨hfc, hfs i⟩)
    rw [loadSpans_succ, e1]
    cases b with
    | false =>
      obtain ⟨h1, h2⟩ := e6 rfl
      simp only
      refine ⟨[], c', s1, rfl, ?_, e2, ?_⟩
      · rw [h1]; rfl
      · rw [h2, h1]
    | true =>
      obtain ⟨size, g1, g2, g3, g4, g5, g6⟩ := e7 rfl
      simp only
      obtain ⟨spans, c2, s2, i1, i2, i3, i4⟩ := ih (i + 1) c' s1 e2 e5
        (fun j => LoadFits_of_same s s1 _ e3.2.2.2.1 e3.2.2.1 (hfs j))
        (by rw [g6, List.length_drop]; omega)
      rw [i1]
      simp only
      refine ⟨_, c2, s2, rfl, ?_, i3, i4⟩
      simp only [List.flatten_cons, i2, g6, Chunk.span, g3, g4, Option.getD_some, List.drop_zero,
        Nat.sub_zero, g5]
      exact List.take_append_drop size _

/-- At the start of a pass the bytes still to hand out are those of the range. -/
lemma pending_at_begin (filesys : FileSystem) (s : InputSplitBase)
    (hc : s.offset_curr_ = s.offset_begin_) (ho : s.overflow_ = []) :
    pending filesys s =
      ((concatBytes filesys s.files_).drop s.offset_begin_).take
        (s.offset_end_ - s.offset_begin_) := by
  unfold pending
  rw [ho, hc, List.nil_append]

/-- From a split in working order at the start of a pass (cursor at
`offset_begin_`, no overflow bytes), for every sequence of buffer sizes, the
valid spans of the successful calls of `Load` up to the first call that
returns false, put end to end, are the bytes `[offset_begin_, offset_end_)` of
the concatenation of the files, as long as the buffer sizes fit `size_t`. -/
lemma loadSpans_range (filesys : FileSystem) (hk : Hooks) (hh : HookInRange hk)
    (sizes : Nat → Nat) (c : Chunk) (s : InputSplitBase) (hr : Ready filesys s)
    (hfc : LoadFits s c.dataSize) (hfs : ∀ j, LoadFits s (sizes j + 1))
    (hc : s.offset_curr_ = s.offset_begin_) (ho : s.overflow_ = []) :
    ∃ spans c' s',
      loadSpans filesys hk sizes (s.offset_end_ - s.offset_begin_ + 1) 0 c s =
        .ok (spans, c', s') ∧
      spans.flatten =
        ((concatBytes filesys s.files_).drop s.offset_begin_).take
          (s.offset_end_ - s.offset_begin_) := by
  have hpl := pending_length filesys s hr
  obtain ⟨spans, c', s', h1, h2, _⟩ := loadSpans_total filesys hk hh sizes
    (s.offset_end_ - s.offset_begin_ + 1) 0 c s hr hfc hfs (by rw [hpl, ho, hc]; simp)
  exact ⟨spans, c', s', h1, by rw [h2, pending_at_begin filesys s hc ho]⟩

/-- **C18.** The split `Init` returns for rank 1 of 8 over the file
`abcde\nghijklmnop` (line records, `align_bytes = 1`) has the empty range
`[6, 6)`, yet the calls of `Load` on it hand out one span, the 4 bytes `hijk`,
before `Load` returns false: bytes of the ranges of other ranks, not the bytes
`[offset_begin_, offset_end_)`, which are none. -/
theorem C18_stale_split_hands_out_foreign_bytes :
    InputSplitBase.Init fsTail lineHooks blank "a" 1 8 1 = .ok staleTail ∧
    staleTail.offset_begin_ = 6 ∧ staleTail.offset_end_ = 6 ∧
    spansOf (loadSpans fsTail lineHooks (fun _ => 1) 3 0 blank.tmp_chunk_ staleTail) =
      some [[104, 105, 106, 107]] ∧
    ((concatBytes fsTail staleTail.files_).drop staleTail.offset_begin_).take
      (staleTail.offset_end_ - staleTail.offset_begin_) = [] := by
  refine ⟨by decide, rfl, rfl, by decide, by decide⟩

end dmlc
